import Mathlib

/-!
Shallow embedding of `sql_script_splitter.py` (class `SmallScript`, the
`clean_query` normalizer, the `re_expr` reference-matching rule, the dbt-config
transforms `dbt_cfg_enable_table` / `dbt_cfg_add_drop`, and the write loop
`create_new_script_files`).  Strings are modelled as `List Char`; Python
functions that can raise (`IndexError`, `Exception`) return `Option` / `Except`.
-/

namespace SqlSplit

abbrev Str := List Char

/-- The whitespace characters recognized by Python's `str.strip` / `str.isspace`
and by the regex class `\s` on `str` patterns (ASCII part plus the standard
Unicode whitespace code points). -/
def isPyWS (c : Char) : Bool :=
  c = ' ' || c = '\t' || c = '\n' || c = '\x0b' || c = '\x0c' || c = '\r' ||
  c = '\x1c' || c = '\x1d' || c = '\x1e' || c = '\x1f' || c = '\x85' || c = '\xa0' ||
  c = ' ' || (0x2000 ≤ c.toNat && c.toNat ≤ 0x200a) || c = ' ' ||
  c = ' ' || c = ' ' || c = ' ' || c = '\u3000'

/-- Python `str.lstrip()` on a list of characters. -/
def pyLstrip (l : Str) : Str := l.dropWhile isPyWS

/-- Python `str.rstrip()` on a list of characters. -/
def pyRstrip (l : Str) : Str := (l.reverse.dropWhile isPyWS).reverse

/-- Python `str.strip()` on a list of characters. -/
def pyStrip (l : Str) : Str := pyLstrip (pyRstrip l)

/-- Python `str.strip(",")` (strip commas from both ends). -/
def stripComma (l : Str) : Str :=
  ((l.dropWhile (· = ',')).reverse.dropWhile (· = ',')).reverse

/-- Python `s.split("\n", 1)`: the text up to the first newline, and (when a
newline exists) the remainder after it.  Also models `s.partition("\n")`. -/
def splitFirstNL : Str → Str × Option Str
  | [] => ([], none)
  | c :: cs =>
    if c = '\n' then ([], some cs)
    else
      let p := splitFirstNL cs
      (c :: p.1, p.2)

/-- Python `s.split("\n")`: the list of newline-separated lines (never empty;
the empty string gives one empty line). -/
def nlSplit : Str → List Str
  | [] => [[]]
  | c :: cs =>
    if c = '\n' then [] :: nlSplit cs
    else
      match nlSplit cs with
      | l :: ls => (c :: l) :: ls
      | [] => [[c]]

/-- A stripped line counts as removable in `clean_query` when it is empty or
starts with one of the two comment markers (`--`, `//`). -/
def lineBlankOrComment (l : Str) : Bool :=
  let f := pyStrip l
  f.isEmpty || f.take 2 = ['-', '-'] || f.take 2 = ['/', '/']

/-- The first `while` loop of `clean_query` viewed on the list of lines: each
iteration splits off the first line with `split("\n", 1)` and drops it while it
is blank or a comment.  When the current text holds no newline (one line left)
and that line is dropped, `split_script[1]` raises `IndexError`: `none`. -/
def startTrimL : List Str → Option (List Str)
  | [] => none
  | [l] => if lineBlankOrComment l then none else some [l]
  | l :: ls => if lineBlankOrComment l then startTrimL ls else some (l :: ls)

/-- The second `while` loop of `clean_query` on the reversed list of lines:
each iteration takes the last line with `rsplit("\n", 1)` and drops it while it
is blank or a comment.  `rsplit("\n", 1)[1]` raises `IndexError` as soon as the
current text holds no newline (one line left): `none`. -/
def endTrimRevL : List Str → Option (List Str)
  | [] => none
  | [_] => none
  | l :: ls => if lineBlankOrComment l then endTrimRevL ls else some (l :: ls)

/-- The second `while` loop of `clean_query` on the list of lines. -/
def endTrimL (ls : List Str) : Option (List Str) :=
  (endTrimRevL ls.reverse).map List.reverse

/-- The parenthesis-unwrapping step of `clean_query`.  Indexing `new_query[0]`
on an empty string raises `IndexError`, modelled as `none`. -/
def parenUnwrap (s : Str) : Option Str :=
  let t := pyStrip s
  if t.head? = some '(' ∧ t.getLast? = some ')' then
    match (t.drop 1).dropLast with
    | [] => none
    | c :: u => some (if c = '\n' then u else c :: u)
  else some s

/-- The line-boundary characters of Python `str.splitlines`. -/
def isLineBreak (c : Char) : Bool :=
  c = '\n' || c = '\r' || c = '\x0b' || c = '\x0c' || c = '\x1c' || c = '\x1d' ||
  c = '\x1e' || c = '\x85' || c = '\u2028' || c = '\u2029'

/-- Python `str.splitlines()` (`\r\n` counts as one boundary; a trailing
boundary does not open a new empty line). -/
def pySplitlines : Str → List Str
  | [] => []
  | [c] => if isLineBreak c then [[]] else [[c]]
  | c :: d :: cs =>
    if c = '\r' ∧ d = '\n' then [] :: pySplitlines cs
    else if isLineBreak c then [] :: pySplitlines (d :: cs)
    else
      match pySplitlines (d :: cs) with
      | l :: ls => (c :: l) :: ls
      | [] => [[c]]

/-- `SmallScript.clean_query`.  Cleans a raw query: trims blank/comment lines
from both ends, unwraps one outer parenthesis pair, strips trailing whitespace
from every line (`splitlines` / `rstrip` / `"\n".join`) and appends one
newline.  The Python code raises `IndexError` on inputs where a split produces
fewer pieces than it indexes; those paths are `none`. -/
def clean_query (query : Str) : Option Str := do
  let ls1 ← startTrimL (nlSplit query)
  let ls2 ← endTrimL ls1
  let s3 ← parenUnwrap (List.intercalate ['\n'] ls2)
  pure (List.intercalate ['\n'] ((pySplitlines s3).map pyRstrip) ++ ['\n'])

example : clean_query [] = none := by decide

example : clean_query ("select 1".toList) = none := by decide

example : clean_query ("select 1\nfrom t\n".toList) = some ("select 1\nfrom t\n".toList) := by
  decide

example : clean_query ("(\nselect 1\n\n)".toList) = some ("select 1\n\n".toList) := by
  decide

example : clean_query ("select 1\n\n".toList) = none := by decide

/-! ## The `SmallScript` entity and its classifier (`SmallScript.__init__`) -/

/-- One script entity split out of the larger script. -/
structure SmallScript where
  content : Str
  old_name : Option Str
  new_name : Str
  is_intermediate : Bool
deriving DecidableEq

/-- Python's f-string rendering of `old_name`, which is `None` when the first
line is a lone `with`: `str(None) = "None"`. -/
def oldNameText (o : Option Str) : Str := o.getD ("None".toList)

/-- Python `str.lower()` (ASCII model). -/
def pyLower (l : Str) : Str := l.map Char.toLower

/-- Python `s.split(" ")`. -/
def spaceSplit : Str → List Str
  | [] => [[]]
  | c :: cs =>
    if c = ' ' then [] :: spaceSplit cs
    else
      match spaceSplit cs with
      | l :: ls => (c :: l) :: ls
      | [] => [[c]]

/-- `self.new_reference = f' {{{{ ref("{new_name}") }}}}'`. -/
def new_reference (new_name : Str) : Str :=
  (" \x7b\x7b ref(\"").toList ++ new_name ++ ("\") \x7d\x7d").toList

/-- `SmallScript.__init__`: clean the raw block, inspect the first line's
first (and second) whitespace-separated word after stripping a `,` marker, and
classify the block as final/standalone (`{{` or `select`) or intermediate.
Failing `clean_query` calls and the `first_words[0]` lookup on an all-comma
first line raise `IndexError`: `none`. -/
def SmallScript.init (old_script base_script final_script : Str) :
    Option SmallScript := do
  let clean_script ← clean_query old_script
  let p := splitFirstNL clean_script
  let other_lines := (p.2).getD []
  let first_words := (spaceSplit (pyLower (stripComma (pyStrip p.1)))).filter (· ≠ [])
  let first_word ← first_words.head?
  let second_word := first_words[1]?
  if first_word = ("\x7b\x7b").toList ∨ first_word = ("select").toList then
    pure ⟨clean_script, some base_script, final_script, false⟩
  else do
    let content ← clean_query other_lines
    let old_name := if first_word = ("with").toList then second_word else some first_word
    pure ⟨content, old_name, final_script ++ '_' :: oldNameText old_name, true⟩

example :
    SmallScript.init (", b as\n(\nselect 1\nfrom x\n)".toList) ("orig".toList) ("out".toList) =
      some ⟨"select 1\nfrom x\n".toList, some ("b".toList), "out_b".toList, true⟩ := by
  decide

example :
    SmallScript.init ("\n\nselect 1\nfrom b\n".toList) ("orig".toList) ("out".toList) =
      some ⟨"select 1\nfrom b\n".toList, some ("orig".toList), "out".toList, false⟩ := by
  decide

/-! ## The reference-matching rule `re_expr` and its substitution

`self.re_expr = re.compile(rf"(?<=(from|join))\s{{1,}}{old_name}")`: a
lookbehind for the literal characters `from` or `join`, one or more whitespace
characters, then the characters of `old_name` (the name is interpolated into
the pattern and is modelled as a literal string). -/

/-- The lookbehind `(?<=(from|join))`: the text before the match position ends
with `from` or `join`. -/
def fjEnds (p : Str) : Bool :=
  ("from").toList.isSuffixOf p || ("join").toList.isSuffixOf p

/-- `re_expr.search` semantics: some position of `s` passes the lookbehind and
is followed by at least one whitespace character and then `old_name`. -/
def re_expr_search (old_name s : Str) : Bool :=
  (List.range (s.length + 1)).any fun i =>
    fjEnds (s.take i) &&
      ((List.range (s.length + 1)).any fun k =>
        1 ≤ k && i + k ≤ s.length &&
        ((s.drop i).take k).all isPyWS && old_name.isPrefixOf ((s.drop i).drop k))

/-- Declarative reading of a `re_expr` match: an occurrence of `old_name`
immediately preceded by text ending in `from`/`join` plus nonempty whitespace. -/
def HasFJMatch (old s : Str) : Prop :=
  ∃ p w t, s = p ++ w ++ old ++ t ∧ fjEnds p = true ∧ w ≠ [] ∧ w.all isPyWS = true

example : re_expr_search ("a".toList) ("from ab".toList) = true := by decide
example : re_expr_search ("a".toList) ("x from\na".toList) = true := by decide
example : re_expr_search ("a".toList) ("select a".toList) = false := by decide

/-- The lookbehind test on a reversed already-scanned prefix. -/
def fjEndsRev (rp : Str) : Bool :=
  rp.take 4 = ['m', 'o', 'r', 'f'] || rp.take 4 = ['n', 'i', 'o', 'j']

/-- Length of the leading whitespace run. -/
def wsRunLen (s : Str) : Nat := (s.takeWhile isPyWS).length

/-- Greedy matching of `\s{1,}old` at the current position: try the longest
whitespace count first and backtrack downwards, as the regex engine does.
Returns the total matched length. -/
def findK (old rest : Str) : Nat → Option Nat
  | 0 => none
  | k + 1 =>
    if old.isPrefixOf (rest.drop (k + 1)) then some (k + 1 + old.length)
    else findK old rest k

/-- One match attempt of `re_expr` at the current position: the lookbehind on
the reversed scanned prefix, then `\s{1,}old` greedily. -/
def tryFJMatch (old : Str) (rp rest : Str) : Option Nat :=
  if fjEndsRev rp then findK old rest (wsRunLen rest) else none

/-- The scan of `re_expr.sub`: left to right over the original characters,
replacing every non-overlapping match (lookbehind reads the original text).
`rp` is the reversed original prefix already passed; `skip` counts characters
of a replaced match still to consume. -/
def re_expr_sub_aux (old repl : Str) : Str → Nat → Str → Str
  | _, _, [] => []
  | rp, skip + 1, c :: rest => re_expr_sub_aux old repl (c :: rp) skip rest
  | rp, 0, c :: rest =>
    match tryFJMatch old rp (c :: rest) with
    | some n => repl ++ re_expr_sub_aux old repl (c :: rp) (n - 1) rest
    | none => c :: re_expr_sub_aux old repl (c :: rp) 0 rest

/-- `re_expr.sub(repl, s)`. -/
def re_expr_sub (old repl s : Str) : Str := re_expr_sub_aux old repl [] 0 s

example :
    re_expr_sub ("a".toList) (new_reference ("out_a".toList)) ("select *\nfrom a\n".toList) =
      ("select *\nfrom \x7b\x7b ref(\"out_a\") \x7d\x7d\n".toList) := by decide

example :
    re_expr_sub ("a".toList) (new_reference ("out_a".toList)) ("from a join  a\n".toList) =
      ("from \x7b\x7b ref(\"out_a\") \x7d\x7d join \x7b\x7b ref(\"out_a\") \x7d\x7d\n".toList) := by
  decide

/-! ## `dbt_cfg_enable_table` -/

/-- Lazy `[ ]{0,}?lit`: the least number of spaces after which the literal
`lit` follows; returns the total consumed length.  (With `lit` starting in a
non-space character at most one space count can succeed, so lazy matching and
backtracking agree with this.) -/
def spacesThenLit (lit : Str) : Str → Option Nat
  | [] => if lit.isPrefixOf [] then some lit.length else none
  | c :: s =>
    if lit.isPrefixOf (c :: s) then some lit.length
    else if c = ' ' then (spacesThenLit lit s).map (· + 1)
    else none

/-- A match of `enabled[ ]{0,}?=[ ]{0,}?false` starting at the head of `s`;
returns the matched length. -/
def matchEnableAt (s : Str) : Option Nat :=
  if ("enabled").toList.isPrefixOf s then
    match spacesThenLit ['='] (s.drop 7) with
    | none => none
    | some n1 =>
      match spacesThenLit ("false").toList (s.drop (7 + n1)) with
      | none => none
      | some n2 => some (7 + n1 + n2)
  else none

/-- The scan of `enable_r.sub("enabled = true", dbt_config)` over all
non-overlapping matches.  (The Python function guards the `sub` with a
`search`; when there is no match the `sub` is the identity, so the guard does
not change the result.) -/
def dbt_cfg_enable_aux : Nat → Str → Str
  | _, [] => []
  | skip + 1, _ :: r => dbt_cfg_enable_aux skip r
  | 0, c :: r =>
    match matchEnableAt (c :: r) with
    | some n => ("enabled = true").toList ++ dbt_cfg_enable_aux (n - 1) r
    | none => c :: dbt_cfg_enable_aux 0 r

/-- `dbt_cfg_enable_table`: rewrite `enabled ... = ... false` to
`enabled = true`. -/
def dbt_cfg_enable_table (dbt_config : Str) : Str := dbt_cfg_enable_aux 0 dbt_config

example :
    dbt_cfg_enable_table ("a, enabled  =false, b".toList) = ("a, enabled = true, b".toList) := by
  decide

example : dbt_cfg_enable_table ("a, b".toList) = ("a, b".toList) := by decide

/-! ## `dbt_cfg_add_drop` -/

/-- A match of `post_hook\s*=\s*\[(\s*)` starting at the head of `s`: the
literal `post_hook`, a greedy whitespace run, `=`, a greedy whitespace run,
`[`, then the captured greedy whitespace run.  Returns the matched length and
the captured group. -/
def matchPostAt (s : Str) : Option (Nat × Str) :=
  if ("post_hook").toList.isPrefixOf s then
    let r1 := s.drop 9
    let w1 := wsRunLen r1
    if (r1.drop w1).head? = some '=' then
      let r2 := r1.drop (w1 + 1)
      let w2 := wsRunLen r2
      if (r2.drop w2).head? = some '[' then
        let sp := (r2.drop (w2 + 1)).takeWhile isPyWS
        some (9 + w1 + 1 + w2 + 1 + sp.length, sp)
      else none
    else none
  else none

/-- `post_r.search(dbt_config)`: the captured spacing group of the first
match.  (The Python code reads `groups()[0]`; the pattern always has exactly
one group, so the `"\n    "` fallback for a groupless match is dead code.) -/
def searchPost : Str → Option Str
  | [] => none
  | c :: r =>
    match matchPostAt (c :: r) with
    | some p => some p.2
    | none => searchPost r

/-- The scan of `post_r.sub(post_string, dbt_config)` over all
non-overlapping matches. -/
def subPostAux (repl : Str) : Nat → Str → Str
  | _, [] => []
  | skip + 1, _ :: r => subPostAux repl skip r
  | 0, c :: r =>
    match matchPostAt (c :: r) with
    | some p => repl ++ subPostAux repl (p.1 - 1) r
    | none => c :: subPostAux repl 0 r

/-- The `post_string` drop statements: one quoted `drop table` statement per
intermediate script, each followed by the captured spacing. -/
def drop_statements (scripts : List SmallScript) (sp : Str) : Str :=
  (scripts.filter (·.is_intermediate)).flatMap fun scr =>
    ("'drop table ").toList ++ new_reference scr.new_name ++ ("',").toList ++ sp

/-- `dbt_cfg_add_drop`: insert the drop statements at the head of the
`post_hook` list.  Raises (`Except.error`, with the Python message) when the
pattern does not occur. -/
def dbt_cfg_add_drop (dbt_config : Str) (scripts : List SmallScript) : Except Str Str :=
  match searchPost dbt_config with
  | none =>
    .error ("post_hook not found, please add it so drop statements can be added.").toList
  | some sp =>
    let post_string := ("post_hook = [").toList ++ sp ++ drop_statements scripts sp
    .ok (subPostAux post_string 0 dbt_config)

/-! ## `create_new_script_files` -/

/-- The inner `for ref_script in scripts` loop: substitute every script's
`re_expr` by its `new_reference`, in list order, in the given content. -/
def rewrite_content (scripts : List SmallScript) (content : Str) : Str :=
  scripts.foldl
    (fun c r => re_expr_sub (oldNameText r.old_name) (new_reference r.new_name) c) content

/-- The body of the `for scr in scripts` write loop of
`create_new_script_files`, threading the mutated `dbt_config`.  Returns the
`(file name, file text)` pairs written before any exception, and the message of
the exception that aborted the loop, if one was raised. -/
def create_files_go (all : List SmallScript) (drop_intermediate : Bool) :
    List SmallScript → Str → List (Str × Str) × Option Str
  | [], _ => ([], none)
  | scr :: rest, cfg =>
    let content2 := rewrite_content all scr.content
    match (if drop_intermediate then dbt_cfg_add_drop cfg all else .ok cfg) with
    | .error e => ([], some e)
    | .ok cfg2 =>
      let out := if scr.is_intermediate then content2 else cfg2 ++ '\n' :: content2
      let p := create_files_go all drop_intermediate rest cfg2
      ((scr.new_name ++ (".sql").toList, out) :: p.1, p.2)

/-- `create_new_script_files`: enable the final model in the config, then for
every script rewrite its references, re-apply `dbt_cfg_add_drop` when
`drop_intermediate` is set, prepend the config to the final script, and write
`{new_name}.sql`. -/
def create_new_script_files (scripts : List SmallScript) (drop_intermediate : Bool)
    (dbt_config : Str) : List (Str × Str) × Option Str :=
  create_files_go scripts drop_intermediate scripts (dbt_cfg_enable_table dbt_config)

/-! ## Auxiliary notions used to state the properties -/

/-- An identifier-like character (letter, digit or underscore). -/
def isIdChar (c : Char) : Bool := c.isAlphanum || c = '_'

/-- A nonempty identifier-like name, as the well-formed table names and script
names of the input contract are. -/
def idLike (l : Str) : Bool := !l.isEmpty && l.all isIdChar

/-- Does `l` occur as a contiguous substring of `s`? -/
def occursIn (l s : Str) : Bool :=
  (List.range (s.length + 1)).any fun i => l.isPrefixOf (s.drop i)

/-- Number of occurrence positions of `l` in `s`. -/
def countOccur (l s : Str) : Nat :=
  ((List.range (s.length + 1)).filter fun i => l.isPrefixOf (s.drop i)).length

/-- Number of lines of `s` (split at `"\n"`) that are neither blank nor a
`--`/`//` comment. -/
def substantiveLineCount (s : Str) : Nat :=
  ((nlSplit s).filter fun l => !lineBlankOrComment l).length

/-- Does the `enabled ... = ... false` pattern match anywhere in `s`? -/
def hasEnableMatch (s : Str) : Bool :=
  (List.range (s.length + 1)).any fun i => (matchEnableAt (s.drop i)).isSome

/-- An occurrence of `V` preceded by nonempty whitespace whose lookbehind
window ends in `from`/`join`; the window may extend past the front of `s` into
the reversed context `rctx` of already-scanned text. -/
def Mocc (V rctx s : Str) : Prop :=
  ∃ p w t, s = p ++ (w ++ (V ++ t)) ∧ fjEndsRev (p.reverse ++ rctx) = true ∧
    w ≠ [] ∧ w.all isPyWS = true

/-- Relation between the scanner's reversed original prefix `rp` and the
reversed prefix `rctx` of the partially built output: both start with a common
block of characters copied since the last replacement, after which the output
side enters a replacement block (whose last character is `\x7d`). -/
def CtxRel (rp rctx : Str) : Prop :=
  rctx = rp ∨ ∃ com cd rd, rctx = com ++ '}' :: cd ∧ rp = com ++ rd


/-! ## The segmentation `get_individual_scripts_and_dbt_config` -/

/-- The tail `.*\n?(?=\()` of the first split pattern, with the group ending
after `j` characters of the line `L` (followed by `after`): `\n?` is greedy,
so a newline is consumed before the lookahead whenever possible.  Returns the
consumed length past the leading newline and the captured group. -/
def s1TryJ (L after : Str) (j : Nat) : Option (Nat × Str) :=
  if (L.drop j ++ after).take 2 = ['\n', '('] then some (j + 1, L.take j)
  else if (L.drop j ++ after).take 1 = ['('] then some (j, L.take j)
  else none

/-- Matching `(,.* as.*)\n?(?=\()` against the line `L` followed by `after`.
`.` cannot cross a newline, and both `.*` are greedy, so the position `q`
where the literal ` as` starts and the group length `j` are tried from the
largest values downwards. -/
def s1AtLine (L after : Str) : Option (Nat × Str) :=
  if L.head? = some ',' then
    (List.range (L.length + 1)).reverse.findSome? fun q =>
      if 1 ≤ q ∧ (" as").toList.isPrefixOf (L.drop q) then
        (List.range (L.length + 1)).reverse.findSome? fun j =>
          if q + 3 ≤ j then s1TryJ L after j else none
      else none
  else none

/-- A match of `\n(,.* as.*)\n?(?=\()` at the head of `s`: the total consumed
length (including the leading newline) and the captured group. -/
def matchS1At : Str → Option (Nat × Str)
  | [] => none
  | c :: r =>
    if c = '\n' then
      (s1AtLine (r.takeWhile (· ≠ '\n')) (r.dropWhile (· ≠ '\n'))).map fun p => (p.1 + 1, p.2)
    else none

/-- The scan of the first `re.split`: emit the text before each match and the
captured group, then continue after the consumed text.  `skip` counts match
characters still to pass over. -/
def split1Go : Str → Nat → Str → List Str
  | acc, _, [] => [acc.reverse]
  | acc, skip + 1, _ :: r => split1Go acc skip r
  | acc, 0, c :: r =>
    match matchS1At (c :: r) with
    | some (n, g) => acc.reverse :: g :: split1Go [] (n - 1) r
    | none => split1Go (c :: acc) 0 r

/-- `re.split(r"\n(,.* as.*)\n?(?=\()", all)`: the list of slices with the
captured groups interleaved. -/
def split1 (s : Str) : List Str := split1Go [] 0 s

/-- The scan behind `re.split(r"\nwith ", s, 1)`: the text before the first
occurrence of the literal and the text after it; `none` when the literal does
not occur (the Python two-name unpacking then raises `ValueError`). -/
def splitWith1Aux : Str → Str → Option (Str × Str)
  | _, [] => none
  | acc, c :: r =>
    if ("\nwith ").toList.isPrefixOf (c :: r) then some (acc.reverse, (c :: r).drop 6)
    else splitWith1Aux (c :: acc) r

/-- `re.split(r"\nwith ", s, 1)` as the pair of its two parts. -/
def splitWith1 (s : Str) : Option (Str × Str) := splitWith1Aux [] s

/-- One repetition of `(?:[ ]*--.*)?\n` at the head of `s`: the consumed
length, when it matches.  The optional part requires the run of spaces to be
followed by `--` and the line to end in a newline; otherwise only a bare
newline matches. -/
def s3Block (s : Str) : Option Nat :=
  if s.take 1 = ['\n'] then some 1
  else
    if ("--").toList.isPrefixOf (s.drop (s.takeWhile (· = ' ')).length) then
      if ((s.drop (s.takeWhile (· = ' ')).length).drop
          ((s.drop (s.takeWhile (· = ' ')).length).takeWhile (· ≠ '\n')).length).take 1 =
          ['\n'] then
        some ((s.takeWhile (· = ' ')).length +
          ((s.drop (s.takeWhile (· = ' ')).length).takeWhile (· ≠ '\n')).length + 1)
      else none
    else none

/-- The cumulative consumed lengths of the nonempty chains of repetitions of
`(?:(?:[ ]*--.*)?\n)`, shortest first; fueled by the length of `s` (each
repetition consumes at least one character). -/
def s3Chain : Nat → Str → List Nat
  | 0, _ => []
  | fuel + 1, s =>
    match s3Block s with
    | none => []
    | some n => n :: (s3Chain fuel (s.drop n)).map (n + ·)

/-- A match of `(?i)(?<=\))((?:(?:[ ]*--.*)?\n)+select)` at the head of `s`
with reversed scanned prefix `rp`: the lookbehind requires a closing
parenthesis right before the position, and the greedy `+` selects the longest
block chain followed by a case-insensitive `select`.  Returns the consumed
length and the captured group (the whole match). -/
def matchS3At (rp s : Str) : Option (Nat × Str) :=
  if rp.head? = some ')' then
    (s3Chain s.length s).reverse.findSome? fun n =>
      if ("select").toList.isPrefixOf (pyLower (s.drop n)) then some (n + 6, s.take (n + 6))
      else none
  else none

/-- The text between the first match of the third pattern and the next one
(or the end of the string): `last_scripts[2]`. -/
def seg3After : Str → Str → Str
  | _, [] => []
  | rp, c :: r =>
    match matchS3At rp (c :: r) with
    | some _ => []
    | none => c :: seg3After (c :: rp) r

/-- The scan behind the first three parts of
`re.split(r"(?i)(?<=\))((?:(?:[ ]*--.*)?\n)+select)", s)`. -/
def split3Go : Str → Str → Option (Str × Str × Str)
  | _, [] => none
  | rp, c :: r =>
    match matchS3At rp (c :: r) with
    | some (n, g) =>
      some (rp.reverse, g, seg3After (((c :: r).take n).reverse ++ rp) ((c :: r).drop n))
    | none => split3Go (c :: rp) r

/-- The first three parts of the third `re.split`: the text before the first
match, its captured group, and the text up to the next match.  `none` when
there is no match (`last_scripts[1]` then raises `IndexError`). -/
def split3Parts (s : Str) : Option (Str × Str × Str) := split3Go [] s

/-- `[sc1 + "\n" + sc2 for sc1, sc2 in zip(slices[::2], slices[1::2])]`:
re-join each captured group with the slice that follows it. -/
def pairJoin : List Str → List Str
  | a :: b :: r => (a ++ '\n' :: b) :: pairJoin r
  | _ => []

/-- `get_individual_scripts_and_dbt_config`: split at the `, name as (` CTE
introductions, take the configuration header off the first slice at `\nwith `,
re-join the interleaved capture groups with their slices, and split the final
slice before its closing `select`.  Paths where the Python raises are
`none`. -/
def get_individual_scripts (all : Str) : Option (List Str × Str) := do
  let s0 ← (split1 all).head?
  let (dbt_config, first_cte) ← splitWith1 s0
  let final_slice ← (first_cte :: pairJoin (split1 all).tail).getLast?
  let (last_cte, g, seg) ← split3Parts final_slice
  some ((first_cte :: pairJoin (split1 all).tail).dropLast ++ [last_cte, g ++ seg], dbt_config)

/-- One further CTE of the input contract, introduced by `, name as (`. -/
def renderMiddle (p : Str × Str) : Str :=
  ("\n, ").toList ++ (p.1 ++ ((" as\n(\n").toList ++ (p.2 ++ ("\n)").toList)))

/-- A source file of the input contract's shape: a configuration header `cfg`,
the `with` keyword, a first CTE `n0 as ( b0 )`, further CTEs `, n as ( b )`,
and a final `select` query `fin`. -/
def renderSource (cfg n0 b0 : Str) (mids : List (Str × Str)) (fin : Str) : Str :=
  cfg ++ (("\nwith ").toList ++ (n0 ++ ((" as\n(\n").toList ++ (b0 ++ (("\n)").toList ++
    (mids.flatMap renderMiddle ++ (("\nselect ").toList ++ fin)))))))

/-- The raw block of one further CTE, as re-joined by the zip/join step. -/
def midBlock (p : Str × Str) : Str :=
  (", ").toList ++ (p.1 ++ ((" as\n(\n").toList ++ (p.2 ++ ("\n)").toList)))

/-- The raw blocks of all CTEs (the first one and the further ones). -/
def cteBlocks (n0 b0 : Str) (mids : List (Str × Str)) : List Str :=
  (n0 ++ ((" as\n(\n").toList ++ (b0 ++ ("\n)").toList))) :: mids.map midBlock

/-- The expected segmentation of such a source: one block per CTE plus the
final `select` block. -/
def expectedBlocks (n0 b0 : Str) (mids : List (Str × Str)) (fin : Str) : List Str :=
  cteBlocks n0 b0 mids ++ [("\nselect ").toList ++ fin]

/-- The slices of the first split on a source of the contract shape: the
slice built so far, then alternately each CTE introduction line (the captured
group) and the parenthesised body, the final `select` text staying attached to
the last body. -/
def s1Slices (pre : Str) : List (Str × Str) → Str → List Str
  | [], fin => [pre ++ (("\nselect ").toList ++ fin)]
  | p :: rest, fin =>
    pre :: ((", ").toList ++ (p.1 ++ (" as").toList)) ::
      s1Slices (('(' :: '\n' :: p.2) ++ ("\n)").toList) rest fin

/-- The scripts rebuilt by the zip/join step from the further CTEs, the last
one carrying the final `select` text. -/
def tailJoin (fin : Str) : List (Str × Str) → List Str
  | [] => []
  | [p] => [midBlock p ++ (("\nselect ").toList ++ fin)]
  | p :: q :: rest => midBlock p :: tailJoin fin (q :: rest)

/-- A well-formed CTE name as the input contract's `<name>` slots demand:
identifier-like, and its lowercase form is neither the templating marker nor
the keyword `select` (and holds no space). -/
def GoodName (n : Str) : Prop :=
  idLike n = true ∧ ' ' ∉ pyLower n ∧
    pyLower n ≠ ("\x7b\x7b").toList ∧ pyLower n ≠ ("select").toList

/-- A well-formed CTE body: no comma (the CTE marker pattern's anchor), no
closing parenthesis except the block's own terminator, and no line-boundary
characters other than the plain newline. -/
def GoodBody (b : Str) : Prop :=
  ∀ c ∈ b, (c = '\n' ∨ isLineBreak c = false) ∧ c ≠ ',' ∧ c ≠ ')'

/-- The shape of the final `select` query text: it spans at least two lines,
its first line is nonempty and carries no trailing whitespace, and its last
line is substantive. -/
def SelShape (fin : Str) : Prop :=
  ∃ fl0 rest1 flast, nlSplit fin = fl0 :: rest1 ++ [flast] ∧ fl0 ≠ [] ∧
    pyRstrip fl0 = fl0 ∧ lineBlankOrComment flast = false ∧ flast ≠ []

/-- No position inside `R` (each followed by the rest of `R` and then `T`)
starts a match of the first split pattern. -/
def S1Safe (R T : Str) : Prop :=
  ∀ i, i < R.length → matchS1At (R.drop i ++ T) = none

example :
    get_individual_scripts
        (renderSource (("cfg1").toList) (("a").toList) (("select 1\nfrom t").toList) []
          (("*\nfrom a").toList)) =
      some (expectedBlocks (("a").toList) (("select 1\nfrom t").toList) []
        (("*\nfrom a").toList), ("cfg1").toList) := by decide

example :
    get_individual_scripts
        (renderSource (("\x7b\x7b config(x=1) \x7d\x7d").toList) (("a").toList)
          (("select 1\nfrom t").toList) [((("b").toList), (("select 2\nfrom a").toList))]
          (("*\nfrom b").toList)) =
      some (expectedBlocks (("a").toList) (("select 1\nfrom t").toList)
        [((("b").toList), (("select 2\nfrom a").toList))] (("*\nfrom b").toList),
        ("\x7b\x7b config(x=1) \x7d\x7d").toList) := by decide

/-! ## Claim C1: the match rule -/

/-- Claim C1, counterexample: the rule for `old_name = "a"` does match inside
`from ab`, because `re_expr` has no trailing word boundary; the claimed
whole-name behaviour ("the rule for old_name `a` does not match inside
`from ab`") is false. -/
theorem re_expr_matches_longer_identifier :
    re_expr_search (("a").toList) (("from ab").toList) = true := by decide

/-- Claim C1 (amended): `re_expr` matches exactly the occurrences of
`old_name` that immediately follow text ending in the characters `from` or
`join` plus nonempty whitespace; there is no trailing boundary, so an
occurrence may also be a proper prefix of a longer identifier (for example the
rule for `a` matches inside `from ab`). -/
theorem re_expr_search_iff_fj_occurrence (old s : Str) :
    re_expr_search old s = true ↔ HasFJMatch old s := by
  constructor
  · intro h
    simp only [re_expr_search, List.any_eq_true, List.mem_range, Bool.and_eq_true,
      decide_eq_true_eq] at h
    obtain ⟨i, _, hfj, k, _, ⟨⟨hk1, hik⟩, hws⟩, hpre⟩ := h
    obtain ⟨t, ht⟩ := List.isPrefixOf_iff_prefix.mp hpre
    refine ⟨s.take i, (s.drop i).take k, t, ?_, hfj, ?_, hws⟩
    · conv_lhs => rw [← List.take_append_drop i s, ← List.take_append_drop k (s.drop i)]
      rw [← ht]
      simp [List.append_assoc]
    · have hlen : ((s.drop i).take k).length = k := by
        rw [List.length_take, List.length_drop]; omega
      intro hnil
      rw [hnil] at hlen
      simp at hlen
      omega
  · rintro ⟨p, w, t, rfl, hfj, hw, hws⟩
    have hw' : 0 < w.length := List.length_pos.mpr hw
    apply List.any_eq_true.mpr
    refine ⟨p.length, List.mem_range.mpr (by simp [List.length_append]; omega), ?_⟩
    rw [Bool.and_eq_true]
    constructor
    · rw [List.append_assoc, List.append_assoc, List.take_left]
      exact hfj
    · apply List.any_eq_true.mpr
      refine ⟨w.length, List.mem_range.mpr (by simp [List.length_append]; omega), ?_⟩
      rw [List.append_assoc, List.append_assoc, List.drop_left]
      simp only [Bool.and_eq_true, decide_eq_true_eq]
      refine ⟨⟨⟨hw', by simp only [List.length_append]; omega⟩, ?_⟩, ?_⟩
      · rw [List.take_left]
        exact hws
      · rw [List.drop_left]
        exact List.isPrefixOf_iff_prefix.mpr (List.prefix_append old t)

/-! ## Claim C10: the enable transform -/

/-- Claim C10, counterexample: `dbt_cfg_enable_table` is not idempotent; on
`enabled = falsenabled = false` the first pass rewrites the first match and
leaves text in which a second pass finds (and rewrites) a new match. -/
theorem enable_table_not_idempotent :
    dbt_cfg_enable_table (dbt_cfg_enable_table (("enabled = falsenabled = false").toList)) ≠
      dbt_cfg_enable_table (("enabled = falsenabled = false").toList) := by decide

theorem hasEnableMatch_cons (c : Char) (r : Str) :
    hasEnableMatch (c :: r) = ((matchEnableAt (c :: r)).isSome || hasEnableMatch r) := by
  simp only [hasEnableMatch, List.length_cons, List.range_succ_eq_map, List.any_cons,
    List.drop_zero, List.any_map]
  rfl

theorem enable_aux_id_of_no_match (s : Str) (h : hasEnableMatch s = false) :
    dbt_cfg_enable_aux 0 s = s := by
  induction s with
  | nil => rfl
  | cons c r ih =>
    rw [hasEnableMatch_cons, Bool.or_eq_false_iff] at h
    have h0 : matchEnableAt (c :: r) = none := by
      cases hm : matchEnableAt (c :: r) with
      | none => rfl
      | some n => rw [hm] at h; simp at h
    have hr : hasEnableMatch r = false := h.2
    simp [dbt_cfg_enable_aux, h0, ih hr]

/-- Claim C10 (amended): a second application of `dbt_cfg_enable_table`
changes nothing provided the first application's output no longer contains a
match of `enabled ... = ... false`; without that proviso idempotence fails
(counterexample `enabled = falsenabled = false`). -/
theorem enable_table_idempotent_without_residual_match (s : Str)
    (h : hasEnableMatch (dbt_cfg_enable_table s) = false) :
    dbt_cfg_enable_table (dbt_cfg_enable_table s) = dbt_cfg_enable_table s :=
  enable_aux_id_of_no_match _ h

/-- Claim C10 witness: a configuration whose transform has no residual match
is fixed by the second application. -/
theorem enable_table_idempotent_without_residual_match_witness :
    dbt_cfg_enable_table (dbt_cfg_enable_table (("x, enabled = false, y").toList)) =
      dbt_cfg_enable_table (("x, enabled = false, y").toList) :=
  enable_table_idempotent_without_residual_match (("x, enabled = false, y").toList) (by decide)

/-! ## Claim C9: trailing newline of `clean_query` -/

/-- Claim C9, counterexample: `clean_query` does not always end its result
with exactly one newline: unwrapping the outer parentheses of
`(\nselect 1\n\n)` exposes a trailing blank line, and the result
`select 1\n\n` ends with two newlines. -/
theorem clean_query_two_trailing_newlines :
    clean_query (("(\nselect 1\n\n)").toList) = some (("select 1\n\n").toList) ∧
      (("\n\n").toList).isSuffixOf (("select 1\n\n").toList) = true := by decide

/-- Claim C9 (amended): whenever `clean_query` returns, its result is nonempty
and ends with at least one newline (it may end with more than one). -/
theorem clean_query_ends_with_newline (q y : Str) (h : clean_query q = some y) :
    y ≠ [] ∧ y.getLast? = some '\n' := by
  simp only [clean_query, Option.bind_eq_bind, Option.bind_eq_some, Option.pure_def,
    Option.some.injEq] at h
  obtain ⟨l1, _, l2, _, s3, _, hy⟩ := h
  subst hy
  constructor
  · simp
  · rw [List.getLast?_append]
    rfl

/-- Claim C9 witness. -/
theorem clean_query_ends_with_newline_witness :
    ("select 1\nfrom t\n").toList ≠ [] ∧
      (("select 1\nfrom t\n").toList).getLast? = some '\n' :=
  clean_query_ends_with_newline (("select 1\nfrom t\n").toList)
    (("select 1\nfrom t\n").toList) (by decide)

/-! ## Claims C3 and C4: idempotence and totality of `clean_query` -/

/-- Claim C3, counterexample: `clean_query` is not idempotent.  On
`(\nselect 1\n\n)` it returns `select 1\n\n`, and on that result it raises
`IndexError` (the end-trimming loop runs the text out of newlines), so
`clean_query (clean_query x)` differs from `clean_query x`. -/
theorem clean_query_not_idempotent :
    clean_query (("(\nselect 1\n\n)").toList) = some (("select 1\n\n").toList) ∧
      clean_query (("select 1\n\n").toList) = none := by decide

/-- Claim C4, counterexample: `clean_query` is not a total function: on the
empty string the first trimming loop indexes past the end of
`split("\n", 1)` and raises `IndexError` instead of returning `"\n"`. -/
theorem clean_query_empty_input_raises : clean_query [] = none := by decide

theorem nlSplit_ne_nil (s : Str) : nlSplit s ≠ [] := by
  cases s with
  | nil => simp [nlSplit]
  | cons c cs =>
    rw [nlSplit]
    by_cases hc : c = '\n'
    · simp [hc]
    · simp only [if_neg hc]
      cases h : nlSplit cs <;> simp

theorem startTrimL_eq (L : List Str) :
    startTrimL L =
      if L.dropWhile lineBlankOrComment = [] then none
      else some (L.dropWhile lineBlankOrComment) := by
  induction L with
  | nil => rfl
  | cons l ls ih =>
    cases ls with
    | nil =>
      by_cases hl : lineBlankOrComment l <;>
        simp [startTrimL, List.dropWhile, hl]
    | cons l' ls' =>
      by_cases hl : lineBlankOrComment l
      · rw [show startTrimL (l :: l' :: ls') = startTrimL (l' :: ls') by
          simp [startTrimL, hl], ih]
        simp [List.dropWhile, hl]
      · have hd : (l :: l' :: ls').dropWhile lineBlankOrComment = l :: l' :: ls' := by
          simp [List.dropWhile, hl]
        rw [show startTrimL (l :: l' :: ls') = some (l :: l' :: ls') by
          simp [startTrimL, hl], hd]
        simp

theorem endTrimRevL_eq (L : List Str) :
    endTrimRevL L =
      if 2 ≤ (L.dropWhile lineBlankOrComment).length then
        some (L.dropWhile lineBlankOrComment)
      else none := by
  induction L with
  | nil => rfl
  | cons l ls ih =>
    cases ls with
    | nil =>
      by_cases hl : lineBlankOrComment l <;>
        simp [endTrimRevL, List.dropWhile, hl]
    | cons l' ls' =>
      by_cases hl : lineBlankOrComment l
      · rw [show endTrimRevL (l :: l' :: ls') = endTrimRevL (l' :: ls') by
          simp [endTrimRevL, hl], ih]
        simp [List.dropWhile, hl]
      · have hd : (l :: l' :: ls').dropWhile lineBlankOrComment = l :: l' :: ls' := by
          simp [List.dropWhile, hl]
        rw [show endTrimRevL (l :: l' :: ls') = some (l :: l' :: ls') by
          simp [endTrimRevL, hl], hd]
        simp

theorem pyStrip_nil_of_allWS {l : Str} (h : l.all isPyWS = true) : pyStrip l = [] := by
  have hr : pyRstrip l = [] := by
    have : l.reverse.dropWhile isPyWS = [] := by
      rw [List.dropWhile_eq_nil_iff]
      intro x hx
      exact (List.all_eq_true.mp h) x (List.mem_reverse.mp hx)
    simp [pyRstrip, this]
  simp [pyStrip, hr, pyLstrip]

theorem blank_of_allWS {l : Str} (h : l.all isPyWS = true) : lineBlankOrComment l = true := by
  simp [lineBlankOrComment, pyStrip_nil_of_allWS h]

theorem dropWhile_head_false {α : Type} {p : α → Bool} {l : List α} {x : α} {xs : List α}
    (h : l.dropWhile p = x :: xs) : p x = false := by
  induction l with
  | nil => simp [List.dropWhile] at h
  | cons a as ih =>
    rw [List.dropWhile_cons] at h
    by_cases ha : p a
    · rw [if_pos ha] at h; exact ih h
    · rw [if_neg ha] at h
      cases h
      simpa using ha

theorem filter_length_dropWhile (L : List Str) :
    ((L.dropWhile lineBlankOrComment).filter fun l => !lineBlankOrComment l).length =
      (L.filter fun l => !lineBlankOrComment l).length := by
  conv_rhs => rw [← List.takeWhile_append_dropWhile (p := lineBlankOrComment) (l := L)]
  rw [List.filter_append]
  have : (L.takeWhile lineBlankOrComment).filter (fun l => !lineBlankOrComment l) = [] := by
    rw [List.filter_eq_nil_iff]
    intro a ha
    simp [List.mem_takeWhile_imp ha]
  rw [this]
  simp

theorem pyStrip_decomp (X : Str) :
    ∃ W₁ W₂, X = W₁ ++ pyStrip X ++ W₂ ∧ W₁.all isPyWS = true ∧ W₂.all isPyWS = true := by
  refine ⟨(pyRstrip X).takeWhile isPyWS, (X.reverse.takeWhile isPyWS).reverse, ?_, ?_, ?_⟩
  · have h1 : X = pyRstrip X ++ (X.reverse.takeWhile isPyWS).reverse := by
      have h0 := congrArg List.reverse
        (List.takeWhile_append_dropWhile (p := isPyWS) (l := X.reverse))
      rw [List.reverse_append, List.reverse_reverse] at h0
      exact h0.symm
    have h2 : pyRstrip X = (pyRstrip X).takeWhile isPyWS ++ pyStrip X :=
      (List.takeWhile_append_dropWhile (p := isPyWS) (l := pyRstrip X)).symm
    conv_lhs => rw [h1, h2]
  · apply List.all_eq_true.mpr
    intro x hx
    exact List.mem_takeWhile_imp hx
  · apply List.all_eq_true.mpr
    intro x hx
    exact List.mem_takeWhile_imp (List.mem_reverse.mp hx)

theorem intercalate_cons₂ (s : Str) (a b : Str) (l : List Str) :
    List.intercalate s (a :: b :: l) = a ++ s ++ List.intercalate s (b :: l) := by
  simp [List.intercalate, List.intersperse]

theorem lines_allWS_of_intercalate_allWS {L : List Str}
    (h : (List.intercalate ['\n'] L).all isPyWS = true) :
    ∀ l ∈ L, l.all isPyWS = true := by
  induction L with
  | nil => simp
  | cons a rest ih =>
    cases rest with
    | nil =>
      intro l hl
      rcases List.mem_singleton.mp hl with rfl
      simpa [List.intercalate, List.intersperse] using h
    | cons b rest' =>
      rw [intercalate_cons₂] at h
      simp only [List.all_append, Bool.and_eq_true] at h
      intro l hl
      rcases List.mem_cons.mp hl with rfl | hl'
      · exact h.1.1
      · exact ih h.2 l hl'

theorem parenUnwrap_eq_none_iff (s : Str) : parenUnwrap s = none ↔ pyStrip s = ['(', ')'] := by
  constructor
  · intro h
    rw [parenUnwrap] at h
    by_cases hc : (pyStrip s).head? = some '(' ∧ (pyStrip s).getLast? = some ')'
    · rw [if_pos hc] at h
      cases hm : ((pyStrip s).drop 1).dropLast with
      | nil =>
        obtain ⟨h1, h2⟩ := hc
        cases ht : pyStrip s with
        | nil => rw [ht] at h1; simp at h1
        | cons c t' =>
          rw [ht] at h1 hm h2
          simp only [List.head?_cons, Option.some.injEq] at h1
          subst h1
          simp only [List.drop_succ_cons, List.drop_zero] at hm
          cases ht' : t' with
          | nil =>
            rw [ht'] at h2
            simp at h2
          | cons d t'' =>
            rw [ht'] at hm h2
            cases ht'' : t'' with
            | cons e t3 =>
              rw [ht''] at hm
              simp at hm
            | nil =>
              rw [ht''] at h2
              rw [List.getLast?_cons_cons] at h2
              simp only [List.getLast?_singleton, Option.some.injEq] at h2
              subst h2
              rfl
      | cons c u => rw [hm] at h; simp at h
    · rw [if_neg hc] at h
      simp at h
  · intro h
    rw [parenUnwrap, h]
    simp

theorem intercalate_strip_ne_parens {a e0 : Str} {rest : List Str} (hrest : rest ≠ [])
    (ha : lineBlankOrComment a = false) (hlast : rest.getLast? = some e0)
    (he0 : lineBlankOrComment e0 = false) :
    pyStrip (List.intercalate ['\n'] (a :: rest)) ≠ ['(', ')'] := by
  intro hps
  obtain ⟨W₁, W₂, hsplit, hW₁, hW₂⟩ := pyStrip_decomp (List.intercalate ['\n'] (a :: rest))
  rw [hps] at hsplit
  obtain ⟨r0, rs, rfl⟩ := List.exists_cons_of_ne_nil hrest
  rw [intercalate_cons₂] at hsplit
  have hsplit' : a ++ ('\n' :: List.intercalate ['\n'] (r0 :: rs)) =
      W₁ ++ ('(' :: ')' :: W₂) := by
    simpa [List.append_assoc] using hsplit
  rcases List.append_eq_append_iff.mp hsplit' with ⟨a', hW, _⟩ | ⟨c', _, hrem⟩
  · have haws : a.all isPyWS = true := by
      apply List.all_eq_true.mpr
      intro x hx
      exact List.all_eq_true.mp hW₁ x (by rw [hW]; exact List.mem_append_left _ hx)
    rw [blank_of_allWS haws] at ha
    simp at ha
  · cases c' with
    | nil => simp at hrem
    | cons x cx =>
      rw [List.cons_append] at hrem
      injection hrem with hx h2
      cases cx with
      | nil =>
        rw [List.nil_append] at h2
        injection h2 with hy _
        exact absurd hy (by decide)
      | cons y cy =>
        rw [List.cons_append] at h2
        injection h2 with hy h3
        have hIws : (List.intercalate ['\n'] (r0 :: rs)).all isPyWS = true := by
          apply List.all_eq_true.mpr
          intro z hz
          refine List.all_eq_true.mp hW₂ z ?_
          rw [h3]
          exact List.mem_append_right _ (List.mem_cons_of_mem _ hz)
        have he0ws := lines_allWS_of_intercalate_allWS hIws e0
          (List.mem_of_getLast?_eq_some hlast)
        rw [blank_of_allWS he0ws] at he0
        simp at he0

/-- Claim C4 (amended): `clean_query` returns successfully exactly on inputs
with at least two substantive (non-blank, non-comment) lines; on all other
inputs — in particular the empty string — it raises `IndexError`. -/
theorem clean_query_defined_iff_two_substantive_lines (q : Str) :
    (clean_query q).isSome = true ↔ 2 ≤ substantiveLineCount q := by
  have hL : substantiveLineCount q =
      ((nlSplit q).filter fun l => !lineBlankOrComment l).length := rfl
  constructor
  · intro h
    rw [Option.isSome_iff_exists] at h
    obtain ⟨y, hy⟩ := h
    simp only [clean_query, Option.bind_eq_bind, Option.bind_eq_some] at hy
    obtain ⟨ls1, hls1, ls2, hls2, s3, _, _⟩ := hy
    rw [startTrimL_eq] at hls1
    by_cases hD : (nlSplit q).dropWhile lineBlankOrComment = []
    · rw [if_pos hD] at hls1; simp at hls1
    rw [if_neg hD] at hls1
    have hls1' : (nlSplit q).dropWhile lineBlankOrComment = ls1 := Option.some.inj hls1
    simp only [endTrimL, Option.map_eq_some'] at hls2
    obtain ⟨E, hE, _⟩ := hls2
    rw [endTrimRevL_eq] at hE
    by_cases h2 : 2 ≤ ((ls1.reverse).dropWhile lineBlankOrComment).length
    swap
    · rw [if_neg h2] at hE; simp at hE
    rw [if_pos h2] at hE
    have hE' : (ls1.reverse).dropWhile lineBlankOrComment = E := Option.some.inj hE
    rw [hL, ← filter_length_dropWhile, hls1']
    have hcount : (ls1.filter fun l => !lineBlankOrComment l).length =
        (E.filter fun l => !lineBlankOrComment l).length := by
      rw [← hE', filter_length_dropWhile, List.filter_reverse, List.length_reverse]
    rw [hcount]
    obtain ⟨e0, E', hEc⟩ := List.exists_cons_of_ne_nil (l := E) (by
      intro hEnil
      rw [hE', hEnil] at h2
      simp at h2)
    have he0 : lineBlankOrComment e0 = false :=
      dropWhile_head_false (by rw [hE']; exact hEc)
    have hE'ne : E' ≠ [] := by
      intro hE'nil
      rw [hE', hEc, hE'nil] at h2
      simp at h2
    obtain ⟨d0, D', hD0⟩ := List.exists_cons_of_ne_nil (l := ls1) (by
      intro h0
      rw [h0] at hls1'
      exact hD hls1')
    have hlastE : E.getLast? = some d0 := by
      obtain ⟨pre, hpre⟩ : ∃ pre, ls1.reverse = pre ++ E := by
        refine ⟨ls1.reverse.takeWhile lineBlankOrComment, ?_⟩
        rw [← hE', List.takeWhile_append_dropWhile]
      have h1 : ls1.reverse.getLast? = some d0 := by
        rw [hD0]
        simp
      rw [hpre, List.getLast?_append_of_ne_nil _ (by rw [hEc]; simp)] at h1
      exact h1
    have hd0mem : d0 ∈ E' := by
      rw [hEc] at hlastE
      obtain ⟨x, xs, rfl⟩ := List.exists_cons_of_ne_nil hE'ne
      rw [List.getLast?_cons_cons] at hlastE
      exact List.mem_of_getLast?_eq_some hlastE
    have hd0 : lineBlankOrComment d0 = false := by
      have hd0E : d0 ∈ E := by rw [hEc]; exact List.mem_cons_of_mem _ hd0mem
      exact dropWhile_head_false (by rw [hls1']; exact hD0)
    rw [hEc, List.filter_cons_of_pos (by simp [he0])]
    have hmem : d0 ∈ E'.filter fun l => !lineBlankOrComment l :=
      List.mem_filter.mpr ⟨hd0mem, by simp [hd0]⟩
    have hpos : 1 ≤ (E'.filter fun l => !lineBlankOrComment l).length :=
      List.length_pos.mpr (List.ne_nil_of_mem hmem)
    simp only [List.length_cons]
    omega
  · intro h
    rw [hL] at h
    have hDne : (nlSplit q).dropWhile lineBlankOrComment ≠ [] := by
      intro hDnil
      have hfd := filter_length_dropWhile (nlSplit q)
      rw [hDnil] at hfd
      simp at hfd
      omega
    have hfE : (((((nlSplit q).dropWhile lineBlankOrComment).reverse).dropWhile
          lineBlankOrComment).filter fun l => !lineBlankOrComment l).length =
        ((nlSplit q).filter fun l => !lineBlankOrComment l).length := by
      rw [filter_length_dropWhile, List.filter_reverse, List.length_reverse,
        filter_length_dropWhile]
    have h2 : 2 ≤ ((((nlSplit q).dropWhile lineBlankOrComment).reverse).dropWhile
        lineBlankOrComment).length := by
      calc 2 ≤ ((((((nlSplit q).dropWhile lineBlankOrComment).reverse).dropWhile
            lineBlankOrComment)).filter fun l => !lineBlankOrComment l).length := by
            rw [hfE]; exact h
        _ ≤ _ := List.length_filter_le _ _
    have hstart : startTrimL (nlSplit q) = some ((nlSplit q).dropWhile lineBlankOrComment) := by
      rw [startTrimL_eq, if_neg hDne]
    have hend : endTrimL ((nlSplit q).dropWhile lineBlankOrComment) =
        some (((((nlSplit q).dropWhile lineBlankOrComment).reverse).dropWhile
          lineBlankOrComment).reverse) := by
      rw [endTrimL, endTrimRevL_eq, if_pos h2]
      rfl
    set E := (((nlSplit q).dropWhile lineBlankOrComment).reverse).dropWhile
      lineBlankOrComment with hEdef
    obtain ⟨e0, E', hEc⟩ := List.exists_cons_of_ne_nil (l := E) (by
      intro hEnil
      rw [hEnil] at h2
      simp at h2)
    have he0 : lineBlankOrComment e0 = false :=
      dropWhile_head_false (by rw [hEdef] at hEc; exact hEc)
    obtain ⟨a, rest, har⟩ : ∃ a rest, E.reverse = a :: rest := by
      cases hEr : E.reverse with
      | nil =>
        rw [← List.reverse_reverse E, hEr] at h2
        simp [hEdef] at h2
      | cons a rest => exact ⟨a, rest, rfl⟩
    have hrestne : rest ≠ [] := by
      intro hrest
      have hlen := congrArg List.length har
      rw [hrest] at hlen
      simp at hlen
      omega
    obtain ⟨d0, D', hD0⟩ := List.exists_cons_of_ne_nil (l := (nlSplit q).dropWhile
      lineBlankOrComment) hDne
    have hd0 : lineBlankOrComment d0 = false := dropWhile_head_false hD0
    have ha : a = d0 := by
      obtain ⟨pre, hpre⟩ : ∃ pre,
          ((nlSplit q).dropWhile lineBlankOrComment).reverse = pre ++ E := by
        refine ⟨((nlSplit q).dropWhile lineBlankOrComment).reverse.takeWhile
          lineBlankOrComment, ?_⟩
        rw [hEdef, List.takeWhile_append_dropWhile]
      have h1 : (nlSplit q).dropWhile lineBlankOrComment = E.reverse ++ pre.reverse := by
        have h1' := congrArg List.reverse hpre
        simpa using h1'
      rw [hD0, har] at h1
      rw [List.cons_append] at h1
      exact (List.cons.injEq _ _ _ _ ▸ h1).1.symm
    have hlast : rest.getLast? = some e0 := by
      have h1 : (E.reverse).getLast? = some e0 := by
        rw [hEc]
        simp
      rw [har] at h1
      obtain ⟨x, xs, rfl⟩ := List.exists_cons_of_ne_nil hrestne
      rwa [List.getLast?_cons_cons] at h1
    have hparen : parenUnwrap (List.intercalate ['\n'] E.reverse) ≠ none := by
      rw [har]
      intro hnone
      exact intercalate_strip_ne_parens hrestne (ha ▸ hd0) hlast he0
        ((parenUnwrap_eq_none_iff _).mp hnone)
    obtain ⟨s3, hs3⟩ := Option.ne_none_iff_exists.mp hparen
    rw [Option.isSome_iff_exists]
    refine ⟨List.intercalate ['\n'] ((pySplitlines s3).map pyRstrip) ++ ['\n'], ?_⟩
    simp only [clean_query, Option.bind_eq_bind, Option.bind_eq_some]
    exact ⟨(nlSplit q).dropWhile lineBlankOrComment, hstart, E.reverse, hend, s3, hs3.symm, rfl⟩


/-! ## Claim C6: the shape of the written files -/

/-- Claim C6, counterexample: the final entity's file is the configuration,
one newline, then the content — not the configuration followed by a blank
line.  With a configuration that does not end in a newline no blank separator
line exists in the written file. -/
theorem final_file_no_blank_separator_line :
    (create_new_script_files
        [⟨("select 1\nfrom t\n").toList, some (("a").toList), ("out_a").toList, true⟩,
         ⟨("select 2\nfrom u\n").toList, some (("orig").toList), ("out").toList, false⟩]
        false (("\x7b\x7b config() \x7d\x7d").toList)).1.getLast? =
      some ((("out.sql").toList),
        (("\x7b\x7b config() \x7d\x7d").toList ++ '\n' :: ("select 2\nfrom u\n").toList)) ∧
      (("\x7b\x7b config() \x7d\x7d").toList ++ '\n' :: ("select 2\nfrom u\n").toList) ≠
        (("\x7b\x7b config() \x7d\x7d").toList ++ '\n' :: '\n' :: ("select 2\nfrom u\n").toList) := by
  decide

theorem create_files_go_no_drop (all : List SmallScript) (l : List SmallScript) :
    ∀ cfg : Str,
      create_files_go all false l cfg =
        (l.map fun scr =>
          (scr.new_name ++ (".sql").toList,
           if scr.is_intermediate then rewrite_content all scr.content
           else cfg ++ '\n' :: rewrite_content all scr.content), none) := by
  induction l with
  | nil => intro cfg; rfl
  | cons scr rest ih =>
    intro cfg
    simp only [create_files_go, if_neg Bool.false_ne_true, List.map_cons]
    rw [ih cfg]

/-- Claim C6 (amended): with cleanup injection off, every intermediate file is
exactly the rewritten content, and the final file is the enable-transformed
configuration, a single newline, then the rewritten content (a blank separator
line appears in the file only when the configuration text itself ends in a
newline). -/
theorem create_files_output_form (scripts : List SmallScript) (cfg : Str) :
    create_new_script_files scripts false cfg =
      (scripts.map fun scr =>
        (scr.new_name ++ (".sql").toList,
         if scr.is_intermediate then rewrite_content scripts scr.content
         else dbt_cfg_enable_table cfg ++ '\n' :: rewrite_content scripts scr.content), none) :=
  create_files_go_no_drop scripts scripts (dbt_cfg_enable_table cfg)

theorem nlSplit_eq_splitOn (s : Str) : nlSplit s = s.splitOn '\n' := by
  induction s with
  | nil => rfl
  | cons c cs ih =>
    rw [nlSplit]
    rw [show (c :: cs).splitOn '\n' = (c :: cs).splitOnP (· == '\n') from rfl,
      List.splitOnP_cons]
    by_cases hc : c = '\n'
    · rw [if_pos hc, if_pos (by simp [hc]), ih]
      rfl
    · rw [if_neg hc, if_neg (by simp [hc]),
        show List.splitOnP (fun x => x == '\n') cs = cs.splitOn '\n' from rfl, ← ih]
      cases h : nlSplit cs with
      | nil => exact absurd h (nlSplit_ne_nil cs)
      | cons l ls => rfl

theorem intercalate_nlSplit (s : Str) : List.intercalate ['\n'] (nlSplit s) = s := by
  rw [nlSplit_eq_splitOn]
  exact List.intercalate_splitOn s '\n'

theorem nlSplit_append_newline (u v : Str) :
    nlSplit (u ++ '\n' :: v) = nlSplit u ++ nlSplit v := by
  induction u with
  | nil => rfl
  | cons c u' ih =>
    rw [List.cons_append, nlSplit]
    by_cases hc : c = '\n'
    · rw [if_pos hc, ih, nlSplit, if_pos hc]
      rfl
    · rw [if_neg hc, ih]
      cases h : nlSplit u' with
      | nil => exact absurd h (nlSplit_ne_nil u')
      | cons l ls =>
        rw [nlSplit, if_neg hc, h]
        rfl

theorem mem_pyRstrip_imp {c : Char} {l : Str} (h : c ∈ pyRstrip l) : c ∈ l := by
  rw [pyRstrip, List.mem_reverse] at h
  exact List.mem_reverse.mp ((List.dropWhile_sublist _).mem h)

theorem dropWhile_idem {α : Type} (p : α → Bool) (l : List α) :
    (l.dropWhile p).dropWhile p = l.dropWhile p := by
  cases h : l.dropWhile p with
  | nil => rfl
  | cons x xs =>
    rw [List.dropWhile_cons, if_neg (by simp [dropWhile_head_false h])]

theorem pyRstrip_idem (l : Str) : pyRstrip (pyRstrip l) = pyRstrip l := by
  rw [pyRstrip, pyRstrip, List.reverse_reverse, dropWhile_idem]

theorem pySplitlines_crlf (cs : Str) :
    pySplitlines ('\r' :: '\n' :: cs) = [] :: pySplitlines cs := by
  simp [pySplitlines]

theorem pySplitlines_cons_break {c : Char} {cs : Str} (hc : isLineBreak c = true)
    (hno : ¬(c = '\r' ∧ ∃ tl, cs = '\n' :: tl)) :
    pySplitlines (c :: cs) = [] :: pySplitlines cs := by
  cases cs with
  | nil =>
    simp only [pySplitlines]
    rw [if_pos hc]
  | cons d cs2 =>
    have hpair : ¬(c = '\r' ∧ d = '\n') := by
      rintro ⟨h1, h2⟩
      exact hno ⟨h1, cs2, by rw [h2]⟩
    simp only [pySplitlines]
    rw [if_neg hpair, if_pos hc]

theorem pySplitlines_cons_not_break {c : Char} {cs : Str} (hc : isLineBreak c = false) :
    pySplitlines (c :: cs) =
      match pySplitlines cs with
      | l :: ls => (c :: l) :: ls
      | [] => [[c]] := by
  cases cs with
  | nil =>
    simp only [pySplitlines]
    rw [if_neg (by simp [hc])]
  | cons d cs2 =>
    have hpair : ¬(c = '\r' ∧ d = '\n') := by
      rintro ⟨h1, _⟩
      rw [h1] at hc
      simp [isLineBreak] at hc
    simp only [pySplitlines]
    rw [if_neg hpair, if_neg (by simp [hc])]

theorem pySplitlines_no_break_aux :
    ∀ (n : Nat) (s : Str), s.length ≤ n →
      ∀ l ∈ pySplitlines s, ∀ c ∈ l, isLineBreak c = false := by
  intro n
  induction n with
  | zero =>
    intro s hs
    rw [List.length_eq_zero.mp (Nat.le_zero.mp hs)]
    simp [pySplitlines]
  | succ n ih =>
    intro s hs
    cases s with
    | nil => simp [pySplitlines]
    | cons c cs =>
      rw [List.length_cons] at hs
      by_cases hb : isLineBreak c
      · by_cases hcrlf : c = '\r' ∧ ∃ tl, cs = '\n' :: tl
        · obtain ⟨rfl, tl, rfl⟩ := hcrlf
          intro l hl
          rw [pySplitlines_crlf] at hl
          rcases List.mem_cons.mp hl with rfl | hl'
          · simp
          · exact ih tl (by simp at hs ⊢; omega) l hl'
        · intro l hl
          rw [pySplitlines_cons_break hb hcrlf] at hl
          rcases List.mem_cons.mp hl with rfl | hl'
          · simp
          · exact ih cs (by omega) l hl'
      · intro l hl
        rw [pySplitlines_cons_not_break (by simpa using hb)] at hl
        have hcs := ih cs (by omega)
        cases hpc : pySplitlines cs with
        | nil =>
          rw [hpc] at hl
          rcases List.mem_singleton.mp hl with rfl
          intro d hd
          rcases List.mem_singleton.mp hd with rfl
          simpa using hb
        | cons l0 ls0 =>
          rw [hpc] at hl
          rcases List.mem_cons.mp hl with rfl | hl'
          · intro d hd
            rcases List.mem_cons.mp hd with rfl | hd'
            · simpa using hb
            · exact hcs l0 (by rw [hpc]; simp) d hd'
          · exact hcs l (by rw [hpc]; exact List.mem_cons_of_mem _ hl')

theorem pySplitlines_no_break (s : Str) :
    ∀ l ∈ pySplitlines s, ∀ c ∈ l, isLineBreak c = false :=
  pySplitlines_no_break_aux s.length s (Nat.le_refl _)

theorem pySplitlines_single {l : Str} (hne : l ≠ [])
    (hnb : ∀ c ∈ l, isLineBreak c = false) : pySplitlines l = [l] := by
  induction l with
  | nil => exact absurd rfl hne
  | cons c cs ih =>
    have hc : isLineBreak c = false := hnb c (List.mem_cons_self c cs)
    rw [pySplitlines_cons_not_break hc]
    cases cs with
    | nil => rfl
    | cons d ds =>
      rw [ih (by simp) fun x hx => hnb x (List.mem_cons_of_mem c hx)]

theorem pySplitlines_append_newline (a R : Str)
    (hnb : ∀ c ∈ a, isLineBreak c = false) :
    pySplitlines (a ++ '\n' :: R) = a :: pySplitlines R := by
  induction a with
  | nil =>
    rw [List.nil_append,
      pySplitlines_cons_break (by decide) (by rintro ⟨h, _⟩; exact absurd h (by decide))]
  | cons c a' ih =>
    have hc : isLineBreak c = false := hnb c (List.mem_cons_self c a')
    rw [List.cons_append, pySplitlines_cons_not_break hc,
      ih fun x hx => hnb x (List.mem_cons_of_mem c hx)]

theorem pySplitlines_intercalate {ls : List Str} {t : Str}
    (hnb : ∀ l ∈ ls, ∀ c ∈ l, isLineBreak c = false)
    (hlast : ls.getLast? = some t) (htne : t ≠ []) :
    pySplitlines (List.intercalate ['\n'] ls) = ls := by
  induction ls with
  | nil => simp at hlast
  | cons a rest ih =>
    cases rest with
    | nil =>
      rw [List.getLast?_singleton, Option.some.injEq] at hlast
      have hane : a ≠ [] := by rw [hlast]; exact htne
      have h1 : List.intercalate ['\n'] [a] = a := by
        simp [List.intercalate, List.intersperse]
      rw [h1]
      exact pySplitlines_single hane fun c hc => hnb a (by simp) c hc
    | cons b rest' =>
      rw [intercalate_cons₂, List.append_assoc, List.singleton_append,
        pySplitlines_append_newline _ _ fun c hc => hnb a (by simp) c hc,
        ih (fun l hl => hnb l (List.mem_cons_of_mem a hl))
          (by rwa [List.getLast?_cons_cons] at hlast)]

theorem dropWhile_eq_self_head {α : Type} {p : α → Bool} {x : α} {xs : List α}
    (h : (x :: xs).dropWhile p = x :: xs) : p x = false := by
  by_cases hx : p x
  · rw [List.dropWhile_cons, if_pos hx] at h
    have hlen := congrArg List.length h
    have hle := (List.dropWhile_sublist (l := xs) p).length_le
    simp at hlen
    omega
  · simpa using hx

/-- Claim C3 (amended): `clean_query` is idempotent on every input whose
cleaned result again satisfies the structural requirements of `clean_query`:
the result's first line is substantive, its body (the result without the final
newline) ends in a substantive line, and that body is not wrapped in an outer
parenthesis pair.  Without these conditions idempotence fails (for example on
`(\nselect 1\n\n)`). -/
theorem clean_query_idempotent_on_stable_shape (x y : Str)
    (hxy : clean_query x = some y)
    (h1 : startTrimL (nlSplit y) = some (nlSplit y))
    (h2 : endTrimL (nlSplit y) = some (nlSplit y.dropLast))
    (h3 : parenUnwrap (List.intercalate ['\n'] (nlSplit y.dropLast)) =
      some (List.intercalate ['\n'] (nlSplit y.dropLast))) :
    clean_query y = some y := by
  simp only [clean_query, Option.bind_eq_bind, Option.bind_eq_some] at hxy
  obtain ⟨ls1x, _, ls2x, _, s3, _, hyval⟩ := hxy
  rw [Option.pure_def, Option.some.injEq] at hyval
  cases hlsc : (pySplitlines s3).map pyRstrip with
  | nil =>
    rw [hlsc] at hyval
    subst hyval
    exact absurd h1 (by decide)
  | cons p ps =>
    set ls : List Str := (pySplitlines s3).map pyRstrip with hlsdef
    have hlsne : ls ≠ [] := by rw [hlsc]; simp
    have hnn : ∀ l ∈ ls, '\n' ∉ l := by
      intro l hl hmem
      rw [hlsdef] at hl
      obtain ⟨l0, hl0, rfl⟩ := List.mem_map.mp hl
      have hnb := pySplitlines_no_break s3 l0 hl0 '\n' (mem_pyRstrip_imp hmem)
      simp [isLineBreak] at hnb
    have hnb : ∀ l ∈ ls, ∀ c ∈ l, isLineBreak c = false := by
      intro l hl c hc
      rw [hlsdef] at hl
      obtain ⟨l0, hl0, rfl⟩ := List.mem_map.mp hl
      exact pySplitlines_no_break s3 l0 hl0 c (mem_pyRstrip_imp hc)
    have hrs : ∀ l ∈ ls, pyRstrip l = l := by
      intro l hl
      rw [hlsdef] at hl
      obtain ⟨l0, _, rfl⟩ := List.mem_map.mp hl
      exact pyRstrip_idem l0
    have hsplit : nlSplit (List.intercalate ['\n'] ls) = ls := by
      rw [nlSplit_eq_splitOn]
      exact List.splitOn_intercalate ls '\n' hnn hlsne
    have hy : y = List.intercalate ['\n'] ls ++ ['\n'] := hyval.symm
    have hdrop : y.dropLast = List.intercalate ['\n'] ls := by
      rw [hy]
      exact List.dropLast_concat
    have hy_lines : nlSplit y = ls ++ [[]] := by
      rw [hy, nlSplit_append_newline, hsplit]
      rfl
    have h2' : endTrimL (ls ++ [[]]) = some ls := by
      rw [← hy_lines, h2, hdrop, hsplit]
    rw [endTrimL, endTrimRevL_eq] at h2'
    have hrev : (ls ++ [[]]).reverse = ([] : Str) :: ls.reverse := by simp
    rw [hrev] at h2'
    have hjnil : lineBlankOrComment ([] : Str) = true := by decide
    rw [List.dropWhile_cons, if_pos hjnil] at h2'
    by_cases hlen : 2 ≤ (ls.reverse.dropWhile lineBlankOrComment).length
    swap
    · rw [if_neg hlen] at h2'
      simp at h2'
    rw [if_pos hlen] at h2'
    simp only [Option.map_some', Option.some.injEq] at h2'
    have hdw : ls.reverse.dropWhile lineBlankOrComment = ls.reverse := by
      have hc := congrArg List.reverse h2'
      rwa [List.reverse_reverse] at hc
    obtain ⟨q, qs, hq⟩ := List.exists_cons_of_ne_nil (l := ls.reverse)
      (by simpa using hlsne)
    have hqjunk : lineBlankOrComment q = false := by
      rw [hq] at hdw
      exact dropWhile_eq_self_head hdw
    have hqne : q ≠ [] := by
      intro h0
      rw [h0, hjnil] at hqjunk
      simp at hqjunk
    have hlastq : ls.getLast? = some q := by
      rw [List.getLast?_eq_head?_reverse, hq]
      rfl
    have hps : pySplitlines (List.intercalate ['\n'] ls) = ls :=
      pySplitlines_intercalate hnb hlastq hqne
    have hmap : ls.map pyRstrip = ls := by
      rw [List.map_congr_left fun l hl => hrs l hl]
      exact List.map_id ls
    simp only [clean_query, Option.bind_eq_bind, Option.bind_eq_some]
    refine ⟨nlSplit y, h1, nlSplit y.dropLast, h2,
      List.intercalate ['\n'] (nlSplit y.dropLast), h3, ?_⟩
    rw [hdrop, hsplit, hps, hmap, ← hy]
    rfl

/-- Claim C3 witness: on a cleaned text of the stable shape, a second
application of `clean_query` returns it unchanged. -/
theorem clean_query_idempotent_on_stable_shape_witness :
    clean_query (("select 1\nfrom t\n").toList) = some (("select 1\nfrom t\n").toList) :=
  clean_query_idempotent_on_stable_shape (("(\nselect 1\nfrom t\n)").toList)
    (("select 1\nfrom t\n").toList) (by decide) (by decide) (by decide) (by decide)

theorem occursIn_cons (l : Str) (c : Char) (r : Str) :
    occursIn l (c :: r) = (l.isPrefixOf (c :: r) || occursIn l r) := by
  simp only [occursIn, List.length_cons, List.range_succ_eq_map, List.any_cons,
    List.drop_zero, List.any_map]
  rfl

theorem prefix_occursIn {l s : Str} (h : l.isPrefixOf s = true) : occursIn l s = true := by
  cases s with
  | nil =>
    simp only [occursIn]
    exact List.any_eq_true.mpr ⟨0, by simp, by simpa using h⟩
  | cons c r => rw [occursIn_cons, h, Bool.true_or]

theorem occursIn_tail {l : Str} {c : Char} {r : Str} (h : occursIn l r = true) :
    occursIn l (c :: r) = true := by
  rw [occursIn_cons, h, Bool.or_true]

theorem occursIn_drop {l s : Str} {k : Nat} (h : occursIn l (s.drop k) = true) :
    occursIn l s = true := by
  induction k generalizing s with
  | zero => simpa using h
  | succ k ih =>
    cases s with
    | nil => simpa using h
    | cons c r =>
      rw [List.drop_succ_cons] at h
      exact occursIn_tail (ih h)

theorem occursIn_append_right {l : Str} (A : Str) {B : Str} (h : occursIn l B = true) :
    occursIn l (A ++ B) = true := by
  induction A with
  | nil => simpa using h
  | cons c A' ih => exact occursIn_tail ih

theorem occursIn_append_cases {l A B : Str} (h : occursIn l (A ++ B) = true) :
    (∃ i, i < A.length ∧ l.isPrefixOf (A.drop i ++ B) = true) ∨ occursIn l B = true := by
  simp only [occursIn, List.any_eq_true, List.mem_range] at h
  obtain ⟨i, _, hp⟩ := h
  by_cases hi : i < A.length
  · left
    refine ⟨i, hi, ?_⟩
    rwa [List.drop_append_of_le_length (Nat.le_of_lt hi)] at hp
  · right
    push_neg at hi
    have : (A ++ B).drop i = B.drop (i - A.length) := by
      conv_lhs => rw [show i = A.length + (i - A.length) from by omega]
      exact List.drop_append _
    rw [this] at hp
    exact occursIn_drop (s := B) (k := i - A.length) (prefix_occursIn hp)

theorem matchPostAt_isSome_lit {s : Str} (h : (matchPostAt s).isSome = true) :
    (("post_hook").toList).isPrefixOf s = true := by
  rw [matchPostAt] at h
  by_cases hp : (("post_hook").toList).isPrefixOf s = true
  · exact hp
  · rw [if_neg (by simpa using hp)] at h
    simp at h

theorem searchPost_none_of_no_occ {s : Str}
    (h : occursIn (("post_hook").toList) s = false) : searchPost s = none := by
  induction s with
  | nil => rfl
  | cons c r ih =>
    rw [occursIn_cons, Bool.or_eq_false_iff] at h
    rw [searchPost]
    cases hm : matchPostAt (c :: r) with
    | some p =>
      have := matchPostAt_isSome_lit (s := c :: r) (by rw [hm]; rfl)
      rw [this] at h
      simp at h
    | none => exact ih h.2

theorem enable_aux_skip (k : Nat) (r : Str) :
    dbt_cfg_enable_aux k r = dbt_cfg_enable_aux 0 (r.drop k) := by
  induction k generalizing r with
  | zero => simp
  | succ k ih =>
    cases r with
    | nil => rfl
    | cons c r2 =>
      rw [List.drop_succ_cons, ← ih r2]
      rfl

theorem enable_aux_match_eq {c : Char} {r : Str} {n : Nat}
    (hm : matchEnableAt (c :: r) = some n) :
    dbt_cfg_enable_aux 0 (c :: r) = ("enabled = true").toList ++ dbt_cfg_enable_aux (n - 1) r := by
  rw [dbt_cfg_enable_aux, hm]

theorem enable_aux_nomatch_eq {c : Char} {r : Str}
    (hm : matchEnableAt (c :: r) = none) :
    dbt_cfg_enable_aux 0 (c :: r) = c :: dbt_cfg_enable_aux 0 r := by
  rw [dbt_cfg_enable_aux, hm]

theorem enable_aux_prefix_transfer (t : Str) (he : 'e' ∉ t) :
    ∀ r, t.isPrefixOf (dbt_cfg_enable_aux 0 r) = true → t.isPrefixOf r = true := by
  induction t with
  | nil =>
    intro r _
    simp [List.isPrefixOf]
  | cons a t' ih =>
    intro r hp
    cases r with
    | nil =>
      rw [show dbt_cfg_enable_aux 0 [] = [] from rfl] at hp
      simp [List.isPrefixOf] at hp
    | cons c r2 =>
      cases hm : matchEnableAt (c :: r2) with
      | some n =>
        rw [enable_aux_match_eq hm] at hp
        have ha : a = 'e' := by
          have := hp
          simp only [show ("enabled = true").toList = 'e' :: ("nabled = true").toList from rfl,
            List.cons_append, List.isPrefixOf, Bool.and_eq_true, beq_iff_eq] at this
          exact this.1
        exact absurd (ha ▸ List.mem_cons_self a t') he
      | none =>
        rw [enable_aux_nomatch_eq hm] at hp
        simp only [List.isPrefixOf, Bool.and_eq_true, beq_iff_eq] at hp ⊢
        exact ⟨hp.1, ih (fun hmem => he (List.mem_cons_of_mem a hmem)) r2 hp.2⟩

theorem enable_repl_no_lit (i : Nat) (hi : i < 14) (Y : Str) :
    (("post_hook").toList).isPrefixOf ((("enabled = true").toList).drop i ++ Y) = false := by
  interval_cases i <;> simp [List.isPrefixOf]

theorem enable_preserves_no_post_aux :
    ∀ (n : Nat) (s : Str), s.length ≤ n →
      occursIn (("post_hook").toList) (dbt_cfg_enable_aux 0 s) = true →
      occursIn (("post_hook").toList) s = true := by
  intro n
  induction n with
  | zero =>
    intro s hs
    rw [List.length_eq_zero.mp (Nat.le_zero.mp hs)]
    intro h
    simpa using h
  | succ n ih =>
    intro s hs h
    cases s with
    | nil => simpa using h
    | cons c r =>
      rw [List.length_cons] at hs
      cases hm : matchEnableAt (c :: r) with
      | some m =>
        rw [enable_aux_match_eq hm, enable_aux_skip] at h
        rcases occursIn_append_cases h with ⟨i, hi, hpre⟩ | hocc
        · rw [enable_repl_no_lit i (by simpa using hi) _] at hpre
          simp at hpre
        · have := ih (r.drop (m - 1)) (by
            have := List.length_drop (m - 1) r
            omega) hocc
          exact occursIn_tail (occursIn_drop this)
      | none =>
        rw [enable_aux_nomatch_eq hm] at h
        rw [occursIn_cons, Bool.or_eq_true] at h
        rcases h with hpre | hocc
        · have h1 : (("post_hook").toList).isPrefixOf (c :: r) = true := by
            have hnoe : 'e' ∉ ("post_hook").toList := by decide
            exact enable_aux_prefix_transfer _ hnoe (c :: r)
              (by rwa [enable_aux_nomatch_eq hm])
          exact prefix_occursIn h1
        · exact occursIn_tail (ih r (by omega) hocc)

theorem enable_preserves_no_post {s : Str}
    (h : occursIn (("post_hook").toList) s = false) :
    occursIn (("post_hook").toList) (dbt_cfg_enable_table s) = false := by
  by_contra hc
  rw [Bool.not_eq_false] at hc
  rw [enable_preserves_no_post_aux s.length s (Nat.le_refl _) hc] at h
  simp at h

theorem takeWhile_ws_exact {u : Str} (hu : u.all isPyWS = true) {c : Char}
    (hc : isPyWS c = false) (X : Str) :
    (u ++ c :: X).takeWhile isPyWS = u ∧ (u ++ c :: X).dropWhile isPyWS = c :: X := by
  induction u with
  | nil => simp [List.takeWhile_cons, List.dropWhile_cons, hc]
  | cons a u' ih =>
    rw [List.all_cons, Bool.and_eq_true] at hu
    have h2 := ih hu.2
    simp [List.takeWhile_cons, List.dropWhile_cons, hu.1, h2.1, h2.2]

theorem drop_takeWhile_len (p : Char → Bool) (l : Str) :
    l.drop (l.takeWhile p).length = l.dropWhile p := by
  induction l with
  | nil => rfl
  | cons c l ih =>
    cases hpc : p c <;>
      simp [List.takeWhile_cons, List.dropWhile_cons, hpc, ih]

theorem matchPostAt_isSome_iff (s : Str) :
    (matchPostAt s).isSome = true ↔
      ∃ u1 u2 rest,
        s = ("post_hook").toList ++ (u1 ++ '=' :: (u2 ++ '[' :: rest)) ∧
        u1.all isPyWS = true ∧ u2.all isPyWS = true := by
  constructor
  · intro h
    simp only [matchPostAt] at h
    split_ifs at h with hp h1 h2
    · obtain ⟨t, ht⟩ := List.isPrefixOf_iff_prefix.mp hp
      set r1 := s.drop 9 with hr1
      have hsr : s = ("post_hook").toList ++ r1 := by
        rw [hr1, ← ht, show (9 : Nat) = (("post_hook").toList).length from rfl, List.drop_left]
      have hd : r1.drop (wsRunLen r1) = r1.dropWhile isPyWS := by
        rw [wsRunLen]
        exact drop_takeWhile_len _ _
      rw [hd] at h1
      cases hdw : r1.dropWhile isPyWS with
      | nil => rw [hdw] at h1; simp at h1
      | cons a X =>
        rw [hdw, List.head?_cons] at h1
        have ha : a = '=' := by simpa using h1
        subst ha
        have hr1Split : r1 = r1.takeWhile isPyWS ++ '=' :: X := by
          conv_lhs => rw [← List.takeWhile_append_dropWhile (p := isPyWS) (l := r1)]
          rw [hdw]
        have hr2 : r1.drop (wsRunLen r1 + 1) = X := by
          rw [← List.drop_drop, hd, hdw]
          rfl
        rw [hr2] at h2
        have hd2 : X.drop (wsRunLen X) = X.dropWhile isPyWS := by
          rw [wsRunLen]
          exact drop_takeWhile_len _ _
        rw [hd2] at h2
        cases hdw2 : X.dropWhile isPyWS with
        | nil => rw [hdw2] at h2; simp at h2
        | cons b Y =>
          rw [hdw2, List.head?_cons] at h2
          have hb : b = '[' := by simpa using h2
          subst hb
          have hXsplit : X = X.takeWhile isPyWS ++ '[' :: Y := by
            conv_lhs => rw [← List.takeWhile_append_dropWhile (p := isPyWS) (l := X)]
            rw [hdw2]
          refine ⟨r1.takeWhile isPyWS, X.takeWhile isPyWS, Y, ?_, ?_, ?_⟩
          · rw [hsr]
            conv_lhs => rw [hr1Split, hXsplit]
          · exact List.all_eq_true.mpr fun x hx => List.mem_takeWhile_imp hx
          · exact List.all_eq_true.mpr fun x hx => List.mem_takeWhile_imp hx
    · simp at h
    · simp at h
    · simp at h
  · rintro ⟨u1, u2, rest, hdec, hu1, hu2⟩
    have hp : (("post_hook").toList).isPrefixOf s = true := by
      rw [List.isPrefixOf_iff_prefix, hdec]
      exact ⟨_, rfl⟩
    have hs9 : s.drop 9 = u1 ++ '=' :: (u2 ++ '[' :: rest) := by
      rw [hdec, show (9 : Nat) = (("post_hook").toList).length from rfl, List.drop_left]
    have k1 : wsRunLen (u1 ++ '=' :: (u2 ++ '[' :: rest)) = u1.length := by
      rw [wsRunLen, (takeWhile_ws_exact hu1 (by decide) _).1]
    have k2 : (u1 ++ '=' :: (u2 ++ '[' :: rest)).drop u1.length = '=' :: (u2 ++ '[' :: rest) :=
      List.drop_left _ _
    have k3 : (u1 ++ '=' :: (u2 ++ '[' :: rest)).drop (u1.length + 1) = u2 ++ '[' :: rest := by
      rw [← List.drop_drop, k2]
      rfl
    have k4 : wsRunLen (u2 ++ '[' :: rest) = u2.length := by
      rw [wsRunLen, (takeWhile_ws_exact hu2 (by decide) _).1]
    have k5 : (u2 ++ '[' :: rest).drop u2.length = '[' :: rest :=
      List.drop_left _ _
    simp only [matchPostAt, hp, if_true, hs9, k1, k2, k3, k4, k5, List.head?_cons]
    simp

theorem enable_aux_copy_decomp (t : Str) (he : 'e' ∉ t) :
    ∀ s y, dbt_cfg_enable_aux 0 s = t ++ y →
      ∃ s2, s = t ++ s2 ∧ dbt_cfg_enable_aux 0 s2 = y := by
  induction t with
  | nil =>
    intro s y h
    exact ⟨s, rfl, by simpa using h⟩
  | cons a t' ih =>
    intro s y h
    cases s with
    | nil =>
      rw [show dbt_cfg_enable_aux 0 [] = ([] : Str) from rfl] at h
      simp at h
    | cons c r =>
      cases hm : matchEnableAt (c :: r) with
      | some n =>
        rw [enable_aux_match_eq hm] at h
        have ha : a = 'e' := by
          have h' := congrArg List.head? h
          simp only [show ("enabled = true").toList = 'e' :: ("nabled = true").toList from rfl,
            List.cons_append, List.head?_cons] at h'
          exact (Option.some_inj.mp h').symm
        exact absurd (ha ▸ List.mem_cons_self a t') he
      | none =>
        rw [enable_aux_nomatch_eq hm, List.cons_append] at h
        injection h with h1 h2
        obtain ⟨s2, hs2, hy⟩ := ih (fun hm2 => he (List.mem_cons_of_mem a hm2)) r y h2
        exact ⟨s2, by rw [List.cons_append, h1, hs2], hy⟩

theorem matchPost_head_transfer {s : Str}
    (h : (matchPostAt (dbt_cfg_enable_aux 0 s)).isSome = true) :
    (matchPostAt s).isSome = true := by
  rw [matchPostAt_isSome_iff] at h
  obtain ⟨u1, u2, rest, hdec, hu1, hu2⟩ := h
  have hne : 'e' ∉ ("post_hook").toList ++ (u1 ++ '=' :: (u2 ++ ['['])) := by
    intro hmem
    simp only [List.mem_append, List.mem_cons, List.mem_singleton] at hmem
    rcases hmem with hm1 | hm2 | hm3 | hm4 | hm5
    · exact absurd hm1 (by decide)
    · exact absurd (List.all_eq_true.mp hu1 _ hm2) (by decide)
    · exact absurd hm3 (by decide)
    · exact absurd (List.all_eq_true.mp hu2 _ hm4) (by decide)
    · exact absurd hm5 (by decide)
  have hdec' : dbt_cfg_enable_aux 0 s =
      (("post_hook").toList ++ (u1 ++ '=' :: (u2 ++ ['[']))) ++ rest := by
    rw [hdec]
    simp [List.append_assoc]
  obtain ⟨s2, hs2, _⟩ := enable_aux_copy_decomp _ hne _ _ hdec'
  rw [matchPostAt_isSome_iff]
  refine ⟨u1, u2, s2, ?_, hu1, hu2⟩
  rw [hs2]
  simp [List.append_assoc]

theorem searchPost_isSome_iff (s : Str) :
    (searchPost s).isSome = true ↔ ∃ i, (matchPostAt (s.drop i)).isSome = true := by
  induction s with
  | nil =>
    constructor
    · intro h
      simp [searchPost] at h
    · rintro ⟨i, hi⟩
      rw [List.drop_nil, show matchPostAt [] = none from rfl] at hi
      simp at hi
  | cons c r ih =>
    rw [searchPost]
    cases hm : matchPostAt (c :: r) with
    | some p =>
      simp only [Option.isSome_some, true_iff]
      exact ⟨0, by rw [List.drop_zero, hm]; rfl⟩
    | none =>
      rw [ih]
      constructor
      · rintro ⟨i, hi⟩
        exact ⟨i + 1, by rwa [List.drop_succ_cons]⟩
      · rintro ⟨i, hi⟩
        cases i with
        | zero =>
          rw [List.drop_zero, hm] at hi
          simp at hi
        | succ j => exact ⟨j, by rwa [List.drop_succ_cons] at hi⟩

theorem enable_searchPost_transfer :
    ∀ (n : Nat) (s : Str), s.length ≤ n →
      (searchPost (dbt_cfg_enable_aux 0 s)).isSome = true →
      (searchPost s).isSome = true := by
  intro n
  induction n with
  | zero =>
    intro s hs h
    rw [List.length_eq_zero.mp (Nat.le_zero.mp hs)] at h ⊢
    simpa using h
  | succ n ih =>
    intro s hs h
    cases s with
    | nil => simpa using h
    | cons c r =>
      rw [List.length_cons] at hs
      cases hm : matchEnableAt (c :: r) with
      | some m =>
        rw [enable_aux_match_eq hm, enable_aux_skip] at h
        rw [searchPost_isSome_iff] at h
        obtain ⟨i, hi⟩ := h
        by_cases hlt : i < 14
        · rw [List.drop_append_of_le_length (by
            rw [show (("enabled = true").toList).length = 14 from rfl]; omega)] at hi
          have hpre := matchPostAt_isSome_lit hi
          rw [enable_repl_no_lit i hlt _] at hpre
          simp at hpre
        · push_neg at hlt
          have hsplit : (("enabled = true").toList ++
              dbt_cfg_enable_aux 0 (r.drop (m - 1))).drop i =
              (dbt_cfg_enable_aux 0 (r.drop (m - 1))).drop (i - 14) := by
            conv_lhs =>
              rw [show i = (("enabled = true").toList).length + (i - 14) from by
                rw [show (("enabled = true").toList).length = 14 from rfl]; omega]
            exact List.drop_append _
          rw [hsplit] at hi
          have hY : (searchPost (dbt_cfg_enable_aux 0 (r.drop (m - 1)))).isSome = true := by
            rw [searchPost_isSome_iff]
            exact ⟨i - 14, hi⟩
          have hr := ih (r.drop (m - 1)) (by
            have := List.length_drop (m - 1) r
            omega) hY
          rw [searchPost_isSome_iff] at hr ⊢
          obtain ⟨j, hj⟩ := hr
          refine ⟨((m - 1) + j) + 1, ?_⟩
          rw [List.drop_succ_cons]
          rwa [List.drop_drop] at hj
      | none =>
        rw [enable_aux_nomatch_eq hm] at h
        rw [searchPost_isSome_iff] at h
        obtain ⟨i, hi⟩ := h
        cases i with
        | zero =>
          rw [List.drop_zero, ← enable_aux_nomatch_eq hm] at hi
          have h0 := matchPost_head_transfer hi
          rw [searchPost_isSome_iff]
          exact ⟨0, by rwa [List.drop_zero]⟩
        | succ j =>
          rw [List.drop_succ_cons] at hi
          have hr := ih r (by omega) (by
            rw [searchPost_isSome_iff]
            exact ⟨j, hi⟩)
          rw [searchPost_isSome_iff] at hr ⊢
          obtain ⟨k, hk⟩ := hr
          exact ⟨k + 1, by rwa [List.drop_succ_cons]⟩

theorem enable_preserves_searchPost_none {cfg : Str} (h : searchPost cfg = none) :
    searchPost (dbt_cfg_enable_table cfg) = none := by
  cases hx : searchPost (dbt_cfg_enable_table cfg) with
  | none => rfl
  | some p =>
    have h1 : (searchPost (dbt_cfg_enable_aux 0 cfg)).isSome = true := by
      rw [show dbt_cfg_enable_aux 0 cfg = dbt_cfg_enable_table cfg from rfl, hx]
      rfl
    have h2 := enable_searchPost_transfer cfg.length cfg (Nat.le_refl _) h1
    rw [h] at h2
    simp at h2

/-- Claim C8: when cleanup injection is requested and the configuration holds
no `post_hook` list token (no match of `post_hook\s*=\s*\[`, i.e.
`searchPost` fails), `dbt_cfg_add_drop` raises the explicit error naming the
missing `post_hook` section in the very first loop iteration, so no file
content is produced for any entity.  (The `enabled ... = ... false` rewrite
performed first cannot create such a token.) -/
theorem missing_post_hook_aborts_without_output (scripts : List SmallScript) (cfg : Str)
    (hne : scripts ≠ []) (hnp : searchPost cfg = none) :
    create_new_script_files scripts true cfg =
      ([], some (("post_hook not found, please add it so drop statements can be added.").toList)) := by
  obtain ⟨scr, rest, rfl⟩ := List.exists_cons_of_ne_nil hne
  have h2 : searchPost (dbt_cfg_enable_table cfg) = none :=
    enable_preserves_searchPost_none hnp
  rw [create_new_script_files, create_files_go]
  rw [if_pos rfl, dbt_cfg_add_drop, h2]

/-- Claim C8 witness. -/
theorem missing_post_hook_aborts_without_output_witness :
    create_new_script_files
        [⟨("select 1\nfrom t\n").toList, some (("a").toList), ("out_a").toList, true⟩]
        true (("\x7b\x7b config(enabled = false) \x7d\x7d").toList) =
      ([], some (("post_hook not found, please add it so drop statements can be added.").toList)) :=
  missing_post_hook_aborts_without_output
    [⟨("select 1\nfrom t\n").toList, some (("a").toList), ("out_a").toList, true⟩]
    (("\x7b\x7b config(enabled = false) \x7d\x7d").toList) (by decide) (by decide)

theorem lit9_no_border :
    ∀ k, k < 9 → 1 ≤ k →
      (("post_hook").toList).drop k ≠ (("post_hook").toList).take (9 - k) := by
  decide

theorem prefix_append_left {l a b : Str} (h : l.isPrefixOf (a ++ b) = true)
    (hl : l.length ≤ a.length) : l.isPrefixOf a = true := by
  rw [List.isPrefixOf_iff_prefix, List.prefix_iff_eq_take] at h ⊢
  rw [List.take_append_eq_append_take, show l.length - a.length = 0 from by omega,
    List.take_zero, List.append_nil] at h
  exact h

theorem no_match_before_lit (A T : Str)
    (hA : occursIn (("post_hook").toList) A = false) :
    ∀ i, i < A.length →
      (matchPostAt ((A ++ (("post_hook").toList ++ T)).drop i)).isSome = false := by
  intro i hi
  by_contra hc
  rw [Bool.not_eq_false] at hc
  have hlit := matchPostAt_isSome_lit hc
  rw [List.drop_append_of_le_length (Nat.le_of_lt hi)] at hlit
  have hlen : (A.drop i).length = A.length - i := List.length_drop i A
  by_cases h9 : 9 ≤ (A.drop i).length
  · have h2 : (("post_hook").toList).isPrefixOf (A.drop i) = true :=
      prefix_append_left hlit (by rw [show ((("post_hook").toList)).length = 9 from rfl]; omega)
    have hocc : occursIn (("post_hook").toList) A = true := by
      rw [occursIn]
      exact List.any_eq_true.mpr ⟨i, List.mem_range.mpr (by omega), h2⟩
    rw [hocc] at hA
    simp at hA
  · push_neg at h9
    rw [List.isPrefixOf_iff_prefix, List.prefix_iff_eq_take,
      show ((("post_hook").toList)).length = 9 from rfl,
      List.take_append_eq_append_take,
      List.take_of_length_le (Nat.le_of_lt h9),
      List.take_append_eq_append_take,
      show 9 - (A.drop i).length - ((("post_hook").toList)).length = 0 from by
        rw [show ((("post_hook").toList)).length = 9 from rfl]; omega,
      List.take_zero, List.append_nil] at hlit
    have hdrop : (("post_hook").toList).drop ((A.drop i).length) =
        (("post_hook").toList).take (9 - (A.drop i).length) := by
      conv_lhs => rw [hlit]
      exact List.drop_left _ _
    exact absurd hdrop (lit9_no_border _ h9 (by omega))

theorem searchPost_head_some {s : Str} {p : Nat × Str} (hm : matchPostAt s = some p) :
    searchPost s = some p.2 := by
  cases s with
  | nil => rw [show matchPostAt [] = none from rfl] at hm; simp at hm
  | cons c r => rw [searchPost, hm]

theorem searchPost_append_none (A T : Str)
    (h : ∀ i, i < A.length → (matchPostAt ((A ++ T).drop i)).isSome = false) :
    searchPost (A ++ T) = searchPost T := by
  induction A with
  | nil => simp
  | cons a A2 ih =>
    rw [List.cons_append, searchPost]
    cases hm : matchPostAt (a :: (A2 ++ T)) with
    | some p =>
      have h0 := h 0 (by simp)
      rw [List.drop_zero, List.cons_append, hm] at h0
      simp at h0
    | none =>
      apply ih
      intro i hi
      have hh := h (i + 1) (by rw [List.length_cons]; omega)
      rwa [List.cons_append, List.drop_succ_cons] at hh

theorem subPost_match_eq {repl : Str} {c : Char} {r : Str} {p : Nat × Str}
    (hm : matchPostAt (c :: r) = some p) :
    subPostAux repl 0 (c :: r) = repl ++ subPostAux repl (p.1 - 1) r := by
  rw [subPostAux, hm]

theorem subPost_nomatch_eq {repl : Str} {c : Char} {r : Str}
    (hm : matchPostAt (c :: r) = none) :
    subPostAux repl 0 (c :: r) = c :: subPostAux repl 0 r := by
  rw [subPostAux, hm]

theorem subPost_skip (repl : Str) : ∀ (k : Nat) (r : Str),
    subPostAux repl k r = subPostAux repl 0 (r.drop k) := by
  intro k
  induction k with
  | zero => intro r; simp
  | succ k ih =>
    intro r
    cases r with
    | nil => rfl
    | cons c r2 =>
      rw [List.drop_succ_cons, ← ih r2]
      rfl

theorem subPost_nomatch_id (repl : Str) : ∀ {s : Str},
    searchPost s = none → subPostAux repl 0 s = s := by
  intro s
  induction s with
  | nil => intro _; rfl
  | cons c r ih =>
    intro h
    rw [searchPost] at h
    cases hm : matchPostAt (c :: r) with
    | some p =>
      rw [hm] at h
      simp at h
    | none =>
      rw [hm] at h
      rw [subPost_nomatch_eq hm, ih h]

theorem subPost_append_copy (repl A T : Str)
    (h : ∀ i, i < A.length → (matchPostAt ((A ++ T).drop i)).isSome = false) :
    subPostAux repl 0 (A ++ T) = A ++ subPostAux repl 0 T := by
  induction A with
  | nil => simp
  | cons a A2 ih =>
    rw [List.cons_append]
    cases hm : matchPostAt (a :: (A2 ++ T)) with
    | some p =>
      have h0 := h 0 (by simp)
      rw [List.drop_zero, List.cons_append, hm] at h0
      simp at h0
    | none =>
      rw [subPost_nomatch_eq hm, List.cons_append]
      congr 1
      apply ih
      intro i hi
      have hh := h (i + 1) (by rw [List.length_cons]; omega)
      rwa [List.cons_append, List.drop_succ_cons] at hh

theorem takeWhile_ws_gen {u Z : Str} (hu : u.all isPyWS = true)
    (hZ : Z.takeWhile isPyWS = []) :
    (u ++ Z).takeWhile isPyWS = u := by
  induction u with
  | nil => simpa using hZ
  | cons a u2 ih =>
    rw [List.all_cons, Bool.and_eq_true] at hu
    simp [List.takeWhile_cons, hu.1, ih hu.2]

theorem matchPostAt_at_region (u1 u2 sp rem : Str)
    (hu1 : u1.all isPyWS = true) (hu2 : u2.all isPyWS = true) (hsp : sp.all isPyWS = true)
    (hrem : rem.takeWhile isPyWS = []) :
    matchPostAt (("post_hook").toList ++ (u1 ++ '=' :: (u2 ++ '[' :: (sp ++ rem)))) =
      some (9 + u1.length + 1 + u2.length + 1 + sp.length, sp) := by
  have hp : (("post_hook").toList).isPrefixOf
      (("post_hook").toList ++ (u1 ++ '=' :: (u2 ++ '[' :: (sp ++ rem)))) = true := by
    rw [List.isPrefixOf_iff_prefix]
    exact ⟨_, rfl⟩
  have hs9 : (("post_hook").toList ++ (u1 ++ '=' :: (u2 ++ '[' :: (sp ++ rem)))).drop 9 =
      u1 ++ '=' :: (u2 ++ '[' :: (sp ++ rem)) := by
    rw [show (9 : Nat) = (("post_hook").toList).length from rfl, List.drop_left]
  have k1 : wsRunLen (u1 ++ '=' :: (u2 ++ '[' :: (sp ++ rem))) = u1.length := by
    rw [wsRunLen, (takeWhile_ws_exact hu1 (by decide) _).1]
  have k2 : (u1 ++ '=' :: (u2 ++ '[' :: (sp ++ rem))).drop u1.length =
      '=' :: (u2 ++ '[' :: (sp ++ rem)) :=
    List.drop_left _ _
  have k3 : (u1 ++ '=' :: (u2 ++ '[' :: (sp ++ rem))).drop (u1.length + 1) =
      u2 ++ '[' :: (sp ++ rem) := by
    rw [← List.drop_drop, k2]
    rfl
  have k4 : wsRunLen (u2 ++ '[' :: (sp ++ rem)) = u2.length := by
    rw [wsRunLen, (takeWhile_ws_exact hu2 (by decide) _).1]
  have k5 : (u2 ++ '[' :: (sp ++ rem)).drop u2.length = '[' :: (sp ++ rem) :=
    List.drop_left _ _
  have k6 : (u2 ++ '[' :: (sp ++ rem)).drop (u2.length + 1) = sp ++ rem := by
    rw [← List.drop_drop, k5]
    rfl
  have k7 : (sp ++ rem).takeWhile isPyWS = sp := takeWhile_ws_gen hsp hrem
  simp only [matchPostAt, hp, if_true, hs9, k1, k2, k3, k4, k5, k6, k7, List.head?_cons]

theorem subPost_at_region (repl u1 u2 sp rem : Str)
    (hu1 : u1.all isPyWS = true) (hu2 : u2.all isPyWS = true) (hsp : sp.all isPyWS = true)
    (hrem : rem.takeWhile isPyWS = []) (hnone : searchPost rem = none) :
    subPostAux repl 0 (("post_hook").toList ++ (u1 ++ '=' :: (u2 ++ '[' :: (sp ++ rem)))) =
      repl ++ rem := by
  have hm := matchPostAt_at_region u1 u2 sp rem hu1 hu2 hsp hrem
  have hcons : ("post_hook").toList ++ (u1 ++ '=' :: (u2 ++ '[' :: (sp ++ rem))) =
      'p' :: (("ost_hook").toList ++ (u1 ++ '=' :: (u2 ++ '[' :: (sp ++ rem)))) := rfl
  rw [hcons] at hm ⊢
  rw [subPost_match_eq hm]
  congr 1
  rw [subPost_skip]
  have hfst : ((9 + u1.length + 1 + u2.length + 1 + sp.length, sp) : Nat × Str).1 =
      9 + u1.length + 1 + u2.length + 1 + sp.length := rfl
  have h1 : ("ost_hook").toList ++ (u1 ++ '=' :: (u2 ++ '[' :: (sp ++ rem))) =
      (("ost_hook").toList ++ (u1 ++ '=' :: (u2 ++ '[' :: sp))) ++ rem := by
    simp
  have h2 : ((("ost_hook").toList ++ (u1 ++ '=' :: (u2 ++ '[' :: sp)))).length =
      9 + u1.length + 1 + u2.length + 1 + sp.length - 1 := by
    simp only [List.length_append, List.length_cons,
      show ((("ost_hook").toList)).length = 8 from rfl]
    omega
  rw [hfst, h1,
    show 9 + u1.length + 1 + u2.length + 1 + sp.length - 1 =
      ((("ost_hook").toList ++ (u1 ++ '=' :: (u2 ++ '[' :: sp)))).length from by rw [h2],
    List.drop_left]
  exact subPost_nomatch_id repl hnone

/-- Claim C7 (amended, per-application correctness): on a configuration of the
form `A ++ "post_hook" ++ u1 ++ "=" ++ u2 ++ "[" ++ sp ++ rem` — with no
`post_hook` occurrence in `A`, whitespace runs `u1`, `u2`, `sp`, the remainder
`rem` starting in a non-whitespace character and holding no further
`post_hook ... = ... [` token — a single application of `dbt_cfg_add_drop`
rewrites the token to `post_hook = [`, re-inserts the captured spacing `sp`,
inserts exactly one quoted `drop table <new_reference>` statement (each
followed by `sp`) per intermediate entity, and leaves `A` and the remainder
`rem` unchanged.  (The loop in `create_new_script_files` however applies this
once per entity, not once overall: see the counterexample.) -/
theorem dbt_cfg_add_drop_shape (A u1 u2 sp rem : Str) (scripts : List SmallScript)
    (hA : occursIn (("post_hook").toList) A = false)
    (hu1 : u1.all isPyWS = true) (hu2 : u2.all isPyWS = true) (hsp : sp.all isPyWS = true)
    (hrem : rem.takeWhile isPyWS = []) (hnone : searchPost rem = none) :
    dbt_cfg_add_drop
        (A ++ (("post_hook").toList ++ (u1 ++ '=' :: (u2 ++ '[' :: (sp ++ rem)))))
        scripts =
      .ok (A ++ ((("post_hook = [").toList ++ sp ++ drop_statements scripts sp) ++ rem)) := by
  have hno := no_match_before_lit A (u1 ++ '=' :: (u2 ++ '[' :: (sp ++ rem))) hA
  have hm := matchPostAt_at_region u1 u2 sp rem hu1 hu2 hsp hrem
  have hsearch : searchPost
      (A ++ (("post_hook").toList ++ (u1 ++ '=' :: (u2 ++ '[' :: (sp ++ rem))))) =
      some sp := by
    rw [searchPost_append_none _ _ hno, searchPost_head_some hm]
  have hsub : subPostAux (("post_hook = [").toList ++ sp ++ drop_statements scripts sp) 0
      (A ++ (("post_hook").toList ++ (u1 ++ '=' :: (u2 ++ '[' :: (sp ++ rem))))) =
      A ++ ((("post_hook = [").toList ++ sp ++ drop_statements scripts sp) ++ rem) := by
    rw [subPost_append_copy _ _ _ hno,
      subPost_at_region _ u1 u2 sp rem hu1 hu2 hsp hrem hnone]
  rw [dbt_cfg_add_drop, hsearch]
  exact congrArg Except.ok hsub

/-- Claim C7 witness: a concrete single application of `dbt_cfg_add_drop`
inserting one drop statement for the single intermediate entity. -/
theorem dbt_cfg_add_drop_shape_witness :
    dbt_cfg_add_drop
        (("\x7b\x7b config(").toList ++
          (("post_hook").toList ++
            ((" ").toList ++ '=' :: (([] : Str) ++
              '[' :: ((" ").toList ++ ("'x'] ) \x7d\x7d").toList)))))
        [⟨("select 1").toList, some (("a").toList), ("mid").toList, true⟩] =
      Except.ok
        (("\x7b\x7b config(").toList ++
          ((("post_hook = [").toList ++ (" ").toList ++
              drop_statements
                [⟨("select 1").toList, some (("a").toList), ("mid").toList, true⟩]
                ((" ").toList)) ++
            ("'x'] ) \x7d\x7d").toList)) :=
  dbt_cfg_add_drop_shape _ _ _ _ _ _
    (by decide) (by decide) (by decide) (by decide) (by decide) (by decide)

/-- Claim C7 (counterexample): the cleanup-hook injection is applied once per
loop iteration, not exactly once; with one intermediate and one final entity
the final entity's file contains two copies of the intermediate's quoted
`drop table` statement instead of exactly one. -/
theorem drop_statements_inserted_twice :
    ((create_new_script_files
        [⟨("select 1").toList, some (("a").toList), ("mid").toList, true⟩,
         ⟨("select 2").toList, none, ("fin").toList, false⟩]
        true (("post_hook = [x]").toList)).1.map
      fun f => countOccur (("'drop table ").toList) f.2) = [0, 2] := by
  decide

theorem idChar_toNat_le {c : Char} (h : isIdChar c = true) : c.toNat ≤ 122 := by
  rw [isIdChar] at h
  simp only [Bool.or_eq_true, decide_eq_true_eq] at h
  rcases h with h | h
  · simp [Char.isAlphanum, Char.isAlpha, Char.isDigit, Char.isUpper, Char.isLower] at h
    rcases h with (⟨_, h2⟩ | ⟨_, h2⟩) | ⟨_, h2⟩ <;>
      · rw [UInt32.le_def] at h2
        exact le_trans h2 (by decide)
  · subst h
    decide

theorem id_not_ws {c : Char} (hid : isIdChar c = true) : isPyWS c = false := by
  have hle := idChar_toNat_le hid
  by_contra hws
  rw [Bool.not_eq_false, isPyWS] at hws
  simp only [Bool.or_eq_true, decide_eq_true_eq, Bool.and_eq_true] at hws
  rcases hws with ((((((((((((((((((h|h)|h)|h)|h)|h)|h)|h)|h)|h)|h)|h)|h)|hr)|h)|h)|h)|h)|h)
  all_goals try (subst h; exact absurd hid (by decide))
  exact absurd hle (by omega)

theorem pref4_take {x y : Str} (hx : x.length = 4) : x.isPrefixOf y = true ↔ y.take 4 = x := by
  rw [List.isPrefixOf_iff_prefix, List.prefix_iff_eq_take, hx]
  exact eq_comm

theorem fjEnds_eq_rev (p : Str) : fjEnds p = true ↔ fjEndsRev p.reverse = true := by
  rw [fjEnds, fjEndsRev]
  simp only [Bool.or_eq_true, decide_eq_true_eq, List.isSuffixOf]
  constructor
  · rintro (h | h)
    · rw [show (("from").toList).reverse = ['m', 'o', 'r', 'f'] from rfl] at h
      exact Or.inl ((pref4_take (show (['m', 'o', 'r', 'f'] : Str).length = 4 from rfl)).mp h)
    · rw [show (("join").toList).reverse = ['n', 'i', 'o', 'j'] from rfl] at h
      exact Or.inr ((pref4_take (show (['n', 'i', 'o', 'j'] : Str).length = 4 from rfl)).mp h)
  · rintro (h | h)
    · refine Or.inl ?_
      rw [show (("from").toList).reverse = ['m', 'o', 'r', 'f'] from rfl]
      exact (pref4_take (show (['m', 'o', 'r', 'f'] : Str).length = 4 from rfl)).mpr h
    · refine Or.inr ?_
      rw [show (("join").toList).reverse = ['n', 'i', 'o', 'j'] from rfl]
      exact (pref4_take (show (['n', 'i', 'o', 'j'] : Str).length = 4 from rfl)).mpr h

theorem fjEndsRev_head {c : Char} {x : Str} (h : fjEndsRev (c :: x) = true) :
    c = 'm' ∨ c = 'n' := by
  rw [fjEndsRev] at h
  simp only [Bool.or_eq_true, decide_eq_true_eq] at h
  rcases h with h | h
  · rw [show (4 : Nat) = 3 + 1 from rfl, List.take_succ_cons] at h
    injection h with h1 _
    exact Or.inl h1
  · rw [show (4 : Nat) = 3 + 1 from rfl, List.take_succ_cons] at h
    injection h with h1 _
    exact Or.inr h1

theorem mocc_nil {V rctx : Str} : ¬ Mocc V rctx [] := by
  rintro ⟨p, w, t, h, _, hw, _⟩
  cases w with
  | nil => exact hw rfl
  | cons a b => cases p <;> simp at h

theorem mocc_cons {V rctx : Str} (c : Char) (s : Str) :
    Mocc V rctx (c :: s) ↔
      ((∃ w t, c :: s = w ++ (V ++ t) ∧ fjEndsRev rctx = true ∧ w ≠ [] ∧
          w.all isPyWS = true) ∨
        Mocc V (c :: rctx) s) := by
  constructor
  · rintro ⟨p, w, t, h, hfj, hw, hws⟩
    cases p with
    | nil => exact Or.inl ⟨w, t, by simpa using h, by simpa using hfj, hw, hws⟩
    | cons c0 p2 =>
      right
      rw [List.cons_append] at h
      injection h with h1 h2
      subst h1
      refine ⟨p2, w, t, h2, ?_, hw, hws⟩
      rw [List.reverse_cons, List.append_assoc] at hfj
      exact hfj
  · rintro (⟨w, t, h, hfj, hw, hws⟩ | ⟨p, w, t, h, hfj, hw, hws⟩)
    · exact ⟨[], w, t, by simpa using h, by simpa using hfj, hw, hws⟩
    · refine ⟨c :: p, w, t, by rw [List.cons_append, h], ?_, hw, hws⟩
      rw [List.reverse_cons, List.append_assoc]
      exact hfj

theorem mocc_append_intro {V rctx : Str} (X Y : Str) (h : Mocc V (X.reverse ++ rctx) Y) :
    Mocc V rctx (X ++ Y) := by
  obtain ⟨p, w, t, hY, hfj, hw, hws⟩ := h
  refine ⟨X ++ p, w, t, by rw [hY, List.append_assoc], ?_, hw, hws⟩
  rw [List.reverse_append, List.append_assoc]
  exact hfj

theorem mocc_append_elim {V rctx X Y : Str} (h : Mocc V rctx (X ++ Y)) :
    (∃ p w t, X ++ Y = p ++ (w ++ (V ++ t)) ∧ p.length < X.length ∧
      fjEndsRev (p.reverse ++ rctx) = true ∧ w ≠ [] ∧ w.all isPyWS = true) ∨
    Mocc V (X.reverse ++ rctx) Y := by
  obtain ⟨p, w, t, hs, hfj, hw, hws⟩ := h
  by_cases hlt : p.length < X.length
  · exact Or.inl ⟨p, w, t, hs, hlt, hfj, hw, hws⟩
  · push_neg at hlt
    right
    have hXp := congrArg (List.take X.length) hs
    rw [List.take_left, List.take_append_eq_append_take,
      show X.length - p.length = 0 from by omega, List.take_zero, List.append_nil] at hXp
    have hp : p = X ++ p.drop X.length := by
      conv_lhs => rw [← List.take_append_drop X.length p, ← hXp]
    have hY : Y = p.drop X.length ++ (w ++ (V ++ t)) := by
      have h2 : X ++ Y = X ++ (p.drop X.length ++ (w ++ (V ++ t))) := by
        rw [hs]
        conv_lhs => rw [hp]
        rw [List.append_assoc]
      exact List.append_cancel_left h2
    refine ⟨p.drop X.length, w, t, hY, ?_, hw, hws⟩
    have hrev : p.reverse = (p.drop X.length).reverse ++ X.reverse := by
      conv_lhs => rw [hp]
      rw [List.reverse_append]
    rw [hrev, List.append_assoc] at hfj
    exact hfj

theorem hasFJ_iff_mocc (old s : Str) : HasFJMatch old s ↔ Mocc old [] s := by
  constructor
  · rintro ⟨p, w, t, hs, hfj, hw, hws⟩
    refine ⟨p, w, t, by rw [hs]; simp [List.append_assoc], ?_, hw, hws⟩
    rw [List.append_nil]
    exact (fjEnds_eq_rev p).mp hfj
  · rintro ⟨p, w, t, hs, hfj, hw, hws⟩
    refine ⟨p, w, t, by rw [hs]; simp [List.append_assoc], ?_, hw, hws⟩
    rw [List.append_nil] at hfj
    exact (fjEnds_eq_rev p).mpr hfj

theorem ctxRel_cons {rp rctx : Str} (c : Char) (h : CtxRel rp rctx) :
    CtxRel (c :: rp) (c :: rctx) := by
  rcases h with h | ⟨com, cd, rd, h1, h2⟩
  · exact Or.inl (by rw [h])
  · exact Or.inr ⟨c :: com, cd, rd, by rw [h1, List.cons_append], by rw [h2, List.cons_append]⟩

theorem ctxRel_repl (rp cd : Str) : CtxRel rp ('}' :: cd) :=
  Or.inr ⟨[], cd, rp, rfl, rfl⟩

theorem ctxRel_imp {rp rctx : Str} (h : CtxRel rp rctx)
    (hfj : fjEndsRev rctx = true) : fjEndsRev rp = true := by
  rcases h with h | ⟨com, cd, rd, h1, h2⟩
  · rwa [h] at hfj
  · subst h1
    subst h2
    rw [fjEndsRev] at hfj ⊢
    simp only [Bool.or_eq_true, decide_eq_true_eq] at hfj ⊢
    by_cases hlen : 4 ≤ com.length
    · have hcom : ∀ X : Str, (com ++ X).take 4 = com.take 4 := fun X => by
        rw [List.take_append_eq_append_take, show 4 - com.length = 0 from by omega,
          List.take_zero, List.append_nil]
      rw [hcom] at hfj
      rw [hcom]
      exact hfj
    · push_neg at hlen
      exfalso
      have hmem : '}' ∈ (com ++ '}' :: cd).take 4 := by
        rw [List.take_append_eq_append_take, List.take_of_length_le (by omega)]
        refine List.mem_append_right _ ?_
        obtain ⟨k, hk⟩ : ∃ k, 4 - com.length = k + 1 := ⟨3 - com.length, by omega⟩
        rw [hk, List.take_succ_cons]
        exact List.mem_cons_self _ _
      rcases hfj with h | h <;> rw [h] at hmem <;> simp at hmem

theorem re_sub_match_eq {old repl rp : Str} {c : Char} {rest : Str} {n : Nat}
    (hm : tryFJMatch old rp (c :: rest) = some n) :
    re_expr_sub_aux old repl rp 0 (c :: rest) =
      repl ++ re_expr_sub_aux old repl (c :: rp) (n - 1) rest := by
  rw [re_expr_sub_aux, hm]

theorem re_sub_nomatch_eq {old repl rp : Str} {c : Char} {rest : Str}
    (hm : tryFJMatch old rp (c :: rest) = none) :
    re_expr_sub_aux old repl rp 0 (c :: rest) =
      c :: re_expr_sub_aux old repl (c :: rp) 0 rest := by
  rw [re_expr_sub_aux, hm]

theorem re_sub_skip (old repl : Str) : ∀ (k : Nat) (rp s : Str),
    re_expr_sub_aux old repl rp k s =
      re_expr_sub_aux old repl ((s.take k).reverse ++ rp) 0 (s.drop k) := by
  intro k
  induction k with
  | zero => intro rp s; simp
  | succ k ih =>
    intro rp s
    cases s with
    | nil => rfl
    | cons c rest =>
      rw [show re_expr_sub_aux old repl rp (k + 1) (c :: rest) =
          re_expr_sub_aux old repl (c :: rp) k rest from rfl, ih,
        List.take_succ_cons, List.drop_succ_cons, List.reverse_cons, List.append_assoc]
      rfl

theorem findK_isSome {V rest : Str} : ∀ (m k : Nat), 1 ≤ k → k ≤ m →
    V.isPrefixOf (rest.drop k) = true → (findK V rest m).isSome = true := by
  intro m
  induction m with
  | zero => intro k h1 h2 _; omega
  | succ m ih =>
    intro k h1 h2 hp
    rw [findK]
    by_cases hm : V.isPrefixOf (rest.drop (m + 1)) = true
    · rw [if_pos hm]
      rfl
    · rw [if_neg hm]
      have hk : k ≤ m := by
        rcases Nat.lt_or_ge k (m + 1) with h | h
        · omega
        · exfalso
          have hkeq : k = m + 1 := by omega
          rw [hkeq] at hp
          exact hm hp
      exact ih k h1 hk hp

theorem wsRun_ge {W : Str} (X : Str) (hW : W.all isPyWS = true) :
    W.length ≤ wsRunLen (W ++ X) := by
  induction W with
  | nil => simp
  | cons d W2 ih =>
    rw [List.all_cons, Bool.and_eq_true] at hW
    rw [List.cons_append, wsRunLen, List.takeWhile_cons, if_pos hW.1, List.length_cons]
    exact Nat.succ_le_succ (ih hW.2)

theorem nr_cons (nn : Str) :
    new_reference nn = ' ' :: '{' :: '{' :: ' ' :: 'r' :: 'e' :: 'f' :: '(' :: '"' ::
      (nn ++ ("\") \x7d\x7d").toList) := rfl

theorem nr_rev (nn : Str) :
    (new_reference nn).reverse = '}' :: ('}' :: ' ' :: ')' :: '"' ::
      (nn.reverse ++ ((" \x7b\x7b ref(\"").toList).reverse)) := by
  rw [new_reference, List.append_assoc, List.reverse_append, List.reverse_append]
  rfl

theorem s3_copy_id (old repl : Str) (hrepl : ∃ junk, repl = ' ' :: '{' :: junk) :
    ∀ (V : Str), V.all isIdChar = true →
      ∀ (s rp y : Str), re_expr_sub_aux old repl rp 0 s = V ++ y → ∃ z, s = V ++ z := by
  intro V
  induction V with
  | nil =>
    intro _ s rp y _
    exact ⟨s, rfl⟩
  | cons v V2 ih =>
    intro hV s rp y h
    rw [List.all_cons, Bool.and_eq_true] at hV
    cases s with
    | nil =>
      rw [show re_expr_sub_aux old repl rp 0 [] = [] from rfl] at h
      simp at h
    | cons c rest =>
      cases hm : tryFJMatch old rp (c :: rest) with
      | some n =>
        obtain ⟨junk, hj⟩ := hrepl
        rw [re_sub_match_eq hm, hj, List.cons_append] at h
        injection h with h1 _
        rw [← h1] at hV
        exact absurd hV.1 (by decide)
      | none =>
        rw [re_sub_nomatch_eq hm, List.cons_append] at h
        injection h with h1 h2
        obtain ⟨z, hz⟩ := ih hV.2 rest (c :: rp) y h2
        exact ⟨z, by rw [List.cons_append, h1, hz]⟩

theorem s3_ws_id (old repl : Str) (hrepl : ∃ junk, repl = ' ' :: '{' :: junk)
    (V : Str) (hV : V.all isIdChar = true) (hVne : V ≠ []) :
    ∀ (W : Str), W.all isPyWS = true →
      ∀ (s rp y : Str), re_expr_sub_aux old repl rp 0 s = W ++ (V ++ y) →
        ∃ z, s = W ++ (V ++ z) := by
  intro W
  induction W with
  | nil =>
    intro _ s rp y h
    obtain ⟨z, hz⟩ := s3_copy_id old repl hrepl V hV s rp y (by simpa using h)
    exact ⟨z, by simpa using hz⟩
  | cons d W2 ih =>
    intro hW s rp y h
    rw [List.all_cons, Bool.and_eq_true] at hW
    cases s with
    | nil =>
      rw [show re_expr_sub_aux old repl rp 0 [] = [] from rfl] at h
      simp at h
    | cons c rest =>
      cases hm : tryFJMatch old rp (c :: rest) with
      | some n =>
        obtain ⟨junk, hj⟩ := hrepl
        rw [re_sub_match_eq hm, hj, List.cons_append] at h
        injection h with h1 h2
        rw [List.cons_append] at h2
        cases W2 with
        | cons e W3 =>
          simp only [List.append_eq, List.cons_append] at h2
          injection h2 with h3 _
          have he : isPyWS e = true := by
            have h4 := hW.2
            rw [List.all_cons, Bool.and_eq_true] at h4
            exact h4.1
          rw [← h3] at he
          exact absurd he (by decide)
        | nil =>
          simp only [List.append_eq, List.nil_append] at h2
          obtain ⟨v, V2, rfl⟩ := List.exists_cons_of_ne_nil hVne
          rw [List.cons_append] at h2
          injection h2 with h3 _
          rw [List.all_cons, Bool.and_eq_true] at hV
          rw [← h3] at hV
          exact absurd hV.1 (by decide)
      | none =>
        rw [re_sub_nomatch_eq hm, List.cons_append] at h
        injection h with h1 h2
        obtain ⟨z, hz⟩ := ih hW.2 rest (c :: rp) y h2
        exact ⟨z, by rw [List.cons_append, h1, hz]⟩

theorem s1_a9 (M p w V t rctx : Str)
    (hEq : (" \x7b\x7b ref(\"").toList ++ M = p ++ (w ++ (V ++ t)))
    (hplen : p.length < 9) (hfj : fjEndsRev (p.reverse ++ rctx) = true)
    (hw : w ≠ []) (hws : w.all isPyWS = true)
    (hV : V.all isIdChar = true) (hVne : V ≠ []) : False := by
  have hpA : p = ((" \x7b\x7b ref(\"").toList).take p.length := by
    have h1 := congrArg (List.take p.length) hEq
    rw [List.take_append_eq_append_take,
      show p.length - (((" \x7b\x7b ref(\"").toList)).length = 0 from by
        rw [show ((((" \x7b\x7b ref(\"").toList)).length) = 9 from rfl]; omega,
      List.take_zero, List.append_nil, List.take_left] at h1
    exact h1.symm
  have hRe : w ++ (V ++ t) = ((" \x7b\x7b ref(\"").toList).drop p.length ++ M := by
    have h2 := congrArg (List.drop p.length) hEq
    rw [List.drop_append_of_le_length (by
        rw [show ((((" \x7b\x7b ref(\"").toList)).length) = 9 from rfl]; omega),
      List.drop_left] at h2
    exact h2.symm
  obtain ⟨w0, w2, rfl⟩ := List.exists_cons_of_ne_nil hw
  rw [List.all_cons, Bool.and_eq_true] at hws
  set n := p.length with hn
  interval_cases n
  · rw [show (((" \x7b\x7b ref(\"").toList)).drop 0 ++ M =
      ' ' :: ('{' :: ((("\x7b ref(\"").toList) ++ M)) from rfl, List.cons_append] at hRe
    injection hRe with e1 e2
    cases w2 with
    | cons e w3 =>
      rw [List.cons_append] at e2
      injection e2 with e3 _
      have he : isPyWS e = true := by
        have h3 := hws.2
        rw [List.all_cons, Bool.and_eq_true] at h3
        exact h3.1
      rw [e3] at he
      exact absurd he (by decide)
    | nil =>
      rw [List.nil_append] at e2
      obtain ⟨v, V2, rfl⟩ := List.exists_cons_of_ne_nil hVne
      rw [List.cons_append] at e2
      injection e2 with e3 _
      rw [List.all_cons, Bool.and_eq_true] at hV
      rw [e3] at hV
      exact absurd hV.1 (by decide)
  · rw [show (((" \x7b\x7b ref(\"").toList)).drop 1 ++ M =
      '{' :: ((("\x7b ref(\"").toList) ++ M) from rfl, List.cons_append] at hRe
    injection hRe with e1 _
    rw [e1] at hws
    exact absurd hws.1 (by decide)
  · rw [show (((" \x7b\x7b ref(\"").toList)).drop 2 ++ M =
      '{' :: (((" ref(\"").toList) ++ M) from rfl, List.cons_append] at hRe
    injection hRe with e1 _
    rw [e1] at hws
    exact absurd hws.1 (by decide)
  · rw [show (((" \x7b\x7b ref(\"").toList)).take 3 = ' ' :: '{' :: '{' :: [] from rfl] at hpA
    rw [hpA, show (' ' :: '{' :: '{' :: ([] : Str)).reverse = '{' :: '{' :: ' ' :: [] from rfl,
      List.cons_append, List.cons_append, List.cons_append] at hfj
    rcases fjEndsRev_head hfj with h | h <;> exact absurd h (by decide)
  · rw [show (((" \x7b\x7b ref(\"").toList)).drop 4 ++ M =
      'r' :: ((("ef(\"").toList) ++ M) from rfl, List.cons_append] at hRe
    injection hRe with e1 _
    rw [e1] at hws
    exact absurd hws.1 (by decide)
  · rw [show (((" \x7b\x7b ref(\"").toList)).drop 5 ++ M =
      'e' :: ((("f(\"").toList) ++ M) from rfl, List.cons_append] at hRe
    injection hRe with e1 _
    rw [e1] at hws
    exact absurd hws.1 (by decide)
  · rw [show (((" \x7b\x7b ref(\"").toList)).drop 6 ++ M =
      'f' :: ((("(\"").toList) ++ M) from rfl, List.cons_append] at hRe
    injection hRe with e1 _
    rw [e1] at hws
    exact absurd hws.1 (by decide)
  · rw [show (((" \x7b\x7b ref(\"").toList)).drop 7 ++ M =
      '(' :: ((("\"").toList) ++ M) from rfl, List.cons_append] at hRe
    injection hRe with e1 _
    rw [e1] at hws
    exact absurd hws.1 (by decide)
  · rw [show (((" \x7b\x7b ref(\"").toList)).drop 8 ++ M = '"' :: M from rfl,
      List.cons_append] at hRe
    injection hRe with e1 _
    rw [e1] at hws
    exact absurd hws.1 (by decide)

theorem s1_name (nn B p2 w V t : Str)
    (hchar : nn.all isIdChar = true)
    (hEq : nn ++ B = p2 ++ (w ++ (V ++ t)))
    (hplen : p2.length < nn.length)
    (hw : w ≠ []) (hws : w.all isPyWS = true) : False := by
  obtain ⟨w0, w2, rfl⟩ := List.exists_cons_of_ne_nil hw
  rw [List.all_cons, Bool.and_eq_true] at hws
  have hRe : (w0 :: w2) ++ (V ++ t) = nn.drop p2.length ++ B := by
    have h2 := congrArg (List.drop p2.length) hEq
    rw [List.drop_append_of_le_length (by omega), List.drop_left] at h2
    exact h2.symm
  obtain ⟨d, D2, hd⟩ := List.exists_cons_of_ne_nil (l := nn.drop p2.length) (by
    intro h0
    have hlen0 := congrArg List.length h0
    rw [List.length_drop] at hlen0
    simp at hlen0
    omega)
  rw [hd, List.cons_append, List.cons_append] at hRe
  injection hRe with e1 _
  have hdmem : d ∈ nn := by
    have hmem2 : d ∈ nn.drop p2.length := by
      rw [hd]
      exact List.mem_cons_self _ _
    exact List.drop_subset _ _ hmem2
  have hcontra := hws.1
  rw [e1, id_not_ws (List.all_eq_true.mp hchar d hdmem)] at hcontra
  simp at hcontra

theorem s1_b5 (M p3 w V t : Str)
    (hEq : ("\") \x7d\x7d").toList ++ M = p3 ++ (w ++ (V ++ t)))
    (hplen : p3.length < 5)
    (hw : w ≠ []) (hws : w.all isPyWS = true)
    (hV : V.all isIdChar = true) (hVne : V ≠ []) : False := by
  have hRe : w ++ (V ++ t) = ((("\") \x7d\x7d").toList)).drop p3.length ++ M := by
    have h2 := congrArg (List.drop p3.length) hEq
    rw [List.drop_append_of_le_length (by
        rw [show (((("\") \x7d\x7d").toList)).length) = 5 from rfl]; omega),
      List.drop_left] at h2
    exact h2.symm
  obtain ⟨w0, w2, rfl⟩ := List.exists_cons_of_ne_nil hw
  rw [List.all_cons, Bool.and_eq_true] at hws
  set n := p3.length with hn
  interval_cases n
  · rw [show ((("\") \x7d\x7d").toList)).drop 0 ++ M =
      '"' :: (((") \x7d\x7d").toList) ++ M) from rfl, List.cons_append] at hRe
    injection hRe with e1 _
    rw [e1] at hws
    exact absurd hws.1 (by decide)
  · rw [show ((("\") \x7d\x7d").toList)).drop 1 ++ M =
      ')' :: (((" \x7d\x7d").toList) ++ M) from rfl, List.cons_append] at hRe
    injection hRe with e1 _
    rw [e1] at hws
    exact absurd hws.1 (by decide)
  · rw [show ((("\") \x7d\x7d").toList)).drop 2 ++ M =
      ' ' :: ('}' :: ((("\x7d").toList) ++ M)) from rfl, List.cons_append] at hRe
    injection hRe with e1 e2
    cases w2 with
    | cons e w3 =>
      rw [List.cons_append] at e2
      injection e2 with e3 _
      have he : isPyWS e = true := by
        have h3 := hws.2
        rw [List.all_cons, Bool.and_eq_true] at h3
        exact h3.1
      rw [e3] at he
      exact absurd he (by decide)
    | nil =>
      rw [List.nil_append] at e2
      obtain ⟨v, V2, rfl⟩ := List.exists_cons_of_ne_nil hVne
      rw [List.cons_append] at e2
      injection e2 with e3 _
      rw [List.all_cons, Bool.and_eq_true] at hV
      rw [e3] at hV
      exact absurd hV.1 (by decide)
  · rw [show ((("\") \x7d\x7d").toList)).drop 3 ++ M =
      '}' :: ((("\x7d").toList) ++ M) from rfl, List.cons_append] at hRe
    injection hRe with e1 _
    rw [e1] at hws
    exact absurd hws.1 (by decide)
  · rw [show ((("\") \x7d\x7d").toList)).drop 4 ++ M = '}' :: M from rfl,
      List.cons_append] at hRe
    injection hRe with e1 _
    rw [e1] at hws
    exact absurd hws.1 (by decide)

theorem s1_no_start_in_repl (nn : Str) (hnn : idLike nn = true)
    (V : Str) (hV : V.all isIdChar = true) (hVne : V ≠ [])
    (Y p w t rctx : Str)
    (hEq : new_reference nn ++ Y = p ++ (w ++ (V ++ t)))
    (hplen : p.length < (new_reference nn).length)
    (hfj : fjEndsRev (p.reverse ++ rctx) = true)
    (hw : w ≠ []) (hws : w.all isPyWS = true) : False := by
  have hnr : new_reference nn ++ Y =
      (" \x7b\x7b ref(\"").toList ++ (nn ++ ((("\") \x7d\x7d").toList) ++ Y)) := by
    rw [new_reference]
    simp [List.append_assoc]
  rw [hnr] at hEq
  have hlen : (new_reference nn).length = 9 + nn.length + 5 := by
    rw [new_reference]
    simp only [List.length_append, show ((((" \x7b\x7b ref(\"").toList)).length) = 9 from rfl,
      show (((("\") \x7d\x7d").toList)).length) = 5 from rfl]
  rw [hlen] at hplen
  by_cases h9 : p.length < 9
  · exact s1_a9 _ p w V t rctx hEq h9 hfj hw hws hV hVne
  · push_neg at h9
    have hpA : p.take 9 = (" \x7b\x7b ref(\"").toList := by
      have h1 := congrArg (List.take 9) hEq
      rw [List.take_append_eq_append_take,
        show (9 : Nat) - ((((" \x7b\x7b ref(\"").toList)).length) = 0 from rfl,
        List.take_zero, List.append_nil, List.take_of_length_le (by decide)] at h1
      rw [List.take_append_eq_append_take, show 9 - p.length = 0 from by omega,
        List.take_zero, List.append_nil] at h1
      exact h1.symm
    have hpsplit : p = (" \x7b\x7b ref(\"").toList ++ p.drop 9 := by
      conv_lhs => rw [← List.take_append_drop 9 p, hpA]
    have hEq2 : nn ++ ((("\") \x7d\x7d").toList) ++ Y) =
        p.drop 9 ++ (w ++ (V ++ t)) := by
      have h2 : (" \x7b\x7b ref(\"").toList ++ (nn ++ ((("\") \x7d\x7d").toList) ++ Y)) =
          (" \x7b\x7b ref(\"").toList ++ (p.drop 9 ++ (w ++ (V ++ t))) := by
        conv_rhs => rw [← List.append_assoc, ← hpsplit]
        exact hEq
      exact List.append_cancel_left h2
    by_cases hnn9 : (p.drop 9).length < nn.length
    · refine s1_name nn _ (p.drop 9) w V t ?_ hEq2 hnn9 hw hws
      rw [idLike, Bool.and_eq_true] at hnn
      exact hnn.2
    · push_neg at hnn9
      have hpn : (p.drop 9).take nn.length = nn := by
        have h1 := congrArg (List.take nn.length) hEq2
        rw [List.take_append_eq_append_take, show nn.length - nn.length = 0 from by omega,
          List.take_zero, List.append_nil, List.take_of_length_le (Nat.le_refl _)] at h1
        rw [List.take_append_eq_append_take,
          show nn.length - (p.drop 9).length = 0 from by omega,
          List.take_zero, List.append_nil] at h1
        exact h1.symm
      have hpsplit2 : p.drop 9 = nn ++ (p.drop 9).drop nn.length := by
        conv_lhs => rw [← List.take_append_drop nn.length (p.drop 9), hpn]
      have hEq3 : (("\") \x7d\x7d").toList) ++ Y =
          (p.drop 9).drop nn.length ++ (w ++ (V ++ t)) := by
        have h2 : nn ++ ((("\") \x7d\x7d").toList) ++ Y) =
            nn ++ ((p.drop 9).drop nn.length ++ (w ++ (V ++ t))) := by
          conv_rhs => rw [← List.append_assoc, ← hpsplit2]
          exact hEq2
        exact List.append_cancel_left h2
      refine s1_b5 Y ((p.drop 9).drop nn.length) w V t hEq3 ?_ hw hws hV hVne
      rw [List.length_drop, List.length_drop]
      omega

theorem a_no_self (old nn : Str) (hold : idLike old = true) (hnn : idLike nn = true) :
    ∀ (N : Nat) (s : Str), s.length ≤ N → ∀ (rp rctx : Str), CtxRel rp rctx →
      ¬ Mocc old rctx (re_expr_sub_aux old (new_reference nn) rp 0 s) := by
  have hrepl : ∃ junk, new_reference nn = ' ' :: '{' :: junk := ⟨_, nr_cons nn⟩
  have holdne : old ≠ [] := by
    rw [idLike, Bool.and_eq_true] at hold
    intro h0
    rw [h0] at hold
    simp at hold
  have holdid : old.all isIdChar = true := by
    rw [idLike, Bool.and_eq_true] at hold
    exact hold.2
  intro N
  induction N with
  | zero =>
    intro s hs rp rctx _
    rw [List.length_eq_zero.mp (Nat.le_zero.mp hs)]
    exact mocc_nil
  | succ N ih =>
    intro s hs rp rctx hctx
    cases s with
    | nil => exact mocc_nil
    | cons c rest =>
      rw [List.length_cons] at hs
      cases hm : tryFJMatch old rp (c :: rest) with
      | some n =>
        rw [re_sub_match_eq hm]
        intro hM
        rcases mocc_append_elim hM with ⟨p, w, t, hEq, hplt, hfj, hw, hws⟩ | hM2
        · exact s1_no_start_in_repl nn hnn old holdid holdne _ p w t rctx hEq hplt hfj hw hws
        · rw [re_sub_skip] at hM2
          have hctx2 : CtxRel ((rest.take (n - 1)).reverse ++ (c :: rp))
              ((new_reference nn).reverse ++ rctx) := by
            rw [nr_rev]
            exact ctxRel_repl _ _
          exact ih (rest.drop (n - 1)) (by
            have := List.length_drop (n - 1) rest
            omega) _ _ hctx2 hM2
      | none =>
        rw [re_sub_nomatch_eq hm]
        intro hM
        rcases (mocc_cons c _).mp hM with ⟨w, t, hEq, hfj, hw, hws⟩ | hM2
        · obtain ⟨z, hz⟩ := s3_ws_id old (new_reference nn) hrepl old holdid holdne
            w hws (c :: rest) rp t (by
              rw [re_sub_nomatch_eq hm]
              exact hEq)
          have hfj2 : fjEndsRev rp = true := ctxRel_imp hctx hfj
          have hk : old.isPrefixOf ((c :: rest).drop w.length) = true := by
            rw [hz, List.drop_left, List.isPrefixOf_iff_prefix]
            exact ⟨z, rfl⟩
          have hwbound : w.length ≤ wsRunLen (c :: rest) := by
            rw [hz]
            exact wsRun_ge _ hws
          have h1w : 1 ≤ w.length := by
            cases w with
            | nil => exact absurd rfl hw
            | cons a b => simp
          have hsome := findK_isSome (wsRunLen (c :: rest)) w.length h1w hwbound hk
          rw [tryFJMatch, if_pos hfj2] at hm
          rw [hm] at hsome
          simp at hsome
        · exact ih rest (by omega) (c :: rp) (c :: rctx) (ctxRel_cons c hctx) hM2

theorem b_preserve (old nn V : Str) (hnn : idLike nn = true)
    (hV : V.all isIdChar = true) (hVne : V ≠ []) :
    ∀ (N : Nat) (s : Str), s.length ≤ N → ∀ (rp rctx : Str), CtxRel rp rctx →
      Mocc V rctx (re_expr_sub_aux old (new_reference nn) rp 0 s) → Mocc V rp s := by
  have hrepl : ∃ junk, new_reference nn = ' ' :: '{' :: junk := ⟨_, nr_cons nn⟩
  intro N
  induction N with
  | zero =>
    intro s hs rp rctx _ hM
    rw [List.length_eq_zero.mp (Nat.le_zero.mp hs)] at hM
    exact absurd hM mocc_nil
  | succ N ih =>
    intro s hs rp rctx hctx hM
    cases s with
    | nil => exact absurd hM mocc_nil
    | cons c rest =>
      rw [List.length_cons] at hs
      cases hm : tryFJMatch old rp (c :: rest) with
      | some n =>
        rw [re_sub_match_eq hm] at hM
        rcases mocc_append_elim hM with ⟨p, w, t, hEq, hplt, hfj, hw, hws⟩ | hM2
        · exact (s1_no_start_in_repl nn hnn V hV hVne _ p w t rctx hEq hplt hfj hw hws).elim
        · rw [re_sub_skip] at hM2
          have hctx2 : CtxRel ((rest.take (n - 1)).reverse ++ (c :: rp))
              ((new_reference nn).reverse ++ rctx) := by
            rw [nr_rev]
            exact ctxRel_repl _ _
          have hIn := ih (rest.drop (n - 1)) (by
            have := List.length_drop (n - 1) rest
            omega) _ _ hctx2 hM2
          have hIn2 : Mocc V ((c :: rest.take (n - 1)).reverse ++ rp) (rest.drop (n - 1)) := by
            rw [List.reverse_cons, List.append_assoc]
            exact hIn
          have hIn3 := mocc_append_intro (c :: rest.take (n - 1)) (rest.drop (n - 1)) hIn2
          rw [show (c :: rest.take (n - 1)) ++ rest.drop (n - 1) = c :: rest from by
            rw [List.cons_append, List.take_append_drop]] at hIn3
          exact hIn3
      | none =>
        rw [re_sub_nomatch_eq hm] at hM
        rcases (mocc_cons c _).mp hM with ⟨w, t, hEq, hfj, hw, hws⟩ | hM2
        · obtain ⟨z, hz⟩ := s3_ws_id old (new_reference nn) hrepl V hV hVne w hws
            (c :: rest) rp t (by
              rw [re_sub_nomatch_eq hm]
              exact hEq)
          refine ⟨[], w, z, by simpa using hz, ?_, hw, hws⟩
          rw [List.reverse_nil, List.nil_append]
          exact ctxRel_imp hctx hfj
        · have hIn := ih rest (by omega) (c :: rp) (c :: rctx) (ctxRel_cons c hctx) hM2
          have hIn2 : Mocc V ([c].reverse ++ rp) rest := hIn
          have hIn3 := mocc_append_intro [c] rest hIn2
          exact hIn3

theorem pass_no_self (old nn s : Str) (hold : idLike old = true) (hnn : idLike nn = true) :
    ¬ HasFJMatch old (re_expr_sub old (new_reference nn) s) := by
  rw [hasFJ_iff_mocc]
  exact a_no_self old nn hold hnn s.length s (Nat.le_refl _) [] [] (Or.inl rfl)

theorem pass_preserve (old nn V s : Str) (hnn : idLike nn = true) (hV : idLike V = true)
    (h : ¬ HasFJMatch V s) : ¬ HasFJMatch V (re_expr_sub old (new_reference nn) s) := by
  rw [hasFJ_iff_mocc] at h ⊢
  intro hM
  have hV2 : V.all isIdChar = true := by
    rw [idLike, Bool.and_eq_true] at hV
    exact hV.2
  have hVne : V ≠ [] := by
    rw [idLike, Bool.and_eq_true] at hV
    intro h0
    rw [h0] at hV
    simp at hV
  exact h (b_preserve old nn V hnn hV2 hVne s.length s (Nat.le_refl _) [] [] (Or.inl rfl) hM)

theorem fold_keep (V : Str) (hV : idLike V = true) :
    ∀ (l : List SmallScript) (s : Str), (∀ r ∈ l, idLike r.new_name = true) →
      ¬ HasFJMatch V s →
      ¬ HasFJMatch V (l.foldl
        (fun c r => re_expr_sub (oldNameText r.old_name) (new_reference r.new_name) c) s) := by
  intro l
  induction l with
  | nil =>
    intro s _ h
    simpa using h
  | cons r l2 ih =>
    intro s hall h
    rw [List.foldl_cons]
    exact ih _ (fun x hx => hall x (List.mem_cons_of_mem r hx))
      (pass_preserve _ _ V s (hall r (List.mem_cons_self r l2)) hV h)

theorem fold_removes (C : SmallScript) (hCold : idLike (oldNameText C.old_name) = true) :
    ∀ (l : List SmallScript), (∀ r ∈ l, idLike r.new_name = true) → C ∈ l →
      ∀ content, ¬ HasFJMatch (oldNameText C.old_name)
        (l.foldl (fun c r => re_expr_sub (oldNameText r.old_name) (new_reference r.new_name) c)
          content) := by
  intro l
  induction l with
  | nil =>
    intro _ hC _
    exact absurd hC (List.not_mem_nil C)
  | cons r l2 ih =>
    intro hall hC content
    rw [List.foldl_cons]
    rcases List.mem_cons.mp hC with rfl | hC2
    · exact fold_keep _ hCold l2 _ (fun x hx => hall x (List.mem_cons_of_mem _ hx))
        (pass_no_self _ _ content hCold (hall C (List.mem_cons_self _ _)))
    · exact ih (fun x hx => hall x (List.mem_cons_of_mem _ hx)) hC2 _

/-- Claim C2: after the all-pairs rewrite pass of `create_new_script_files`
(each entity's content substituted with every entity's match rule replaced by
that entity's `new_reference`), no entity's `old_name` — all names being
identifier-like, as the input contract's table and script names are — remains
anywhere in the result immediately preceded by `from`/`join` plus whitespace. -/
theorem rewrite_content_no_fj_occurrence (scripts : List SmallScript) (content : Str)
    (hall : ∀ r ∈ scripts, idLike (oldNameText r.old_name) = true ∧ idLike r.new_name = true)
    (C : SmallScript) (hC : C ∈ scripts) :
    ¬ HasFJMatch (oldNameText C.old_name) (rewrite_content scripts content) := by
  rw [rewrite_content]
  exact fold_removes C (hall C hC).1 scripts (fun r hr => (hall r hr).2) hC content

/-- Claim C2 witness: the rewritten content of a one-entity job holds no
from/join occurrence of the `a` table name. -/
theorem rewrite_content_no_fj_occurrence_witness :
    ¬ HasFJMatch (oldNameText (some (("a").toList)))
      (rewrite_content [⟨("select 1").toList, some (("a").toList), ("out_a").toList, true⟩]
        (("select *\nfrom a\n").toList)) :=
  rewrite_content_no_fj_occurrence
    [⟨("select 1").toList, some (("a").toList), ("out_a").toList, true⟩]
    (("select *\nfrom a\n").toList)
    (by decide)
    ⟨("select 1").toList, some (("a").toList), ("out_a").toList, true⟩
    (by decide)

/-! ## Engine lemmas for the first split (claim C5) -/

theorem rangeRev_cons (n : Nat) :
    (List.range (n + 1)).reverse = n :: (List.range n).reverse := by
  rw [List.range_succ, List.reverse_append]
  rfl

theorem findSome?_rangeRev {β : Type} (f : Nat → Option β) (b : β) :
    ∀ n m, m ≤ n → (∀ q, m < q → q ≤ n → f q = none) → f m = some b →
      (List.range (n + 1)).reverse.findSome? f = some b := by
  intro n
  induction n with
  | zero =>
    intro m hm hh hf
    have h0 : m = 0 := Nat.le_zero.mp hm
    subst h0
    rw [rangeRev_cons, List.findSome?, hf]
  | succ n ih =>
    intro m hm hh hf
    rw [rangeRev_cons]
    rcases Nat.lt_or_ge m (n + 1) with hlt | hge
    · have h1 : f (n + 1) = none := hh _ hlt (Nat.le_refl _)
      have h2 : List.findSome? f ((n + 1) :: (List.range (n + 1)).reverse) =
          List.findSome? f (List.range (n + 1)).reverse := by
        rw [List.findSome?, h1]
      rw [h2]
      exact ih m (by omega) (fun q hq1 hq2 => hh q hq1 (by omega)) hf
    · have hmn : m = n + 1 := by omega
      subst hmn
      rw [List.findSome?, hf]

theorem split1Go_skip (acc : Str) (k : Nat) (c : Char) (r : Str) :
    split1Go acc (k + 1) (c :: r) = split1Go acc k r := rfl

theorem split1Go_match {c : Char} {r : Str} {n : Nat} {g : Str}
    (h : matchS1At (c :: r) = some (n, g)) (acc : Str) :
    split1Go acc 0 (c :: r) = acc.reverse :: g :: split1Go [] (n - 1) r := by
  rw [split1Go, h]

theorem split1Go_nomatch {c : Char} {r : Str} (h : matchS1At (c :: r) = none) (acc : Str) :
    split1Go acc 0 (c :: r) = split1Go (c :: acc) 0 r := by
  rw [split1Go, h]

theorem split1Go_drop (acc : Str) :
    ∀ (s : Str) (k : Nat), split1Go acc k s = split1Go acc 0 (s.drop k) := by
  intro s
  induction s with
  | nil => intro k; rw [List.drop_nil]; cases k <;> rfl
  | cons c r ih =>
    intro k
    cases k with
    | zero => rw [List.drop_zero]
    | succ k2 => rw [split1Go_skip, ih k2, List.drop_succ_cons]

theorem matchS1At_not_nl {s : Str} (h : s.head? ≠ some '\n') : matchS1At s = none := by
  cases s with
  | nil => rfl
  | cons c r =>
    rw [matchS1At, if_neg]
    intro hc
    exact h (by rw [hc]; rfl)

theorem matchS1At_nl_not_comma {r : Str} (h : r.head? ≠ some ',') :
    matchS1At ('\n' :: r) = none := by
  rw [matchS1At, if_pos rfl]
  have hL : ¬ ((r.takeWhile (· ≠ '\n')).head? = some ',') := by
    cases r with
    | nil => simp
    | cons d r2 =>
      by_cases hd : d = '\n'
      · subst hd
        rw [List.takeWhile_cons, if_neg (by simp)]
        simp
      · rw [List.takeWhile_cons, if_pos (by simp [hd])]
        simpa using h
  rw [s1AtLine, if_neg hL]
  rfl

theorem s1Safe_append {R1 R2 T : Str} (h1 : S1Safe R1 (R2 ++ T)) (h2 : S1Safe R2 T) :
    S1Safe (R1 ++ R2) T := by
  intro i hi
  rw [List.length_append] at hi
  rcases Nat.lt_or_ge i R1.length with hc | hc
  · have h3 := h1 i hc
    rw [List.drop_append_of_le_length (Nat.le_of_lt hc), List.append_assoc]
    exact h3
  · have h3 := h2 (i - R1.length) (by omega)
    rw [show i = R1.length + (i - R1.length) from by omega, List.drop_append]
    exact h3

theorem s1Safe_no_nl {R : Str} (hR : ∀ c ∈ R, c ≠ '\n') (T : Str) : S1Safe R T := by
  intro i hi
  apply matchS1At_not_nl
  cases hd : R.drop i with
  | nil =>
    have hlen := List.length_drop i R
    rw [hd] at hlen
    simp only [List.length_nil] at hlen
    omega
  | cons x xs =>
    have hx : x ∈ R := List.drop_subset i R (by rw [hd]; exact List.mem_cons_self x xs)
    rw [List.cons_append, List.head?_cons]
    intro hEq
    exact hR x hx (Option.some.inj hEq)

theorem s1Safe_no_comma {R T : Str} (hR : ∀ c ∈ R, c ≠ ',') (hT : T.head? ≠ some ',') :
    S1Safe R T := by
  intro i hi
  cases hd : R.drop i with
  | nil =>
    have hlen := List.length_drop i R
    rw [hd] at hlen
    simp only [List.length_nil] at hlen
    omega
  | cons x xs =>
    by_cases hx : x = '\n'
    · subst hx
      rw [List.cons_append]
      apply matchS1At_nl_not_comma
      cases xs with
      | nil => simpa using hT
      | cons y ys =>
        have hy : y ∈ R := List.drop_subset i R
          (by rw [hd]; exact List.mem_cons_of_mem _ (List.mem_cons_self y ys))
        rw [List.cons_append, List.head?_cons]
        intro hEq
        exact hR y hy (Option.some.inj hEq)
    · apply matchS1At_not_nl
      rw [List.cons_append, List.head?_cons]
      intro hEq
      exact hx (Option.some.inj hEq)

theorem split1Go_copy : ∀ (R acc T : Str), S1Safe R T →
    split1Go acc 0 (R ++ T) = split1Go (R.reverse ++ acc) 0 T := by
  intro R
  induction R with
  | nil =>
    intro acc T _
    rw [List.nil_append, List.reverse_nil, List.nil_append]
  | cons c R2 ih =>
    intro acc T h
    have h0 : matchS1At (c :: (R2 ++ T)) = none := by
      have h1 := h 0 (by simp)
      simpa using h1
    have hs : S1Safe R2 T := by
      intro i hi
      have h1 := h (i + 1) (by simp only [List.length_cons]; omega)
      simpa [List.drop_succ_cons] using h1
    rw [List.cons_append, split1Go_nomatch h0, ih (c :: acc) T hs, List.reverse_cons,
      List.append_assoc, List.singleton_append]

theorem takeWhile_append_eval {α : Type} {p : α → Bool} {b : α} (hb : p b = false) :
    ∀ (A B : List α), (∀ c ∈ A, p c = true) →
      (A ++ b :: B).takeWhile p = A ∧ (A ++ b :: B).dropWhile p = b :: B := by
  intro A
  induction A with
  | nil =>
    intro B _
    constructor
    · rw [List.nil_append, List.takeWhile_cons, if_neg (by simp [hb])]
    · rw [List.nil_append, List.dropWhile_cons, if_neg (by simp [hb])]
  | cons a A2 ih =>
    intro B hA
    have ha : p a = true := hA a (List.mem_cons_self a A2)
    have h2 := ih B (fun c hc => hA c (List.mem_cons_of_mem a hc))
    constructor
    · rw [List.cons_append, List.takeWhile_cons, if_pos (by simp [ha]), h2.1]
    · rw [List.cons_append, List.dropWhile_cons, if_pos (by simp [ha]), h2.2]

theorem line_split_eval (A B : Str) (hA : ∀ c ∈ A, c ≠ '\n') :
    (A ++ '\n' :: B).takeWhile (· ≠ '\n') = A ∧
      (A ++ '\n' :: B).dropWhile (· ≠ '\n') = '\n' :: B :=
  takeWhile_append_eval (by simp) A B (fun c hc => by simpa using hA c hc)

theorem s1AtLine_eval (Lp X : Str) :
    s1AtLine ((',' :: Lp) ++ (" as").toList) ('\n' :: '(' :: X) =
      some (Lp.length + 5, (',' :: Lp) ++ (" as").toList) := by
  have hlen : ((',' :: Lp) ++ (" as").toList).length = Lp.length + 4 := by
    simp
  rw [s1AtLine, if_pos (by simp)]
  refine findSome?_rangeRev _ _ ((',' :: Lp) ++ (" as").toList).length (Lp.length + 1)
    (by omega) ?_ ?_
  · intro q hq1 hq2
    rw [if_neg]
    rintro ⟨-, hpre⟩
    rw [show q = (',' :: Lp).length + (q - (Lp.length + 1)) from by
        rw [List.length_cons]; omega,
      List.drop_append] at hpre
    have hk1 : 1 ≤ q - (Lp.length + 1) := by omega
    have hk2 : q - (Lp.length + 1) ≤ 3 := by omega
    set k := q - (Lp.length + 1) with hk
    interval_cases k
    · exact absurd hpre (by decide)
    · exact absurd hpre (by decide)
    · exact absurd hpre (by decide)
  · rw [if_pos ⟨by omega, by
      rw [show Lp.length + 1 = (',' :: Lp).length from (List.length_cons ',' Lp).symm,
        List.drop_left]
      decide⟩]
    refine findSome?_rangeRev _ _ ((',' :: Lp) ++ (" as").toList).length
      ((',' :: Lp) ++ (" as").toList).length (Nat.le_refl _) (fun q h1 h2 => by omega) ?_
    have hc : ((((',' :: Lp) ++ (" as").toList).drop ((',' :: Lp) ++ (" as").toList).length ++
        ('\n' :: '(' :: X)).take 2) = ['\n', '('] := by
      rw [List.drop_length, List.nil_append]
      rfl
    rw [if_pos (by omega), s1TryJ, if_pos hc, List.take_length]
    simp only [Option.some.injEq, Prod.mk.injEq, and_true]
    omega

theorem matchS1At_eval (Lp X : Str) (hLp : ∀ c ∈ Lp, c ≠ '\n') :
    matchS1At ('\n' :: (((',' :: Lp) ++ (" as").toList) ++ '\n' :: '(' :: X)) =
      some (Lp.length + 6, (',' :: Lp) ++ (" as").toList) := by
  rw [matchS1At, if_pos rfl]
  have hAll : ∀ c ∈ (',' :: Lp) ++ (" as").toList, c ≠ '\n' := by
    intro c hc
    rcases List.mem_append.mp hc with hc1 | hc2
    · rcases List.mem_cons.mp hc1 with rfl | hc3
      · decide
      · exact hLp c hc3
    · rw [show (" as").toList = [' ', 'a', 's'] from rfl] at hc2
      have h3 : c = ' ' ∨ c = 'a' ∨ c = 's' := by simpa using hc2
      rcases h3 with rfl | rfl | rfl <;> decide
  obtain ⟨ht, hd⟩ := line_split_eval ((',' :: Lp) ++ (" as").toList) ('(' :: X) hAll
  rw [ht, hd, s1AtLine_eval, Option.map_some']

theorem splitWith1Aux_eval : ∀ (cfg acc rest : Str), (∀ c ∈ cfg, c ≠ '\n') →
    splitWith1Aux acc (cfg ++ (("\nwith ").toList ++ rest)) =
      some (acc.reverse ++ cfg, rest) := by
  intro cfg
  induction cfg with
  | nil =>
    intro acc rest _
    rw [List.nil_append,
      show ("\nwith ").toList ++ rest = '\n' :: (("with ").toList ++ rest) from rfl]
    have hp : (("\nwith ").toList.isPrefixOf ('\n' :: (("with ").toList ++ rest))) = true := by
      rw [List.isPrefixOf_iff_prefix]
      exact ⟨rest, rfl⟩
    rw [splitWith1Aux, if_pos hp]
    show some (acc.reverse, rest) = some (acc.reverse ++ [], rest)
    rw [List.append_nil]
  | cons a cfg2 ih =>
    intro acc rest hcfg
    have hn : ¬ (("\nwith ").toList.isPrefixOf
        (a :: (cfg2 ++ (("\nwith ").toList ++ rest))) = true) := by
      intro h
      rw [List.isPrefixOf_iff_prefix] at h
      obtain ⟨t, ht⟩ := h
      rw [show ("\nwith ").toList ++ t = '\n' :: (("with ").toList ++ t) from rfl] at ht
      injection ht with h1 _
      exact hcfg a (List.mem_cons_self a cfg2) h1.symm
    rw [List.cons_append, splitWith1Aux, if_neg hn,
      ih (a :: acc) rest (fun c hc => hcfg c (List.mem_cons_of_mem a hc)),
      List.reverse_cons, List.append_assoc, List.singleton_append]

/-! ## Engine lemmas for the third split (claim C5) -/

theorem matchS3At_not_paren {rp s : Str} (h : rp.head? ≠ some ')') : matchS3At rp s = none := by
  rw [matchS3At, if_neg h]

theorem split3Go_nomatch {rp : Str} {c : Char} {r : Str}
    (h : matchS3At rp (c :: r) = none) :
    split3Go rp (c :: r) = split3Go (c :: rp) r := by
  rw [split3Go, h]

theorem split3Go_match {rp : Str} {c : Char} {r : Str} {n : Nat} {g : Str}
    (h : matchS3At rp (c :: r) = some (n, g)) :
    split3Go rp (c :: r) =
      some (rp.reverse, g, seg3After (((c :: r).take n).reverse ++ rp) ((c :: r).drop n)) := by
  rw [split3Go, h]

theorem seg3After_nomatch {rp : Str} {c : Char} {r : Str}
    (h : matchS3At rp (c :: r) = none) :
    seg3After rp (c :: r) = c :: seg3After (c :: rp) r := by
  rw [seg3After, h]

theorem seg3After_pass : ∀ (s rp : Str), rp.head? ≠ some ')' → (∀ c ∈ s, c ≠ ')') →
    seg3After rp s = s := by
  intro s
  induction s with
  | nil => intro rp _ _; rfl
  | cons c r ih =>
    intro rp hrp hs
    have h1 : (c :: rp).head? ≠ some ')' := by
      rw [List.head?_cons]
      intro hEq
      exact hs c (List.mem_cons_self c r) (Option.some.inj hEq)
    rw [seg3After_nomatch (matchS3At_not_paren hrp),
      ih (c :: rp) h1 (fun d hd => hs d (List.mem_cons_of_mem c hd))]

theorem split3Go_pass : ∀ (G rp T : Str), rp.head? ≠ some ')' → (∀ c ∈ G, c ≠ ')') →
    split3Go rp (G ++ T) = split3Go (G.reverse ++ rp) T := by
  intro G
  induction G with
  | nil => intro rp T _ _; rw [List.nil_append, List.reverse_nil, List.nil_append]
  | cons c G2 ih =>
    intro rp T hrp hG
    have h1 : (c :: rp).head? ≠ some ')' := by
      rw [List.head?_cons]
      intro hEq
      exact hG c (List.mem_cons_self c G2) (Option.some.inj hEq)
    rw [List.cons_append, split3Go_nomatch (matchS3At_not_paren hrp),
      ih (c :: rp) T h1 (fun d hd => hG d (List.mem_cons_of_mem c hd)),
      List.reverse_cons, List.append_assoc, List.singleton_append]

theorem s3Chain_nil {s : Str} (h : s3Block s = none) : ∀ m, s3Chain m s = [] := by
  intro m
  cases m with
  | zero => rfl
  | succ m2 => rw [s3Chain, h]

theorem s3Block_nl (r : Str) : s3Block ('\n' :: r) = some 1 := by
  rw [s3Block, if_pos (show ('\n' :: r).take 1 = ['\n'] from rfl)]

theorem s3Block_sel (fin : Str) : s3Block (("select ").toList ++ fin) = none := by
  have he : ("select ").toList ++ fin = 's' :: (("elect ").toList ++ fin) := rfl
  rw [s3Block, he, if_neg (by simp)]
  have hw : ('s' :: (("elect ").toList ++ fin)).takeWhile (· = ' ') = [] := by
    rw [List.takeWhile_cons, if_neg (by simp)]
  rw [hw, List.length_nil, List.drop_zero, if_neg (by simp [List.isPrefixOf])]

theorem s3Chain_sel (fin : Str) (m : Nat) :
    s3Chain (m + 1) ('\n' :: (("select ").toList ++ fin)) = [1] := by
  rw [s3Chain, s3Block_nl]
  show 1 :: (s3Chain m (("select ").toList ++ fin)).map (1 + ·) = [1]
  rw [s3Chain_nil (s3Block_sel fin) m]
  rfl

theorem matchS3At_sel (rp fin : Str) (hrp : rp.head? = some ')') :
    matchS3At rp ('\n' :: (("select ").toList ++ fin)) =
      some (7, '\n' :: ("select").toList) := by
  rw [matchS3At, if_pos hrp]
  rw [show ('\n' :: (("select ").toList ++ fin)).length =
    (("select ").toList ++ fin).length + 1 from List.length_cons _ _]
  rw [s3Chain_sel, show ([1] : List Nat).reverse = [1] from rfl, List.findSome?]
  have hlow : List.map Char.toLower (("select ").toList) = ("select ").toList := by decide
  have hp : (("select").toList.isPrefixOf
      (pyLower (('\n' :: (("select ").toList ++ fin)).drop 1))) = true := by
    rw [show ('\n' :: (("select ").toList ++ fin)).drop 1 = ("select ").toList ++ fin from rfl,
      pyLower, List.map_append, hlow, List.isPrefixOf_iff_prefix]
    exact ⟨' ' :: List.map Char.toLower fin, rfl⟩
  rw [if_pos hp]
  rfl

theorem split3Parts_eval (G fin : Str) (hG : ∀ c ∈ G, c ≠ ')') (hfin : ∀ c ∈ fin, c ≠ ')') :
    split3Parts ((G ++ [')']) ++ ('\n' :: (("select ").toList ++ fin))) =
      some (G ++ [')'], '\n' :: ("select").toList, ' ' :: fin) := by
  rw [split3Parts]
  have h1 : split3Go [] ((G ++ [')']) ++ ('\n' :: (("select ").toList ++ fin))) =
      split3Go (G.reverse ++ []) ([')'] ++ ('\n' :: (("select ").toList ++ fin))) := by
    rw [List.append_assoc]
    exact split3Go_pass G [] _ (by simp) hG
  have h2 : matchS3At (G.reverse ++ [])
      (')' :: ('\n' :: (("select ").toList ++ fin))) = none := by
    apply matchS3At_not_paren
    rw [List.append_nil]
    cases hgr : G.reverse with
    | nil => simp
    | cons x xs =>
      rw [List.head?_cons]
      intro hEq
      have hx : x ∈ G := by
        rw [← List.mem_reverse, hgr]
        exact List.mem_cons_self x xs
      exact hG x hx (Option.some.inj hEq)
  have h3 := matchS3At_sel (')' :: (G.reverse ++ [])) fin rfl
  rw [h1, List.singleton_append, split3Go_nomatch h2, split3Go_match h3]
  have h4 : (')' :: (G.reverse ++ [])).reverse = G ++ [')'] := by
    rw [List.append_nil, List.reverse_cons, List.reverse_reverse]
  have h5 : (('\n' :: (("select ").toList ++ fin)).take 7).reverse ++
      (')' :: (G.reverse ++ [])) =
      ('t' :: 'c' :: 'e' :: 'l' :: 'e' :: 's' :: '\n' :: []) ++ (')' :: (G.reverse ++ [])) := by
    rw [show ('\n' :: (("select ").toList ++ fin)).take 7 =
      '\n' :: ("select").toList from rfl]
    rfl
  have h6 : ('\n' :: (("select ").toList ++ fin)).drop 7 = ' ' :: fin := rfl
  rw [h4, h5, h6]
  have h7 : seg3After
      (('t' :: 'c' :: 'e' :: 'l' :: 'e' :: 's' :: '\n' :: []) ++ (')' :: (G.reverse ++ [])))
      (' ' :: fin) = ' ' :: fin := by
    apply seg3After_pass
    · rw [List.cons_append, List.head?_cons]
      intro hEq
      exact absurd (Option.some.inj hEq) (by decide)
    · intro d hd
      rcases List.mem_cons.mp hd with rfl | hd2
      · decide
      · exact hfin d hd2
  rw [h7]

/-! ## Assembling the segmentation of a contract-shaped source (claim C5) -/

theorem id_ne {c d : Char} (hc : isIdChar c = true) (hd : isIdChar d = false) : c ≠ d := by
  intro h
  subst h
  rw [hc] at hd
  exact absurd hd (by decide)

theorem split1Go_nil (acc : Str) (k : Nat) : split1Go acc k [] = [acc.reverse] := by
  cases k <;> rfl

theorem midsTail_head (mids : List (Str × Str)) (fin : Str) :
    (mids.flatMap renderMiddle ++ (("\nselect ").toList ++ fin)).head? = some '\n' := by
  cases mids with
  | nil => rfl
  | cons p rest => rfl

theorem split1Go_slices : ∀ (mids : List (Str × Str)) (fin acc : Str),
    (∀ p ∈ mids, (∀ c ∈ p.1, isIdChar c = true) ∧ (∀ c ∈ p.2, c ≠ ',')) →
    (∀ c ∈ fin, c ≠ ',') →
    split1Go acc 0 (mids.flatMap renderMiddle ++ (("\nselect ").toList ++ fin)) =
      s1Slices acc.reverse mids fin := by
  intro mids
  induction mids with
  | nil =>
    intro fin acc _ hf
    rw [List.flatMap_nil, List.nil_append]
    have hsafe : S1Safe (("\nselect ").toList ++ fin) [] := by
      apply s1Safe_no_comma
      · intro c hc
        rcases List.mem_append.mp hc with h1 | h2
        · exact (by decide : ∀ x ∈ ("\nselect ").toList, x ≠ ',') c h1
        · exact hf c h2
      · simp
    rw [show ("\nselect ").toList ++ fin = (("\nselect ").toList ++ fin) ++ [] from
        (List.append_nil _).symm,
      split1Go_copy _ acc [] hsafe, split1Go_nil, List.reverse_append, List.reverse_reverse]
    rfl
  | cons p rest ih =>
    intro fin acc hm hf
    have hp1 : ∀ c ∈ p.1, isIdChar c = true := (hm p (List.mem_cons_self p rest)).1
    have hp2 : ∀ c ∈ p.2, c ≠ ',' := (hm p (List.mem_cons_self p rest)).2
    have hLp : ∀ c ∈ ' ' :: p.1, c ≠ '\n' := by
      intro c hc
      rcases List.mem_cons.mp hc with rfl | hc2
      · decide
      · exact id_ne (hp1 c hc2) (by decide)
    set X : Str := '\n' :: (p.2 ++ (("\n)").toList ++
      (rest.flatMap renderMiddle ++ (("\nselect ").toList ++ fin)))) with hX
    have hEq : (p :: rest).flatMap renderMiddle ++ (("\nselect ").toList ++ fin) =
        '\n' :: (((',' :: (' ' :: p.1)) ++ (" as").toList) ++ '\n' :: '(' :: X) := by
      rw [hX, List.flatMap_cons, renderMiddle]
      simp only [show ("\n, ").toList = '\n' :: ',' :: ' ' :: [] from rfl,
        show (" as\n(\n").toList = ' ' :: 'a' :: 's' :: '\n' :: '(' :: '\n' :: [] from rfl,
        show (" as").toList = ' ' :: 'a' :: 's' :: [] from rfl,
        show ("\n)").toList = '\n' :: ')' :: [] from rfl,
        List.cons_append, List.nil_append, List.append_assoc]
    rw [hEq, split1Go_match (matchS1At_eval (' ' :: p.1) X hLp) acc, split1Go_drop]
    have hA : ((',' :: (' ' :: p.1)) ++ (" as").toList).length = p.1.length + 5 := by
      rw [List.length_append, List.length_cons, List.length_cons,
        show (" as").toList.length = 3 from rfl]
    have hdrop : ((((',' :: (' ' :: p.1)) ++ (" as").toList) ++ '\n' :: '(' :: X).drop
        ((' ' :: p.1).length + 6 - 1)) = '(' :: X := by
      rw [show (' ' :: p.1).length + 6 - 1 =
          ((',' :: (' ' :: p.1)) ++ (" as").toList).length + 1 from by
        rw [hA, List.length_cons]; omega]
      rw [List.drop_append]
      rfl
    rw [hdrop]
    have hsafe2 : S1Safe (('(' :: '\n' :: p.2) ++ ("\n)").toList)
        (rest.flatMap renderMiddle ++ (("\nselect ").toList ++ fin)) := by
      apply s1Safe_no_comma
      · intro c hc
        rcases List.mem_append.mp hc with h1 | h2
        · rcases List.mem_cons.mp h1 with rfl | h3
          · decide
          · rcases List.mem_cons.mp h3 with rfl | h4
            · decide
            · exact hp2 c h4
        · exact (by decide : ∀ x ∈ ("\n)").toList, x ≠ ',') c h2
      · rw [midsTail_head]
        intro hEq2
        exact absurd (Option.some.inj hEq2) (by decide)
    have hsplit : '(' :: X = (('(' :: '\n' :: p.2) ++ ("\n)").toList) ++
        (rest.flatMap renderMiddle ++ (("\nselect ").toList ++ fin)) := by
      rw [hX]
      simp only [show ("\n)").toList = '\n' :: ')' :: [] from rfl,
        List.cons_append, List.nil_append, List.append_assoc]
    rw [hsplit, split1Go_copy _ [] _ hsafe2, List.append_nil,
      ih fin _ (fun q hq => hm q (List.mem_cons_of_mem p hq)) hf, List.reverse_reverse]
    simp only [s1Slices, show (", ").toList = ',' :: ' ' :: [] from rfl,
      List.cons_append, List.nil_append, List.append_assoc]

theorem split1_render (cfg n0 b0 : Str) (mids : List (Str × Str)) (fin : Str)
    (hcfg : ∀ c ∈ cfg, c ≠ '\n')
    (hn0 : ∀ c ∈ n0, isIdChar c = true)
    (hb0 : ∀ c ∈ b0, c ≠ ',')
    (hm : ∀ p ∈ mids, (∀ c ∈ p.1, isIdChar c = true) ∧ (∀ c ∈ p.2, c ≠ ','))
    (hf : ∀ c ∈ fin, c ≠ ',') :
    split1 (renderSource cfg n0 b0 mids fin) =
      s1Slices (cfg ++ (("\nwith ").toList ++ (n0 ++ ((" as\n(\n").toList ++
        (b0 ++ ("\n)").toList))))) mids fin := by
  have hr : renderSource cfg n0 b0 mids fin =
      (cfg ++ (("\nwith ").toList ++ (n0 ++ ((" as\n(\n").toList ++
        (b0 ++ ("\n)").toList))))) ++
        (mids.flatMap renderMiddle ++ (("\nselect ").toList ++ fin)) := by
    rw [renderSource]
    simp only [List.append_assoc]
  have hsafe : S1Safe (cfg ++ (("\nwith ").toList ++ (n0 ++ ((" as\n(\n").toList ++
      (b0 ++ ("\n)").toList)))))
      (mids.flatMap renderMiddle ++ (("\nselect ").toList ++ fin)) := by
    apply s1Safe_append
    · exact s1Safe_no_nl hcfg _
    · apply s1Safe_no_comma
      · intro c hc
        rcases List.mem_append.mp hc with h1 | h2
        · exact (by decide : ∀ x ∈ ("\nwith ").toList, x ≠ ',') c h1
        · rcases List.mem_append.mp h2 with h3 | h4
          · exact id_ne (hn0 c h3) (by decide)
          · rcases List.mem_append.mp h4 with h5 | h6
            · exact (by decide : ∀ x ∈ (" as\n(\n").toList, x ≠ ',') c h5
            · rcases List.mem_append.mp h6 with h7 | h8
              · exact hb0 c h7
              · exact (by decide : ∀ x ∈ ("\n)").toList, x ≠ ',') c h8
      · rw [midsTail_head]
        intro hEq2
        exact absurd (Option.some.inj hEq2) (by decide)
  rw [split1, hr, split1Go_copy _ [] _ hsafe, List.append_nil,
    split1Go_slices mids fin _ hm hf, List.reverse_reverse]

theorem pairJoin_slices (fin : Str) : ∀ (rest : List (Str × Str)) (p : Str × Str),
    pairJoin (((", ").toList ++ (p.1 ++ (" as").toList)) ::
      s1Slices (('(' :: '\n' :: p.2) ++ ("\n)").toList) rest fin) =
      tailJoin fin (p :: rest) := by
  intro rest
  induction rest with
  | nil =>
    intro p
    rw [s1Slices]
    simp only [pairJoin, tailJoin, midBlock,
      show (", ").toList = ',' :: ' ' :: [] from rfl,
      show (" as").toList = ' ' :: 'a' :: 's' :: [] from rfl,
      show (" as\n(\n").toList = ' ' :: 'a' :: 's' :: '\n' :: '(' :: '\n' :: [] from rfl,
      show ("\n)").toList = '\n' :: ')' :: [] from rfl,
      List.cons_append, List.nil_append, List.append_assoc]
  | cons q rest2 ih =>
    intro p
    rw [s1Slices, pairJoin, ih q, tailJoin]
    simp only [midBlock,
      show (", ").toList = ',' :: ' ' :: [] from rfl,
      show (" as").toList = ' ' :: 'a' :: 's' :: [] from rfl,
      show (" as\n(\n").toList = ' ' :: 'a' :: 's' :: '\n' :: '(' :: '\n' :: [] from rfl,
      show ("\n)").toList = '\n' :: ')' :: [] from rfl,
      List.cons_append, List.nil_append, List.append_assoc]

theorem tailJoin_decomp (fin : Str) : ∀ (rest : List (Str × Str)) (p : Str × Str),
    ∃ K LB, tailJoin fin (p :: rest) = K ++ [LB ++ (("\nselect ").toList ++ fin)] ∧
      K ++ [LB] = (p :: rest).map midBlock := by
  intro rest
  induction rest with
  | nil =>
    intro p
    refine ⟨[], midBlock p, ?_, ?_⟩
    · rw [tailJoin, List.nil_append]
    · rw [List.nil_append, List.map_cons, List.map_nil]
  | cons q rest2 ih =>
    intro p
    obtain ⟨K, LB, h1, h2⟩ := ih q
    refine ⟨midBlock p :: K, LB, ?_, ?_⟩
    · rw [tailJoin, h1, List.cons_append]
    · rw [List.cons_append, h2, ← List.map_cons]

theorem split3Parts_block (LB fin G : Str) (hLB : LB = G ++ [')'])
    (hG : ∀ c ∈ G, c ≠ ')') (hfin : ∀ c ∈ fin, c ≠ ')') :
    split3Parts (LB ++ (("\nselect ").toList ++ fin)) =
      some (LB, '\n' :: ("select").toList, ' ' :: fin) := by
  subst hLB
  rw [show ("\nselect ").toList ++ fin = '\n' :: (("select ").toList ++ fin) from rfl]
  exact split3Parts_eval G fin hG hfin

theorem firstBlock_decomp (n0 b0 : Str) :
    n0 ++ ((" as\n(\n").toList ++ (b0 ++ ("\n)").toList)) =
      (n0 ++ ((" as\n(\n").toList ++ (b0 ++ ['\n']))) ++ [')'] := by
  simp only [show ("\n)").toList = '\n' :: ')' :: [] from rfl,
    List.cons_append, List.nil_append, List.append_assoc]

theorem firstBlock_G (n0 b0 : Str) (hn0 : ∀ c ∈ n0, isIdChar c = true)
    (hb0 : ∀ c ∈ b0, c ≠ ')') :
    ∀ c ∈ n0 ++ ((" as\n(\n").toList ++ (b0 ++ ['\n'])), c ≠ ')' := by
  intro c hc
  rcases List.mem_append.mp hc with h1 | h2
  · exact id_ne (hn0 c h1) (by decide)
  · rcases List.mem_append.mp h2 with h3 | h4
    · exact (by decide : ∀ x ∈ (" as\n(\n").toList, x ≠ ')') c h3
    · rcases List.mem_append.mp h4 with h5 | h6
      · exact hb0 c h5
      · rcases List.mem_singleton.mp h6 with rfl
        decide

theorem midBlock_decomp (q : Str × Str) :
    midBlock q =
      ((", ").toList ++ (q.1 ++ ((" as\n(\n").toList ++ (q.2 ++ ['\n'])))) ++ [')'] := by
  rw [midBlock]
  simp only [show ("\n)").toList = '\n' :: ')' :: [] from rfl,
    List.cons_append, List.nil_append, List.append_assoc]

theorem midBlock_G (q : Str × Str) (hq1 : ∀ c ∈ q.1, isIdChar c = true)
    (hq2 : ∀ c ∈ q.2, c ≠ ')') :
    ∀ c ∈ (", ").toList ++ (q.1 ++ ((" as\n(\n").toList ++ (q.2 ++ ['\n']))), c ≠ ')' := by
  intro c hc
  rcases List.mem_append.mp hc with h0 | h1
  · exact (by decide : ∀ x ∈ (", ").toList, x ≠ ')') c h0
  · rcases List.mem_append.mp h1 with h2 | h3
    · exact id_ne (hq1 c h2) (by decide)
    · rcases List.mem_append.mp h3 with h4 | h5
      · exact (by decide : ∀ x ∈ (" as\n(\n").toList, x ≠ ')') c h4
      · rcases List.mem_append.mp h5 with h6 | h7
        · exact hq2 c h6
        · rcases List.mem_singleton.mp h7 with rfl
          decide

theorem get_scripts_eval (cfg n0 b0 : Str) (mids : List (Str × Str)) (fin : Str)
    (hcfg : ∀ c ∈ cfg, c ≠ '\n')
    (hn0 : ∀ c ∈ n0, isIdChar c = true)
    (hb0 : ∀ c ∈ b0, c ≠ ',' ∧ c ≠ ')')
    (hm : ∀ p ∈ mids, (∀ c ∈ p.1, isIdChar c = true) ∧ (∀ c ∈ p.2, c ≠ ',' ∧ c ≠ ')'))
    (hf : ∀ c ∈ fin, c ≠ ',' ∧ c ≠ ')') :
    get_individual_scripts (renderSource cfg n0 b0 mids fin) =
      some (expectedBlocks n0 b0 mids fin, cfg) := by
  have hsp := split1_render cfg n0 b0 mids fin hcfg hn0 (fun c hc => (hb0 c hc).1)
    (fun q hq => ⟨(hm q hq).1, fun c hc => ((hm q hq).2 c hc).1⟩)
    (fun c hc => (hf c hc).1)
  have hfin2 : ∀ c ∈ fin, c ≠ ')' := fun c hc => (hf c hc).2
  rw [get_individual_scripts, hsp]
  cases mids with
  | nil =>
    rw [s1Slices]
    simp only [List.head?_cons, List.tail_cons, Option.bind_eq_bind, Option.some_bind]
    have hW : (cfg ++ (("\nwith ").toList ++ (n0 ++ ((" as\n(\n").toList ++
        (b0 ++ ("\n)").toList))))) ++ (("\nselect ").toList ++ fin) =
        cfg ++ (("\nwith ").toList ++ ((n0 ++ ((" as\n(\n").toList ++
        (b0 ++ ("\n)").toList))) ++ (("\nselect ").toList ++ fin))) := by
      simp only [List.append_assoc]
    rw [hW, splitWith1, splitWith1Aux_eval cfg [] _ hcfg, List.reverse_nil, List.nil_append]
    simp only [Option.some_bind, pairJoin, List.getLast?_singleton, List.dropLast_single]
    have h3 := split3Parts_block (n0 ++ ((" as\n(\n").toList ++ (b0 ++ ("\n)").toList))) fin
      (n0 ++ ((" as\n(\n").toList ++ (b0 ++ ['\n']))) (firstBlock_decomp n0 b0)
      (firstBlock_G n0 b0 hn0 (fun c hc => (hb0 c hc).2)) hfin2
    rw [h3]
    simp only [Option.some_bind, expectedBlocks, cteBlocks, List.map_nil, List.nil_append]
    rfl
  | cons p rest =>
    rw [s1Slices]
    simp only [List.head?_cons, List.tail_cons, Option.bind_eq_bind, Option.some_bind]
    rw [splitWith1, splitWith1Aux_eval cfg [] _ hcfg, List.reverse_nil, List.nil_append]
    simp only [Option.some_bind]
    rw [pairJoin_slices fin rest p]
    obtain ⟨K, LB, h1, h2⟩ := tailJoin_decomp fin rest p
    rw [h1, ← List.cons_append, List.getLast?_concat]
    simp only [Option.some_bind]
    have hmem : LB ∈ (p :: rest).map midBlock := by
      rw [← h2]
      exact List.mem_append_right K (List.mem_singleton.mpr rfl)
    obtain ⟨q, hq, hLBq⟩ := List.mem_map.mp hmem
    have h3 := split3Parts_block LB fin
      ((", ").toList ++ (q.1 ++ ((" as\n(\n").toList ++ (q.2 ++ ['\n']))))
      (hLBq.symm.trans (midBlock_decomp q))
      (midBlock_G q (hm q hq).1 (fun c hc => ((hm q hq).2 c hc).2)) hfin2
    rw [h3]
    simp only [Option.some_bind, List.dropLast_concat]
    rw [show ('\n' :: ("select").toList) ++ ' ' :: fin =
      ("\nselect ").toList ++ fin from rfl]
    simp only [expectedBlocks, cteBlocks]
    rw [← h2]
    simp only [Option.some.injEq, Prod.mk.injEq, List.cons_append, List.append_assoc,
      List.singleton_append, List.nil_append, and_true]

/-! ## String utilities for the block classification (claim C5) -/

theorem dropWhile_append_ne {α : Type} {p : α → Bool} :
    ∀ (X Y : List α), X.dropWhile p ≠ [] → (X ++ Y).dropWhile p = X.dropWhile p ++ Y := by
  intro X
  induction X with
  | nil =>
    intro Y h
    exact absurd rfl h
  | cons x xs ih =>
    intro Y h
    rw [List.cons_append, List.dropWhile_cons]
    by_cases hx : p x = true
    · rw [if_pos hx]
      rw [List.dropWhile_cons, if_pos hx] at h ⊢
      exact ih Y h
    · rw [if_neg hx]
      rw [List.dropWhile_cons, if_neg hx]
      rfl

theorem dropWhile_append_singleton {α : Type} {p : α → Bool} {c : α} (hc : p c = false) :
    ∀ X : List α, (X ++ [c]).dropWhile p = X.dropWhile p ++ [c] := by
  intro X
  induction X with
  | nil => simp [List.dropWhile_cons, hc]
  | cons x xs ih =>
    rw [List.cons_append, List.dropWhile_cons, List.dropWhile_cons]
    by_cases hx : p x = true
    · rw [if_pos hx, if_pos hx, ih]
    · rw [if_neg hx, if_neg hx]
      rfl

theorem pyRstrip_append {A B : Str} (h : pyRstrip B ≠ []) :
    pyRstrip (A ++ B) = A ++ pyRstrip B := by
  have hin : B.reverse.dropWhile isPyWS ≠ [] := by
    intro h0
    rw [pyRstrip, h0] at h
    exact h rfl
  rw [pyRstrip, List.reverse_append, dropWhile_append_ne _ _ hin, List.reverse_append,
    List.reverse_reverse]
  rfl

theorem pyRstrip_last_not_ws {d : Char} (l : Str) (hd : isPyWS d = false) :
    pyRstrip (l ++ [d]) = l ++ [d] := by
  rw [pyRstrip, List.reverse_append, List.reverse_singleton, List.singleton_append,
    List.dropWhile_cons, if_neg (by simp [hd]), ← List.singleton_append,
    List.reverse_append, List.reverse_reverse]
  rfl

theorem pyRstrip_cons_not_ws {c : Char} (l : Str) (hc : isPyWS c = false) :
    pyRstrip (c :: l) = c :: pyRstrip l := by
  rw [pyRstrip, show (c :: l).reverse = l.reverse ++ [c] from List.reverse_cons c l,
    dropWhile_append_singleton hc, List.reverse_append, List.reverse_singleton,
    List.singleton_append]
  rfl

theorem pyLstrip_cons_not_ws {c : Char} (l : Str) (hc : isPyWS c = false) :
    pyLstrip (c :: l) = c :: l := by
  rw [pyLstrip, List.dropWhile_cons, if_neg (by simp [hc])]

theorem pyStrip_cons_eval {c : Char} (l : Str) (hc : isPyWS c = false) :
    pyStrip (c :: l) = c :: pyRstrip l := by
  rw [pyStrip, pyRstrip_cons_not_ws l hc, pyLstrip_cons_not_ws _ hc]

theorem pyStrip_sandwich {c d : Char} (m : Str) (hc : isPyWS c = false)
    (hd : isPyWS d = false) : pyStrip (c :: (m ++ [d])) = c :: (m ++ [d]) := by
  rw [pyStrip, show c :: (m ++ [d]) = (c :: m) ++ [d] from rfl, pyRstrip_last_not_ws _ hd,
    show (c :: m) ++ [d] = c :: (m ++ [d]) from rfl, pyLstrip_cons_not_ws _ hc]

theorem blank_cons_false {c : Char} {l : Str} (hc : isPyWS c = false) (hcm : c ≠ '-')
    (hcs : c ≠ '/') : lineBlankOrComment (c :: l) = false := by
  simp only [lineBlankOrComment, pyStrip_cons_eval l hc]
  simp only [List.isEmpty_cons, Bool.false_or, Bool.or_eq_false_iff,
    decide_eq_false_iff_not]
  constructor
  · intro h
    rw [show (2 : Nat) = 1 + 1 from rfl, List.take_succ_cons] at h
    injection h with h1 _
    exact hcm h1
  · intro h
    rw [show (2 : Nat) = 1 + 1 from rfl, List.take_succ_cons] at h
    injection h with h1 _
    exact hcs h1

theorem id_not_break {c : Char} (h : isIdChar c = true) : isLineBreak c = false := by
  by_contra hb
  rw [Bool.not_eq_false, isLineBreak] at hb
  simp only [Bool.or_eq_true, decide_eq_true_eq] at hb
  rcases hb with ((((((((h1 | h1) | h1) | h1) | h1) | h1) | h1) | h1) | h1) | h1 <;>
    (subst h1; exact absurd h (by decide))

theorem nlSplit_no_nl : ∀ (s : Str), ∀ l ∈ nlSplit s, '\n' ∉ l := by
  intro s
  induction s with
  | nil =>
    intro l hl
    rcases List.mem_singleton.mp hl with rfl
    simp
  | cons c cs ih =>
    intro l hl
    rw [nlSplit] at hl
    by_cases hc : c = '\n'
    · rw [if_pos hc] at hl
      rcases List.mem_cons.mp hl with rfl | hl2
      · simp
      · exact ih l hl2
    · rw [if_neg hc] at hl
      cases hsp : nlSplit cs with
      | nil => exact absurd hsp (nlSplit_ne_nil cs)
      | cons l0 ls =>
        rw [hsp] at hl
        rcases List.mem_cons.mp hl with rfl | hl2
        · intro hmem
          rcases List.mem_cons.mp hmem with hEq | hmem2
          · exact hc hEq.symm
          · exact ih l0 (by rw [hsp]; exact List.mem_cons_self l0 ls) hmem2
        · exact ih l (by rw [hsp]; exact List.mem_cons_of_mem l0 hl2)

theorem mem_of_mem_intercalate {c : Char} (sep : Str) : ∀ {ls : List Str} {l : Str},
    l ∈ ls → c ∈ l → c ∈ List.intercalate sep ls := by
  intro ls
  induction ls with
  | nil =>
    intro l hl
    simp at hl
  | cons a rest ih =>
    intro l hl hc
    cases rest with
    | nil =>
      rcases List.mem_singleton.mp hl with rfl
      simpa [List.intercalate, List.intersperse] using hc
    | cons b rest2 =>
      rw [intercalate_cons₂]
      rcases List.mem_cons.mp hl with rfl | hl2
      · exact List.mem_append_left _ (List.mem_append_left _ hc)
      · exact List.mem_append_right _ (ih hl2 hc)

theorem mem_nlSplit_mem {c : Char} {s l : Str} (hl : l ∈ nlSplit s) (hc : c ∈ l) : c ∈ s := by
  have h := mem_of_mem_intercalate ['\n'] hl hc
  rwa [intercalate_nlSplit] at h

theorem nlSplit_prepend {s l : Str} {ls : List Str} (hs : nlSplit s = l :: ls) :
    ∀ A : Str, (∀ c ∈ A, c ≠ '\n') → nlSplit (A ++ s) = (A ++ l) :: ls := by
  intro A
  induction A with
  | nil =>
    intro _
    simpa using hs
  | cons a A2 ih =>
    intro hA
    rw [List.cons_append, nlSplit, if_neg (hA a (List.mem_cons_self a A2)),
      ih (fun c hc => hA c (List.mem_cons_of_mem a hc))]
    rfl

theorem nlSplit_intercalate {ls : List Str} (hne : ls ≠ [])
    (hnl : ∀ l ∈ ls, '\n' ∉ l) : nlSplit (List.intercalate ['\n'] ls) = ls := by
  rw [nlSplit_eq_splitOn]
  exact List.splitOn_intercalate ls '\n' hnl hne

theorem intercalate_concat (sep z : Str) : ∀ (ls : List Str), ls ≠ [] →
    List.intercalate sep (ls ++ [z]) = List.intercalate sep ls ++ sep ++ z := by
  intro ls
  induction ls with
  | nil => intro h; exact absurd rfl h
  | cons a rest ih =>
    intro _
    cases rest with
    | nil =>
      rw [show ([a] ++ [z] : List Str) = a :: z :: [] from rfl, intercalate_cons₂]
      simp [List.intercalate, List.intersperse]
    | cons b rest2 =>
      rw [show (a :: b :: rest2) ++ [z] = a :: b :: (rest2 ++ [z]) from rfl,
        intercalate_cons₂, intercalate_cons₂,
        show b :: (rest2 ++ [z]) = (b :: rest2) ++ [z] from rfl, ih (by simp)]
      simp only [List.append_assoc]

theorem st_skip : ∀ (B : List Str) (k0 : Str) (K : List Str),
    (∀ l ∈ B, lineBlankOrComment l = true) → lineBlankOrComment k0 = false →
    startTrimL (B ++ k0 :: K) = some (k0 :: K) := by
  intro B
  induction B with
  | nil =>
    intro k0 K _ hk0
    cases K with
    | nil => rw [List.nil_append, startTrimL, if_neg (by simp [hk0])]
    | cons k1 K2 =>
      rw [List.nil_append, startTrimL, if_neg (by simp [hk0])]
      simp
  | cons b B2 ih =>
    intro k0 K hB hk0
    have hb : lineBlankOrComment b = true := hB b (List.mem_cons_self b B2)
    have hne : B2 ++ k0 :: K ≠ [] := by simp
    obtain ⟨x, xs, hx⟩ := List.exists_cons_of_ne_nil hne
    rw [List.cons_append, hx, show startTrimL (b :: x :: xs) = startTrimL (x :: xs) from by
      simp [startTrimL, hb], ← hx, ih k0 K (fun l hl => hB l (List.mem_cons_of_mem b hl)) hk0]

theorem etRev_skip : ∀ (B2 : List Str) (t : Str) (R : List Str),
    (∀ l ∈ B2, lineBlankOrComment l = true) → R ≠ [] →
    endTrimRevL (B2 ++ t :: R) = endTrimRevL (t :: R) := by
  intro B2
  induction B2 with
  | nil => intro t R _ _; rw [List.nil_append]
  | cons b B3 ih =>
    intro t R hB hR
    have hb : lineBlankOrComment b = true := hB b (List.mem_cons_self b B3)
    have h1 : B3 ++ t :: R ≠ [] := by simp
    obtain ⟨x, xs, hx⟩ := List.exists_cons_of_ne_nil h1
    rw [List.cons_append, hx, show endTrimRevL (b :: x :: xs) = endTrimRevL (x :: xs) from by
      simp [endTrimRevL, hb], ← hx, ih t R (fun l hl => hB l (List.mem_cons_of_mem b hl)) hR]

theorem endTrimRevL_stop (t : Str) (R : List Str) (ht : lineBlankOrComment t = false)
    (hR : R ≠ []) : endTrimRevL (t :: R) = some (t :: R) := by
  obtain ⟨x, xs, hx⟩ := List.exists_cons_of_ne_nil hR
  rw [hx, show endTrimRevL (t :: x :: xs) = some (t :: x :: xs) from by
    simp [endTrimRevL, ht]]

theorem et_skip (k0 t : Str) (K Bl : List Str)
    (hBl : ∀ l ∈ Bl, lineBlankOrComment l = true)
    (hlast : K.getLast? = some t) (ht : lineBlankOrComment t = false) :
    endTrimL ((k0 :: K) ++ Bl) = some (k0 :: K) := by
  have hKr : K.reverse.head? = some t := by rw [List.head?_reverse, hlast]
  obtain ⟨M, hM⟩ : ∃ M, K.reverse = t :: M := by
    cases hr : K.reverse with
    | nil => rw [hr] at hKr; simp at hKr
    | cons y ys =>
      rw [hr, List.head?_cons] at hKr
      exact ⟨ys, by rw [Option.some.inj hKr]⟩
  have hrev : (k0 :: K).reverse = t :: (M ++ [k0]) := by
    rw [List.reverse_cons, hM]
    rfl
  rw [endTrimL, List.reverse_append, hrev,
    etRev_skip Bl.reverse t (M ++ [k0]) (fun l hl => hBl l (List.mem_reverse.mp hl))
      (by simp),
    endTrimRevL_stop t (M ++ [k0]) ht (by simp), Option.map_some', ← hrev,
    List.reverse_reverse]

theorem et_noop (k0 t : Str) (K : List Str) (hlast : K.getLast? = some t)
    (ht : lineBlankOrComment t = false) : endTrimL (k0 :: K) = some (k0 :: K) := by
  have h := et_skip k0 t K [] (by simp) hlast ht
  rwa [List.append_nil] at h

theorem parenUnwrap_noop {s : Str} (h : (pyStrip s).head? ≠ some '(') :
    parenUnwrap s = some s := by
  rw [parenUnwrap, if_neg]
  rintro ⟨h1, -⟩
  exact h h1

theorem splitFirstNL_eval : ∀ (x : Str), (∀ c ∈ x, c ≠ '\n') → ∀ y,
    splitFirstNL (x ++ '\n' :: y) = (x, some y) := by
  intro x
  induction x with
  | nil =>
    intro _ y
    rw [List.nil_append, splitFirstNL, if_pos rfl]
  | cons a x2 ih =>
    intro hx y
    rw [List.cons_append, splitFirstNL, if_neg (hx a (List.mem_cons_self a x2)),
      ih (fun c hc => hx c (List.mem_cons_of_mem a hc)) y]

theorem dropWhile_comma_eval {c : Char} (l : Str) (hc : ¬(c = ',')) :
    (c :: l).dropWhile (· = ',') = c :: l := by
  rw [List.dropWhile_cons, if_neg (by simp [hc])]

theorem stripComma_sandwich {c d : Char} (m : Str) (hc : ¬(c = ',')) (hd : ¬(d = ',')) :
    stripComma (c :: (m ++ [d])) = c :: (m ++ [d]) := by
  have hrev : (c :: (m ++ [d])).reverse = d :: (m.reverse ++ [c]) := by
    rw [List.reverse_cons, List.reverse_append]
    rfl
  rw [stripComma, dropWhile_comma_eval _ hc, hrev, dropWhile_comma_eval _ hd, ← hrev,
    List.reverse_reverse]

theorem stripComma_mid {d : Char} (A : Str) (hd : ¬(d = ',')) :
    stripComma (',' :: ' ' :: (A ++ [d])) = ' ' :: (A ++ [d]) := by
  have h1 : (',' :: ' ' :: (A ++ [d])).dropWhile (· = ',') = ' ' :: (A ++ [d]) := by
    rw [List.dropWhile_cons, if_pos (by simp), dropWhile_comma_eval _ (by simp)]
  have hrev : (' ' :: (A ++ [d])).reverse = d :: (A.reverse ++ [' ']) := by
    rw [List.reverse_cons, List.reverse_append]
    rfl
  rw [stripComma, h1, hrev, dropWhile_comma_eval _ hd, ← hrev, List.reverse_reverse]

theorem spaceSplit_ne_nil (s : Str) : spaceSplit s ≠ [] := by
  cases s with
  | nil => simp [spaceSplit]
  | cons c cs =>
    rw [spaceSplit]
    by_cases hc : c = ' '
    · simp [hc]
    · simp only [if_neg hc]
      cases h : spaceSplit cs <;> simp

theorem spaceSplit_word : ∀ (W : Str), (∀ c ∈ W, c ≠ ' ') → ∀ rest,
    spaceSplit (W ++ ' ' :: rest) = W :: spaceSplit rest := by
  intro W
  induction W with
  | nil =>
    intro _ rest
    rw [List.nil_append, spaceSplit, if_pos rfl]
  | cons a W2 ih =>
    intro hW rest
    rw [List.cons_append, spaceSplit, if_neg (hW a (List.mem_cons_self a W2)),
      ih (fun c hc => hW c (List.mem_cons_of_mem a hc)) rest]

theorem pyLower_append (A B : Str) : pyLower (A ++ B) = pyLower A ++ pyLower B :=
  List.map_append Char.toLower A B

/-! ## Evaluating `clean_query` on contract-shaped blocks (claim C5) -/

theorem st_noop (k0 : Str) (K : List Str) (hk0 : lineBlankOrComment k0 = false) :
    startTrimL (k0 :: K) = some (k0 :: K) := by
  have h := st_skip [] k0 K (by simp) hk0
  rwa [List.nil_append] at h

theorem clean_query_lines (B : List Str) (k0 t : Str) (K : List Str)
    (hB : ∀ l ∈ B, lineBlankOrComment l = true)
    (hk0 : lineBlankOrComment k0 = false)
    (hlast : K.getLast? = some t)
    (ht : lineBlankOrComment t = false)
    (htne : t ≠ [])
    (hnb : ∀ l ∈ B ++ k0 :: K, ∀ c ∈ l, isLineBreak c = false)
    (hpu : parenUnwrap (List.intercalate ['\n'] (k0 :: K)) =
      some (List.intercalate ['\n'] (k0 :: K))) :
    clean_query (List.intercalate ['\n'] (B ++ k0 :: K)) =
      some (List.intercalate ['\n'] ((k0 :: K).map pyRstrip) ++ ['\n']) := by
  have hnl : ∀ l ∈ B ++ k0 :: K, '\n' ∉ l := by
    intro l hl hm
    exact absurd (hnb l hl '\n' hm) (by decide)
  have hlastK : (k0 :: K).getLast? = some t := by
    cases K with
    | nil => simp at hlast
    | cons y ys =>
      rw [List.getLast?_cons_cons]
      exact hlast
  rw [clean_query, nlSplit_intercalate (by simp) hnl, st_skip B k0 K hB hk0]
  simp only [Option.bind_eq_bind, Option.some_bind]
  rw [et_noop k0 t K hlast ht]
  simp only [Option.some_bind]
  rw [hpu]
  simp only [Option.some_bind]
  rw [pySplitlines_intercalate (fun l hl => hnb l (List.mem_append_right B hl)) hlastK htne]
  rfl

theorem clean_query_paren (mid : List Str) (hne : mid ≠ [])
    (hmid : ∀ l ∈ mid, '\n' ∉ l) :
    ∃ out, clean_query
      (List.intercalate ['\n'] ((['('] : Str) :: (mid ++ [[')']])) ++ ['\n']) = some out := by
  have hI : List.intercalate ['\n'] ((['('] : Str) :: (mid ++ [[')']])) =
      '(' :: (('\n' :: (List.intercalate ['\n'] mid ++ ['\n'])) ++ [')']) := by
    obtain ⟨m0, ms, hm⟩ := List.exists_cons_of_ne_nil hne
    rw [hm, show (m0 :: ms) ++ [([')'] : Str)] = m0 :: (ms ++ [[')']]) from rfl,
      intercalate_cons₂, show m0 :: (ms ++ [([')'] : Str)]) = (m0 :: ms) ++ [[')']] from rfl,
      intercalate_concat _ _ _ (by simp)]
    simp only [List.cons_append, List.nil_append, List.append_assoc]
  have hps : pyStrip (List.intercalate ['\n'] ((['('] : Str) :: (mid ++ [[')']]))) =
      '(' :: (('\n' :: (List.intercalate ['\n'] mid ++ ['\n'])) ++ [')']) := by
    rw [hI]
    exact pyStrip_sandwich _ (by decide) (by decide)
  have hpu : parenUnwrap (List.intercalate ['\n'] ((['('] : Str) :: (mid ++ [[')']]))) =
      some (List.intercalate ['\n'] mid ++ ['\n']) := by
    rw [parenUnwrap, hps]
    rw [if_pos ⟨rfl, by
      rw [show ('(' :: (('\n' :: (List.intercalate ['\n'] mid ++ ['\n'])) ++ [')'])) =
        ('(' :: ('\n' :: (List.intercalate ['\n'] mid ++ ['\n']))) ++ [')'] from rfl,
        List.getLast?_concat]⟩]
    rw [show (('(' :: (('\n' :: (List.intercalate ['\n'] mid ++ ['\n'])) ++ [')'])).drop 1)
      = ('\n' :: (List.intercalate ['\n'] mid ++ ['\n'])) ++ [')'] from rfl,
      List.dropLast_concat]
    rfl
  have hl1 : nlSplit (List.intercalate ['\n'] ((['('] : Str) :: (mid ++ [[')']])) ++ ['\n']) =
      (['('] : Str) :: ((mid ++ [[')']]) ++ [[]]) := by
    rw [nlSplit_append_newline, nlSplit_intercalate (by simp) ?_]
    · rfl
    · intro l hl
      rcases List.mem_cons.mp hl with rfl | hl2
      · decide
      · rcases List.mem_append.mp hl2 with h3 | h4
        · exact hmid l h3
        · rcases List.mem_singleton.mp h4 with rfl
          decide
  rw [clean_query, hl1, st_noop _ _ (by decide)]
  simp only [Option.bind_eq_bind, Option.some_bind]
  rw [show (['('] : Str) :: ((mid ++ [[')']]) ++ [[]]) =
    ((['('] : Str) :: (mid ++ [[')']])) ++ [[]] from rfl,
    et_skip (['('] : Str) ([')'] : Str) (mid ++ [[')']]) [[]]
      (by intro l hl; rcases List.mem_singleton.mp hl with rfl; decide)
      (List.getLast?_concat _) (by decide)]
  simp only [Option.some_bind]
  rw [hpu]
  simp only [Option.some_bind]
  exact ⟨_, rfl⟩

/-! ## From a cleaned block to its classification (claim C5) -/

theorem intercalate_cons_ne {k0 : Str} {K : List Str} (hK : K ≠ []) :
    List.intercalate ['\n'] (k0 :: K) = k0 ++ '\n' :: List.intercalate ['\n'] K := by
  obtain ⟨y, ys, rfl⟩ := List.exists_cons_of_ne_nil hK
  rw [intercalate_cons₂, List.append_assoc]
  rfl

theorem intercalate_single (l : Str) : List.intercalate ['\n'] [l] = l := by
  simp [List.intercalate, List.intersperse]

theorem nlSplit_single {l : Str} (h : '\n' ∉ l) : nlSplit l = [l] := by
  have h2 := @nlSplit_intercalate [l] (by simp) (by simpa using h)
  rwa [intercalate_single] at h2

theorem strip_head_intercalate {c : Char} {k0' : Str} {K : List Str} (hc : isPyWS c = false)
    (hK : K ≠ []) :
    (pyStrip (List.intercalate ['\n'] ((c :: k0') :: K))).head? = some c := by
  rw [intercalate_cons_ne hK, List.cons_append, pyStrip_cons_eval _ hc, List.head?_cons]

theorem getLast?_cons_concat {α : Type} (x : α) (A : List α) (z : α) :
    (x :: (A ++ [z])).getLast? = some z := by
  rw [show x :: (A ++ [z]) = (x :: A) ++ [z] from rfl, List.getLast?_concat]

theorem rstrip_fix_last {l : Str} (h : pyRstrip l = l) (hne : l ≠ []) :
    ∃ l' d, l = l' ++ [d] ∧ isPyWS d = false := by
  obtain ⟨d, l', hrev⟩ : ∃ d l', l.reverse = d :: l' := by
    cases hr : l.reverse with
    | nil => exact absurd (by simpa using hr) hne
    | cons d l2 => exact ⟨d, l2, rfl⟩
  refine ⟨l'.reverse, d, ?_, ?_⟩
  · rw [← List.reverse_reverse l, hrev, List.reverse_cons]
  · by_contra hws
    rw [Bool.not_eq_false] at hws
    have h2 : pyRstrip l = (l'.dropWhile isPyWS).reverse := by
      rw [pyRstrip, hrev, List.dropWhile_cons, if_pos (by simp [hws])]
    rw [h] at h2
    have hlen := congrArg List.length h2
    rw [List.length_reverse] at hlen
    have hd := (List.dropWhile_sublist (p := isPyWS) (l := l')).length_le
    have hll : l.reverse.length = (d :: l').length := congrArg List.length hrev
    rw [List.length_reverse, List.length_cons] at hll
    omega

theorem init_of_first_word (blk L0 R base finN : Str) (w : Str) (ws : List Str)
    (hclean : clean_query blk = some (L0 ++ '\n' :: R))
    (hL0nl : ∀ c ∈ L0, c ≠ '\n')
    (hwords : (spaceSplit (pyLower (stripComma (pyStrip L0)))).filter (· ≠ []) = w :: ws)
    (hw1 : ¬(w = ("\x7b\x7b").toList)) (hw2 : ¬(w = ("select").toList))
    (hinner : ∃ out, clean_query R = some out) :
    ∃ e, SmallScript.init blk base finN = some e ∧ e.is_intermediate = true := by
  obtain ⟨out, hout⟩ := hinner
  rw [SmallScript.init, hclean]
  simp only [Option.bind_eq_bind, Option.some_bind]
  rw [splitFirstNL_eval L0 hL0nl R]
  simp only [Option.getD_some]
  rw [hwords]
  simp only [List.head?_cons, Option.some_bind]
  rw [if_neg (fun hor => hor.elim hw1 hw2), hout]
  simp only [Option.some_bind]
  exact ⟨_, rfl, rfl⟩

theorem init_sel_of_words (blk L0 R base finN : Str) (ws : List Str)
    (hclean : clean_query blk = some (L0 ++ '\n' :: R))
    (hL0nl : ∀ c ∈ L0, c ≠ '\n')
    (hwords : (spaceSplit (pyLower (stripComma (pyStrip L0)))).filter (· ≠ []) =
      ("select").toList :: ws) :
    SmallScript.init blk base finN =
      some ⟨L0 ++ '\n' :: R, some base, finN, false⟩ := by
  rw [SmallScript.init, hclean]
  simp only [Option.bind_eq_bind, Option.some_bind]
  rw [splitFirstNL_eval L0 hL0nl R]
  simp only [Option.getD_some]
  rw [hwords]
  simp only [List.head?_cons, Option.some_bind]
  rw [if_pos (Or.inr trivial)]
  rfl

/-! ## Classifying the three block shapes (claim C5) -/

theorem clean_query_lines2 (s : Str) (B : List Str) (k0 t : Str) (K : List Str)
    (hls : nlSplit s = B ++ k0 :: K)
    (hB : ∀ l ∈ B, lineBlankOrComment l = true)
    (hk0 : lineBlankOrComment k0 = false)
    (hlast : K.getLast? = some t)
    (ht : lineBlankOrComment t = false)
    (htne : t ≠ [])
    (hnb : ∀ l ∈ B ++ k0 :: K, ∀ c ∈ l, isLineBreak c = false)
    (hpu : parenUnwrap (List.intercalate ['\n'] (k0 :: K)) =
      some (List.intercalate ['\n'] (k0 :: K))) :
    clean_query s = some (List.intercalate ['\n'] ((k0 :: K).map pyRstrip) ++ ['\n']) := by
  rw [← intercalate_nlSplit s, hls]
  exact clean_query_lines B k0 t K hB hk0 hlast ht htne hnb hpu

theorem clean_cte_block (L0 b : Str)
    (hL0nl : ∀ c ∈ L0, c ≠ '\n')
    (hL0nb : ∀ c ∈ L0, isLineBreak c = false)
    (hL0blank : lineBlankOrComment L0 = false)
    (hhead : ∃ c L0', L0 = c :: L0' ∧ isPyWS c = false ∧ c ≠ '(')
    (hL0r : pyRstrip L0 = L0)
    (hgb : ∀ c ∈ b, c = '\n' ∨ isLineBreak c = false) :
    clean_query (L0 ++ '\n' :: ((['('] : Str) ++ '\n' :: (b ++ '\n' :: [')']))) =
      some (L0 ++ '\n' :: (List.intercalate ['\n']
        ((['('] : Str) :: ((nlSplit b).map pyRstrip ++ [([')'] : Str)])) ++ ['\n'])) := by
  have hbnl : ∀ l ∈ nlSplit b, ∀ c ∈ l, isLineBreak c = false := by
    intro l hl c hc
    rcases hgb c (mem_nlSplit_mem hl hc) with rfl | hnb
    · exact absurd hc (nlSplit_no_nl b l hl)
    · exact hnb
  have hlines : nlSplit (L0 ++ '\n' :: ((['('] : Str) ++ '\n' :: (b ++ '\n' :: [')']))) =
      [] ++ L0 :: ((['('] : Str) :: (nlSplit b ++ [([')'] : Str)])) := by
    rw [nlSplit_append_newline, nlSplit_append_newline, nlSplit_append_newline,
      nlSplit_single (fun hm => hL0nl '\n' hm rfl),
      show nlSplit (['('] : Str) = [['(']] from by decide,
      show nlSplit ([')'] : Str) = [[')']] from by decide]
    rfl
  have hnb2 : ∀ l ∈ [] ++ L0 :: ((['('] : Str) :: (nlSplit b ++ [([')'] : Str)])),
      ∀ c ∈ l, isLineBreak c = false := by
    intro l hl
    rw [List.nil_append] at hl
    rcases List.mem_cons.mp hl with rfl | h1
    · exact hL0nb
    rcases List.mem_cons.mp h1 with rfl | h2
    · intro c hc
      rcases List.mem_singleton.mp hc with rfl
      decide
    rcases List.mem_append.mp h2 with h3 | h4
    · exact hbnl l h3
    · rcases List.mem_singleton.mp h4 with rfl
      intro c hc
      rcases List.mem_singleton.mp hc with rfl
      decide
  have hpu : parenUnwrap (List.intercalate ['\n']
      (L0 :: ((['('] : Str) :: (nlSplit b ++ [([')'] : Str)])))) =
      some (List.intercalate ['\n']
        (L0 :: ((['('] : Str) :: (nlSplit b ++ [([')'] : Str)])))) := by
    obtain ⟨c, L0', hL0eq, hcws, hcpar⟩ := hhead
    apply parenUnwrap_noop
    rw [hL0eq, strip_head_intercalate hcws (by simp)]
    intro hEq
    exact hcpar (Option.some.inj hEq)
  have hcl := clean_query_lines2 _ [] L0 ([')'] : Str)
    ((['('] : Str) :: (nlSplit b ++ [([')'] : Str)])) hlines (by simp) hL0blank
    (getLast?_cons_concat _ _ _) (by decide) (by decide) hnb2 hpu
  rw [hcl]
  have hmap : ((L0 :: ((['('] : Str) :: (nlSplit b ++ [([')'] : Str)]))).map pyRstrip) =
      L0 :: ((['('] : Str) :: ((nlSplit b).map pyRstrip ++ [([')'] : Str)])) := by
    simp only [List.map_cons, List.map_append, hL0r,
      show pyRstrip (['('] : Str) = ['('] from by decide,
      show List.map pyRstrip [([')'] : Str)] = [[')']] from by decide]
  rw [hmap, intercalate_cons_ne (by simp)]
  simp only [List.append_assoc, List.cons_append]

theorem inner_clean_cte (b : Str) :
    ∃ out, clean_query (List.intercalate ['\n']
      ((['('] : Str) :: ((nlSplit b).map pyRstrip ++ [([')'] : Str)])) ++ ['\n']) =
        some out := by
  apply clean_query_paren
  · intro h
    exact nlSplit_ne_nil b (by simpa using h)
  · intro l hl hm
    obtain ⟨l2, hl2, rfl⟩ := List.mem_map.mp hl
    exact nlSplit_no_nl b l2 hl2 (mem_pyRstrip_imp hm)

theorem mid_line_words (n : Str) (hnne : n ≠ [])
    (hnsp : ' ' ∉ pyLower n) :
    (spaceSplit (pyLower (stripComma (pyStrip
      (',' :: ' ' :: ((n ++ [' ', 'a']) ++ ['s'])))))).filter (· ≠ []) =
      pyLower n :: [(['a', 's'] : Str)] := by
  have hstrip : pyStrip (',' :: ' ' :: ((n ++ [' ', 'a']) ++ ['s'])) =
      ',' :: ' ' :: ((n ++ [' ', 'a']) ++ ['s']) :=
    pyStrip_sandwich (' ' :: (n ++ [' ', 'a'])) (by decide) (by decide)
  have hcomma : stripComma (',' :: ' ' :: ((n ++ [' ', 'a']) ++ ['s'])) =
      ' ' :: ((n ++ [' ', 'a']) ++ ['s']) :=
    stripComma_mid (n ++ [' ', 'a']) (by decide)
  have hlow : pyLower (' ' :: ((n ++ [' ', 'a']) ++ ['s'])) =
      ' ' :: ((pyLower n ++ [' ', 'a']) ++ ['s']) := by
    simp only [pyLower, List.map_cons, List.map_append, List.map_nil,
      show Char.toLower ' ' = ' ' from by decide,
      show Char.toLower 'a' = 'a' from by decide,
      show Char.toLower 's' = 's' from by decide]
  have hpne : pyLower n ≠ [] := by
    simp only [pyLower]
    simpa using hnne
  rw [hstrip, hcomma, hlow,
    show ' ' :: ((pyLower n ++ [' ', 'a']) ++ ['s']) =
      ' ' :: (pyLower n ++ (' ' :: (['a', 's'] : Str))) from by simp,
    spaceSplit, if_pos rfl,
    spaceSplit_word (pyLower n) (fun c hc hEq => hnsp (hEq ▸ hc)),
    show spaceSplit (['a', 's'] : Str) = [['a', 's']] from by decide]
  rw [List.filter_cons, if_neg (by simp), List.filter_cons, if_pos (by simpa using hpne),
    List.filter_cons, if_pos (by decide), List.filter_nil]

theorem first_line_words (n : Str) (hnall : ∀ c ∈ n, isIdChar c = true) (hnne : n ≠ [])
    (hnsp : ' ' ∉ pyLower n) :
    (spaceSplit (pyLower (stripComma (pyStrip ((n ++ [' ', 'a']) ++ ['s']))))).filter
      (· ≠ []) = pyLower n :: [(['a', 's'] : Str)] := by
  obtain ⟨c, n', rfl⟩ := List.exists_cons_of_ne_nil hnne
  have hc : isIdChar c = true := hnall c (List.mem_cons_self c n')
  have hstrip : pyStrip (((c :: n') ++ [' ', 'a']) ++ ['s']) =
      ((c :: n') ++ [' ', 'a']) ++ ['s'] :=
    pyStrip_sandwich (n' ++ [' ', 'a']) (id_not_ws hc) (by decide)
  have hcomma : stripComma (((c :: n') ++ [' ', 'a']) ++ ['s']) =
      ((c :: n') ++ [' ', 'a']) ++ ['s'] :=
    stripComma_sandwich (n' ++ [' ', 'a']) (fun h => absurd hc (by rw [h]; decide))
      (by decide)
  have hlow : pyLower (((c :: n') ++ [' ', 'a']) ++ ['s']) =
      (pyLower (c :: n') ++ [' ', 'a']) ++ ['s'] := by
    simp only [pyLower, List.map_cons, List.map_append, List.map_nil,
      show Char.toLower ' ' = ' ' from by decide,
      show Char.toLower 'a' = 'a' from by decide,
      show Char.toLower 's' = 's' from by decide]
  have hpne : pyLower (c :: n') ≠ [] := by
    simp [pyLower]
  rw [hstrip, hcomma, hlow,
    show (pyLower (c :: n') ++ [' ', 'a']) ++ ['s'] =
      pyLower (c :: n') ++ (' ' :: (['a', 's'] : Str)) from by simp,
    spaceSplit_word (pyLower (c :: n')) (fun x hx hEq => hnsp (hEq ▸ hx)),
    show spaceSplit (['a', 's'] : Str) = [['a', 's']] from by decide]
  rw [List.filter_cons, if_pos (by simpa using hpne), List.filter_cons, if_pos (by decide),
    List.filter_nil]

theorem init_mid_block (n b base finN : Str)
    (hnid : idLike n = true) (hnsp : ' ' ∉ pyLower n)
    (hm1 : ¬(pyLower n = ("\x7b\x7b").toList)) (hm2 : ¬(pyLower n = ("select").toList))
    (hgb : ∀ c ∈ b, c = '\n' ∨ isLineBreak c = false) :
    ∃ e, SmallScript.init (midBlock (n, b)) base finN = some e ∧
      e.is_intermediate = true := by
  have hnne : n ≠ [] := by
    intro h
    rw [h] at hnid
    simp [idLike] at hnid
  have hnall : ∀ c ∈ n, isIdChar c = true := by
    rw [idLike, Bool.and_eq_true] at hnid
    exact fun c hc => List.all_eq_true.mp hnid.2 c hc
  have hL0nl : ∀ c ∈ ',' :: ' ' :: ((n ++ [' ', 'a']) ++ ['s']), c ≠ '\n' := by
    intro c hc
    rcases List.mem_cons.mp hc with rfl | hc1
    · decide
    rcases List.mem_cons.mp hc1 with rfl | hc2
    · decide
    rcases List.mem_append.mp hc2 with hc3 | hc4
    · rcases List.mem_append.mp hc3 with hc5 | hc6
      · exact id_ne (hnall c hc5) (by decide)
      · exact (by decide : ∀ x ∈ ([' ', 'a'] : Str), x ≠ '\n') c hc6
    · rcases List.mem_singleton.mp hc4 with rfl
      decide
  have hL0nb : ∀ c ∈ ',' :: ' ' :: ((n ++ [' ', 'a']) ++ ['s']), isLineBreak c = false := by
    intro c hc
    rcases List.mem_cons.mp hc with rfl | hc1
    · decide
    rcases List.mem_cons.mp hc1 with rfl | hc2
    · decide
    rcases List.mem_append.mp hc2 with hc3 | hc4
    · rcases List.mem_append.mp hc3 with hc5 | hc6
      · exact id_not_break (hnall c hc5)
      · exact (by decide : ∀ x ∈ ([' ', 'a'] : Str), isLineBreak x = false) c hc6
    · rcases List.mem_singleton.mp hc4 with rfl
      decide
  have hmb : midBlock (n, b) =
      (',' :: ' ' :: ((n ++ [' ', 'a']) ++ ['s'])) ++
        '\n' :: ((['('] : Str) ++ '\n' :: (b ++ '\n' :: [')'])) := by
    rw [midBlock]
    simp only [show (", ").toList = ',' :: ' ' :: [] from rfl,
      show (" as\n(\n").toList = ' ' :: 'a' :: 's' :: '\n' :: '(' :: '\n' :: [] from rfl,
      show ("\n)").toList = '\n' :: ')' :: [] from rfl,
      List.cons_append, List.nil_append, List.append_assoc]
  have hclean := clean_cte_block (',' :: ' ' :: ((n ++ [' ', 'a']) ++ ['s'])) b hL0nl hL0nb
    (blank_cons_false (by decide) (by decide) (by decide))
    ⟨',', ' ' :: ((n ++ [' ', 'a']) ++ ['s']), rfl, by decide, by decide⟩
    (pyRstrip_last_not_ws (',' :: ' ' :: (n ++ [' ', 'a'])) (by decide))
    hgb
  refine init_of_first_word (midBlock (n, b)) _ _ base finN (pyLower n)
    [(['a', 's'] : Str)] ?_ hL0nl (mid_line_words n hnne hnsp) hm1 hm2
    (inner_clean_cte b)
  rw [hmb]
  exact hclean

theorem init_first_block (n b base finN : Str)
    (hnid : idLike n = true) (hnsp : ' ' ∉ pyLower n)
    (hm1 : ¬(pyLower n = ("\x7b\x7b").toList)) (hm2 : ¬(pyLower n = ("select").toList))
    (hgb : ∀ c ∈ b, c = '\n' ∨ isLineBreak c = false) :
    ∃ e, SmallScript.init (n ++ ((" as\n(\n").toList ++ (b ++ ("\n)").toList))) base finN =
      some e ∧ e.is_intermediate = true := by
  have hnne : n ≠ [] := by
    intro h
    rw [h] at hnid
    simp [idLike] at hnid
  have hnall : ∀ c ∈ n, isIdChar c = true := by
    rw [idLike, Bool.and_eq_true] at hnid
    exact fun c hc => List.all_eq_true.mp hnid.2 c hc
  have hL0nl : ∀ c ∈ (n ++ [' ', 'a']) ++ ['s'], c ≠ '\n' := by
    intro c hc
    rcases List.mem_append.mp hc with hc3 | hc4
    · rcases List.mem_append.mp hc3 with hc5 | hc6
      · exact id_ne (hnall c hc5) (by decide)
      · exact (by decide : ∀ x ∈ ([' ', 'a'] : Str), x ≠ '\n') c hc6
    · rcases List.mem_singleton.mp hc4 with rfl
      decide
  have hL0nb : ∀ c ∈ (n ++ [' ', 'a']) ++ ['s'], isLineBreak c = false := by
    intro c hc
    rcases List.mem_append.mp hc with hc3 | hc4
    · rcases List.mem_append.mp hc3 with hc5 | hc6
      · exact id_not_break (hnall c hc5)
      · exact (by decide : ∀ x ∈ ([' ', 'a'] : Str), isLineBreak x = false) c hc6
    · rcases List.mem_singleton.mp hc4 with rfl
      decide
  obtain ⟨c0, n', hn0⟩ := List.exists_cons_of_ne_nil hnne
  have hc0 : isIdChar c0 = true := by
    rw [hn0] at hnall
    exact hnall c0 (List.mem_cons_self c0 n')
  have hblank : lineBlankOrComment ((n ++ [' ', 'a']) ++ ['s']) = false := by
    rw [hn0]
    exact blank_cons_false (id_not_ws hc0) (id_ne hc0 (by decide)) (id_ne hc0 (by decide))
  have hfb : n ++ ((" as\n(\n").toList ++ (b ++ ("\n)").toList)) =
      ((n ++ [' ', 'a']) ++ ['s']) ++
        '\n' :: ((['('] : Str) ++ '\n' :: (b ++ '\n' :: [')'])) := by
    simp only [show (" as\n(\n").toList = ' ' :: 'a' :: 's' :: '\n' :: '(' :: '\n' :: []
        from rfl,
      show ("\n)").toList = '\n' :: ')' :: [] from rfl,
      List.cons_append, List.nil_append, List.append_assoc]
  have hclean := clean_cte_block ((n ++ [' ', 'a']) ++ ['s']) b hL0nl hL0nb hblank
    ⟨c0, (n' ++ [' ', 'a']) ++ ['s'], by rw [hn0]; rfl, id_not_ws hc0,
      id_ne hc0 (by decide)⟩
    (pyRstrip_last_not_ws (n ++ [' ', 'a']) (by decide))
    hgb
  refine init_of_first_word _ _ _ base finN (pyLower n) [(['a', 's'] : Str)] ?_ hL0nl
    (first_line_words n hnall hnne hnsp) hm1 hm2 (inner_clean_cte b)
  rw [hfb]
  exact hclean

theorem init_sel_block (fin base finN : Str)
    (hfin : SelShape fin)
    (hgb : ∀ c ∈ fin, c = '\n' ∨ isLineBreak c = false)
    (hfc : ∀ c ∈ fin, c ≠ ',') :
    ∃ e, SmallScript.init (("\nselect ").toList ++ fin) base finN = some e ∧
      e.is_intermediate = false := by
  obtain ⟨fl0, rest1, flast, hs, hfl0ne, hfl0r, hflb, hflne⟩ := hfin
  have hfl0mem : fl0 ∈ nlSplit fin := by
    rw [hs]
    exact List.mem_cons_self _ _
  have hnobreak : ∀ l ∈ nlSplit fin, ∀ c ∈ l, isLineBreak c = false := by
    intro l hl c hc
    rcases hgb c (mem_nlSplit_mem hl hc) with rfl | hnb
    · exact absurd hc (nlSplit_no_nl fin l hl)
    · exact hnb
  have hlines : nlSplit (("\nselect ").toList ++ fin) =
      [([] : Str)] ++ ((("select ").toList ++ fl0) :: (rest1 ++ [flast])) := by
    rw [show ("\nselect ").toList ++ fin = [] ++ '\n' :: (("select ").toList ++ fin)
        from rfl,
      nlSplit_append_newline,
      nlSplit_prepend hs (("select ").toList)
        (by decide : ∀ x ∈ ("select ").toList, x ≠ '\n')]
    rfl
  have hk0nl : ∀ c ∈ ("select ").toList ++ fl0, c ≠ '\n' := by
    intro c hc
    rcases List.mem_append.mp hc with h1 | h2
    · exact (by decide : ∀ x ∈ ("select ").toList, x ≠ '\n') c h1
    · intro hEq
      subst hEq
      exact absurd h2 (nlSplit_no_nl fin fl0 hfl0mem)
  have hk0blank : lineBlankOrComment (("select ").toList ++ fl0) = false := by
    rw [show ("select ").toList ++ fl0 = 's' :: (("elect ").toList ++ fl0) from rfl]
    exact blank_cons_false (by decide) (by decide) (by decide)
  have hcl := clean_query_lines2 (("\nselect ").toList ++ fin) [([] : Str)]
    (("select ").toList ++ fl0) flast (rest1 ++ [flast]) hlines
    (by intro l hl; rcases List.mem_singleton.mp hl with rfl; decide)
    hk0blank (List.getLast?_concat _) hflb hflne ?_ ?_
  · have hrs : pyRstrip (("select ").toList ++ fl0) = ("select ").toList ++ fl0 := by
      rw [pyRstrip_append (by rw [hfl0r]; exact hfl0ne), hfl0r]
    have hre : List.intercalate ['\n']
        ((((("select ").toList ++ fl0) :: (rest1 ++ [flast])).map pyRstrip)) ++ ['\n'] =
        (("select ").toList ++ fl0) ++ '\n' ::
          (List.intercalate ['\n'] ((rest1 ++ [flast]).map pyRstrip) ++ ['\n']) := by
      rw [List.map_cons, hrs, intercalate_cons_ne (by simp)]
      simp only [List.append_assoc, List.cons_append]
    rw [hre] at hcl
    obtain ⟨fl0h, d, hfd, hdws⟩ := rstrip_fix_last hfl0r hfl0ne
    have hdfin : d ∈ fin := by
      apply mem_nlSplit_mem hfl0mem
      rw [hfd]
      exact List.mem_append_right _ (List.mem_singleton.mpr rfl)
    have hshape : ("select ").toList ++ (fl0h ++ [d]) =
        ('s' :: ((("elect ").toList ++ fl0h))) ++ [d] := by
      rw [← List.append_assoc]
      rfl
    have hstrip : pyStrip (("select ").toList ++ fl0) = ("select ").toList ++ fl0 := by
      rw [hfd, hshape]
      exact pyStrip_sandwich (("elect ").toList ++ fl0h) (by decide) hdws
    have hcomma : stripComma (("select ").toList ++ fl0) = ("select ").toList ++ fl0 := by
      rw [hfd, hshape]
      exact stripComma_sandwich (("elect ").toList ++ fl0h) (by decide)
        (hfc d hdfin)
    have hlow : pyLower (("select ").toList ++ fl0) =
        ("select").toList ++ (' ' :: pyLower fl0) := by
      rw [pyLower_append, show pyLower (("select ").toList) = ("select ").toList
        from by decide]
      rfl
    have hwords : (spaceSplit (pyLower (stripComma (pyStrip
        (("select ").toList ++ fl0))))).filter (· ≠ []) =
        ("select").toList :: ((spaceSplit (pyLower fl0)).filter (· ≠ [])) := by
      rw [hstrip, hcomma, hlow,
        spaceSplit_word (("select").toList) (by decide)]
      rw [List.filter_cons, if_pos (by decide)]
    exact ⟨_, init_sel_of_words _ _ _ base finN _ hcl hk0nl hwords, rfl⟩
  · intro l hl c hc
    rcases List.mem_append.mp hl with h0 | h1
    · rcases List.mem_singleton.mp h0 with rfl
      simp at hc
    rcases List.mem_cons.mp h1 with rfl | h2
    · rcases List.mem_append.mp hc with h3 | h4
      · exact (by decide : ∀ x ∈ ("select ").toList, isLineBreak x = false) c h3
      · exact hnobreak fl0 hfl0mem c h4
    · apply hnobreak l ?_ c hc
      rw [hs]
      exact List.mem_cons_of_mem _ h2
  · apply parenUnwrap_noop
    rw [show ("select ").toList ++ fl0 = 's' :: (("elect ").toList ++ fl0) from rfl,
      strip_head_intercalate (by decide) (by simp)]
    intro hEq
    exact absurd (Option.some.inj hEq) (by decide)

/-! ## Claim C5: segmentation and classification counts -/

theorem map_init_entities (base finN : Str) :
    ∀ (bl : List Str), (∀ x ∈ bl, ∃ e, SmallScript.init x base finN = some e ∧
        e.is_intermediate = true) →
      ∃ es : List SmallScript,
        (bl.map (fun x => SmallScript.init x base finN)) = es.map some ∧
        es.length = bl.length ∧ ∀ e ∈ es, e.is_intermediate = true := by
  intro bl
  induction bl with
  | nil =>
    intro _
    exact ⟨[], rfl, rfl, by simp⟩
  | cons x bl2 ih =>
    intro h
    obtain ⟨e, he, hei⟩ := h x (List.mem_cons_self x bl2)
    obtain ⟨es, h1, h2, h3⟩ := ih (fun y hy => h y (List.mem_cons_of_mem x hy))
    refine ⟨e :: es, ?_, ?_, ?_⟩
    · rw [List.map_cons, he, List.map_cons, h1]
    · rw [List.length_cons, List.length_cons, h2]
    · intro f hf
      rcases List.mem_cons.mp hf with rfl | hf2
      · exact hei
      · exact h3 f hf2

/-- Claim C5: for every source text of the input contract's shape — a
newline-free configuration header, the `with` keyword, a first CTE, `M`
further CTEs each introduced by `, name as (`, and a final multi-line
`select` query, with well-formed names and bodies — the segmentation
`get_individual_scripts_and_dbt_config` returns exactly `N + 1` raw blocks,
where `N = M + 1` is the number of intermediate CTEs, and classifying every
block with `SmallScript.__init__` succeeds and yields exactly one entity with
`is_intermediate = false` (the final `select` block) and `N` entities with
`is_intermediate = true`. -/
theorem segmentation_and_classification_counts
    (cfg n0 b0 : Str) (mids : List (Str × Str)) (fin : Str) (base finN : Str)
    (hcfg : ∀ c ∈ cfg, c ≠ '\n')
    (hn0 : GoodName n0) (hb0 : GoodBody b0)
    (hmids : ∀ p ∈ mids, GoodName p.1 ∧ GoodBody p.2)
    (hfin : GoodBody fin) (hsel : SelShape fin) :
    ∃ blocks : List Str,
      get_individual_scripts (renderSource cfg n0 b0 mids fin) = some (blocks, cfg) ∧
      blocks.length = (mids.length + 1) + 1 ∧
      ∃ entities : List SmallScript,
        blocks.map (fun x => SmallScript.init x base finN) = entities.map some ∧
        (entities.filter (fun e => e.is_intermediate)).length = mids.length + 1 ∧
        (entities.filter (fun e => !e.is_intermediate)).length = 1 := by
  have hid : ∀ (m : Str), idLike m = true → ∀ c ∈ m, isIdChar c = true := by
    intro m hm c hc
    rw [idLike, Bool.and_eq_true] at hm
    exact List.all_eq_true.mp hm.2 c hc
  obtain ⟨hn0id, hn0sp, hn0m1, hn0m2⟩ := hn0
  have hseg := get_scripts_eval cfg n0 b0 mids fin hcfg (hid n0 hn0id)
    (fun c hc => ⟨(hb0 c hc).2.1, (hb0 c hc).2.2⟩)
    (fun p hp => ⟨hid p.1 (hmids p hp).1.1,
      fun c hc => ⟨((hmids p hp).2 c hc).2.1, ((hmids p hp).2 c hc).2.2⟩⟩)
    (fun c hc => ⟨(hfin c hc).2.1, (hfin c hc).2.2⟩)
  refine ⟨expectedBlocks n0 b0 mids fin, hseg, ?_, ?_⟩
  · simp only [expectedBlocks, cteBlocks, List.length_append, List.length_cons,
      List.length_map, List.length_nil, List.length_singleton]
  · have hallcte : ∀ x ∈ cteBlocks n0 b0 mids,
        ∃ e, SmallScript.init x base finN = some e ∧ e.is_intermediate = true := by
      intro x hx
      rw [cteBlocks] at hx
      rcases List.mem_cons.mp hx with rfl | hx2
      · exact init_first_block n0 b0 base finN hn0id hn0sp hn0m1 hn0m2
          (fun c hc => (hb0 c hc).1)
      · obtain ⟨q, hq, rfl⟩ := List.mem_map.mp hx2
        obtain ⟨⟨hq1, hq2, hq3, hq4⟩, hqb⟩ := hmids q hq
        exact init_mid_block q.1 q.2 base finN hq1 hq2 hq3 hq4
          (fun c hc => (hqb c hc).1)
    obtain ⟨esMid, hm1, hm2, hm3⟩ :=
      map_init_entities base finN (cteBlocks n0 b0 mids) hallcte
    obtain ⟨efin, hef, hefi⟩ := init_sel_block fin base finN hsel
      (fun c hc => (hfin c hc).1) (fun c hc => (hfin c hc).2.1)
    refine ⟨esMid ++ [efin], ?_, ?_, ?_⟩
    · rw [expectedBlocks, List.map_append, hm1, List.map_append]
      simp only [List.map_cons, List.map_nil, hef]
    · rw [List.filter_append, List.filter_eq_self.mpr hm3, List.length_append]
      have hlen : esMid.length = mids.length + 1 := by
        rw [hm2, cteBlocks, List.length_cons, List.length_map]
      have hfe : (([efin] : List SmallScript).filter
          (fun e => e.is_intermediate)).length = 0 := by
        rw [List.filter_cons, if_neg (by simp [hefi]), List.filter_nil]
        rfl
      rw [hfe, hlen]
    · rw [List.filter_append,
        List.filter_eq_nil_iff.mpr (fun e he => by simp [hm3 e he]),
        List.nil_append, List.filter_cons, if_pos (by simp [hefi]), List.filter_nil]
      rfl

/-- Claim C5, witness: a concrete two-CTE source is segmented into three
blocks and classified into two intermediate entities and one final one. -/
theorem segmentation_and_classification_counts_witness :
    ∃ blocks : List Str,
      get_individual_scripts (renderSource (("c1").toList) (("a").toList)
        (("select 1\nfrom t").toList) [((("b").toList), (("select 2\nfrom a").toList))]
        (("*\nfrom b").toList)) = some (blocks, ("c1").toList) ∧
      blocks.length = (1 + 1) + 1 ∧
      ∃ entities : List SmallScript,
        blocks.map (fun x => SmallScript.init x (("orig").toList) (("out").toList)) =
          entities.map some ∧
        (entities.filter (fun e => e.is_intermediate)).length = 1 + 1 ∧
        (entities.filter (fun e => !e.is_intermediate)).length = 1 :=
  segmentation_and_classification_counts (("c1").toList) (("a").toList)
    (("select 1\nfrom t").toList) [((("b").toList), (("select 2\nfrom a").toList))]
    (("*\nfrom b").toList) (("orig").toList) (("out").toList)
    (by decide) (by unfold GoodName; decide) (by unfold GoodBody; decide)
    (by unfold GoodName GoodBody; decide) (by unfold GoodBody; decide)
    ⟨(("*").toList), [], (("from b").toList), by decide, by decide, by decide, by decide,
      by decide⟩

end SqlSplit
